import Mathlib

set_option maxRecDepth 2000

deriving instance DecidableEq for Except

namespace TinyDb

/-! Shallow embedding of the tinydb-rs storage engine: `src/util.rs` (crc32),
`src/pager.rs` (pages and the paged data file), `src/wal.rs` (write-ahead log)
and `src/engine.rs` (index, placement, set/get, open-time recovery).

Bytes are naturals below 256.  Files are byte lists.  Machine integers are
naturals, reduced modulo `2 ^ 32` or `2 ^ 64` exactly where the Rust code
truncates (little-endian field encodings truncate by construction).  Fallible
operations return `Except`; a Rust panic (out-of-bounds slice copy, failed
invariant assertion) is modelled as a distinguished outcome, never as a
recoverable error.  Keys reach the engine as `&str`, hence as valid UTF-8,
on which `String::from_utf8_lossy` is the byte-wise identity; keys are
therefore modelled directly as their UTF-8 byte lists. -/

def PAGE_SIZE : Nat := 8192

/-- Top-level constant `HDR_SZ` in `pager.rs` (the value actually compiled is
28, whatever the surrounding comments announce). -/
def HDR_SZ : Nat := 28

/-- Offset of the CRC field in a serialized page (`Page::CRC_OFF`). -/
def CRC_OFF : Nat := 24

/-- Length of the `data` buffer of a `Page` (`PAGE_SIZE - HDR_SZ`). -/
def DATA_CAP : Nat := PAGE_SIZE - HDR_SZ

/-- The helper `pager_hdr_sz()` in `engine.rs`: `PAGE_SIZE - (PAGE_SIZE - 32)`. -/
def pager_hdr_sz : Nat := PAGE_SIZE - (PAGE_SIZE - 32)

/-- Little-endian byte encoding of a natural into `w` bytes (`to_le_bytes`;
truncates modulo `2 ^ (8 * w)` like a cast to the corresponding width). -/
def leBytes : Nat → Nat → List Nat
  | 0, _ => []
  | w + 1, n => n % 256 :: leBytes w (n / 256)

/-- Little-endian decoding of a byte list (`from_le_bytes`). -/
def fromLe : List Nat → Nat
  | [] => 0
  | b :: bs => b + 256 * fromLe bs

/-- One shift round of the crc32 loop in `util.rs`:
`if (crc & 1) != 0 { crc = (crc >> 1) ^ 0xedb88320 } else { crc >>= 1 }`. -/
def crcRound (c : Nat) : Nat :=
  if c % 2 = 1 then (c / 2) ^^^ 0xedb88320 else c / 2

/-- Absorbing one data byte: `crc ^= b as u32` followed by eight rounds. -/
def crcByte (c b : Nat) : Nat := crcRound^[8] (c ^^^ b)

/-- The crc32 function of `util.rs` (IEEE, reflected, init and final xor
`0xffffffff`; the final `!crc` on a `u32` is xor with `0xffffffff`). -/
def crc32 (data : List Nat) : Nat :=
  (data.foldl crcByte 0xffffffff) ^^^ 0xffffffff

/-- Overwrite the slice of `l` starting at `off` with `e`
(`copy_from_slice` semantics; callers check `off + e.length ≤ l.length`). -/
def splice (l : List Nat) (off : Nat) (e : List Nat) : List Nat :=
  l.take off ++ e ++ l.drop (off + e.length)

/-- Read `len` bytes of `l` starting at `off` (a borrowed subslice). -/
def extract (l : List Nat) (off len : Nat) : List Nat :=
  (l.drop off).take len

/-- Write `bytes` into a file at absolute offset `off`, zero-filling any gap
between the current end of file and `off` (POSIX seek-past-end semantics). -/
def writeAt (file : List Nat) (off : Nat) (bytes : List Nat) : List Nat :=
  file.take off ++ List.replicate (off - file.length) 0 ++ bytes ++
    file.drop (off + bytes.length)

/-- Flip bit `t` of byte `i` of a byte string (the fault-injection step of
the corruption tests). -/
def flipBit (l : List Nat) (i t : Nat) : List Nat :=
  l.set i (l.getD i 0 ^^^ 2 ^ t)

/-! ## Pager (`src/pager.rs`) -/

structure Page where
  id : Nat
  lsn : Nat
  used : Nat
  data : List Nat
deriving DecidableEq

/-- `Page::new`: an empty page with a zeroed payload buffer. -/
def Page.new (id : Nat) : Page :=
  ⟨id, 0, 0, List.replicate DATA_CAP 0⟩

/-- Header bytes 0..24 of a serialized page: magic, id, lsn, used. -/
def pageHdr (p : Page) : List Nat :=
  leBytes 4 0xDEADBEEF ++ leBytes 8 p.id ++ leBytes 8 p.lsn ++ leBytes 4 p.used

/-- `Page::to_bytes`.  The buffer is header (24 bytes), the 4-byte CRC slot,
then the payload starting at byte `HDR_SZ = 28`; the CRC is computed over
`buf[0..CRC_OFF] ++ buf[HDR_SZ..PAGE_SIZE]`.  `none` models the
`panic!("page.data length mismatch")` when the buffer length is wrong. -/
def pageBytes (p : Page) : List Nat :=
  pageHdr p ++ leBytes 4 (crc32 (pageHdr p ++ p.data)) ++ p.data

def Page.to_bytes (p : Page) : Option (List Nat) :=
  if p.data.length = PAGE_SIZE - HDR_SZ then some (pageBytes p) else none

inductive PagerErr
  | sizeMismatch (got : Nat)
  | badMagic (m : Nat)
  | crcMismatch (id : Nat)
  | shortRead (n : Nat)
deriving DecidableEq

/-- `Page::from_bytes`: validate length, magic, then the CRC recomputed over
the same bytes `to_bytes` covered. -/
def Page.from_bytes (b : List Nat) : Except PagerErr Page :=
  if b.length ≠ PAGE_SIZE then .error (.sizeMismatch b.length)
  else if fromLe (b.take 4) ≠ 0xDEADBEEF then .error (.badMagic (fromLe (b.take 4)))
  else if crc32 (b.take CRC_OFF ++ b.drop HDR_SZ) ≠ fromLe (extract b CRC_OFF 4) then
    .error (.crcMismatch (fromLe (extract b 4 8)))
  else
    .ok ⟨fromLe (extract b 4 8), fromLe (extract b 12 8),
         fromLe (extract b 20 4), b.drop HDR_SZ⟩

/-- `Pager::read_page`: seek to `pid * PAGE_SIZE` and read once.  Zero bytes
read yields a fresh `Page::new pid`; a short non-zero read is an error;
otherwise decode. -/
def readPage (file : List Nat) (pid : Nat) : Except PagerErr Page :=
  let chunk := extract file (pid * PAGE_SIZE) PAGE_SIZE
  if chunk.length = 0 then .ok (Page.new pid)
  else if chunk.length ≠ PAGE_SIZE then .error (.shortRead chunk.length)
  else Page.from_bytes chunk

/-- `Pager::write_page`: serialize and write the full page at its offset.
`none` models the serialization panic. -/
def writePage (file : List Nat) (p : Page) : Option (List Nat) :=
  (p.to_bytes).map (fun b => writeAt file (p.id * PAGE_SIZE) b)

/-! ## WAL (`src/wal.rs`) -/

inductive WalErr
  | ioError
  | crcMismatch (lsn : Nat)
deriving DecidableEq

def U64 : Nat := 2 ^ 64

/-- One framed log record as `Wal::append` writes it:
`total_len:u64le ++ lsn:u64le ++ crc32(payload):u32le ++ payload`. -/
def walRecord (lsn : Nat) (payload : List Nat) : List Nat :=
  leBytes 8 (12 + payload.length) ++ leBytes 8 lsn ++
    leBytes 4 (crc32 payload) ++ payload

/-- `compute_next_lsn`, scanning from the start of the log.  A failing
`read_exact` on the 8-byte length field breaks the loop; a failing
`read_exact` on the 8-byte lsn field propagates an error (the `?` operator).
After both fields are read the loop seeks `4 + (total_len as i64 - 12)`
bytes further.  In two's-complement i64 arithmetic that delta is the signed
value of `total_len - 8 (mod 2 ^ 64)`.  For `total_len < 2 ^ 63 + 8` it
moves the position to exactly `8 + total_len` bytes past the record start
(for `total_len < 8` this is a small backward seek into the record; seeking
past end of file succeeds and the next iteration breaks).  For
`total_len ≥ 2 ^ 63 + 8` the delta is negative by at least
`2 ^ 64 - total_len - 8` and from every position a real file can reach
(file offsets are i64) the seek target is negative, so the seek — and with
it `Wal::open` — fails with an error. -/
def computeNextLsnAux (rest : List Nat) (next : Nat) : Except WalErr Nat :=
  if rest.length < 8 then .ok next
  else if rest.length < 16 then .error .ioError
  else if fromLe (rest.take 8) < 2 ^ 63 + 8 then
    computeNextLsnAux (rest.drop (8 + fromLe (rest.take 8)))
      (fromLe (extract rest 8 8) + 1)
  else .error .ioError
termination_by rest.length
decreasing_by simp only [List.length_drop]; omega

def compute_next_lsn (file : List Nat) : Except WalErr Nat :=
  computeNextLsnAux file 0

/-- `Wal::replay_from_start` observed through a collecting visitor: the list
of `(lsn, payload)` pairs passed to the visitor, in order, together with the
error that ended the walk (`none` when the loop broke cleanly on a failing
length-field read).  `read_exact` failures on the lsn, crc or payload reads
propagate (`?`), as does a payload CRC mismatch.  `total_len - 12` is u64
wrapping subtraction, written as a case split (`totalLen < 2 ^ 64` always,
it is read from 8 bytes). -/
def replayRecords (rest : List Nat) : List (Nat × List Nat) × Option WalErr :=
  if rest.length < 8 then ([], none)
  else if rest.length < 20 then ([], some .ioError)
  else
    let totalLen := fromLe (rest.take 8)
    let payloadLen := if 12 ≤ totalLen then totalLen - 12 else totalLen + (U64 - 12)
    if rest.length < 20 + payloadLen then ([], some .ioError)
    else
      let lsn := fromLe (extract rest 8 8)
      let payload := extract rest 20 payloadLen
      if crc32 payload ≠ fromLe (extract rest 16 4) then
        ([], some (.crcMismatch lsn))
      else
        let r := replayRecords (rest.drop (20 + payloadLen))
        ((lsn, payload) :: r.1, r.2)
termination_by rest.length
decreasing_by simp only [List.length_drop]; omega

/-! ## Engine (`src/engine.rs`) -/

/-- The in-memory index: `HashMap<String, (u64, u32, u32)>` modelled as an
association list where `insert` conses and lookup takes the newest binding. -/
abbrev Index := List (List Nat × (Nat × Nat × Nat))

def ilookup (idx : Index) (k : List Nat) : Option (Nat × Nat × Nat) :=
  (idx.find? (fun p => p.1 == k)).map (fun p => p.2)

inductive EngErr
  | pager (e : PagerErr)
  | wal (e : WalErr)
  | panicOob
deriving DecidableEq

/-- The in-page key walk of `Engine::open`'s index rebuild: starting at
offset `off`, read `key_len`/`val_len`, stop on the zero-key sentinel or on a
record that would overrun the payload, else bind the key and advance. -/
def parseKvs (payload : List Nat) (pid : Nat) (off : Nat) (idx : Index) : Index :=
  if h12 : off + 12 ≤ payload.length then
    let keyLen := fromLe (extract payload off 4)
    let valLen := fromLe (extract payload (off + 4) 4)
    let total := 8 + keyLen + valLen
    if keyLen = 0 ∨ off + total > payload.length then idx
    else
      parseKvs payload pid (off + total)
        ((extract payload (off + 8) keyLen, (pid, off, valLen)) :: idx)
  else idx
termination_by payload.length - off
decreasing_by omega

/-- The page scan of `Engine::open`: read pages from id 0 until a page with
`used = 0` and `lsn = 0` (in particular any page past end of file) and return
the rebuilt index together with the id of the first such page.  Decode errors
propagate. -/
def scanPages (file : List Nat) (pid : Nat) (idx : Index) :
    Except EngErr (Index × Nat) :=
  if file.length ≤ pid * PAGE_SIZE then .ok (idx, pid)
  else
    match readPage file pid with
    | .error e => .error (.pager e)
    | .ok page =>
      if page.used = 0 ∧ page.lsn = 0 then .ok (idx, pid)
      else scanPages file (pid + 1) (parseKvs page.data pid 0 idx)
termination_by file.length - pid * PAGE_SIZE
decreasing_by
  have : pid * PAGE_SIZE + PAGE_SIZE = (pid + 1) * PAGE_SIZE := by ring
  simp only [PAGE_SIZE] at *; omega

/-- The state threaded through `Engine::open`'s replay visitor. -/
structure RState where
  dataFile : List Nat
  idx : Index
deriving DecidableEq

/-- The SET payload built by `Engine::set`:
`"SET" ++ page_id:u64 ++ offset:u32 ++ key_len:u32 ++ val_len:u32 ++ key ++ val`. -/
def setPayload (pid off : Nat) (key val : List Nat) : List Nat :=
  [0x53, 0x45, 0x54] ++ leBytes 8 pid ++ leBytes 4 off ++
    leBytes 4 key.length ++ leBytes 4 val.length ++ key ++ val

/-- The in-page encoding of one record:
`key_len:u32 ++ val_len:u32 ++ key ++ val`. -/
def entryOf (key val : List Nat) : List Nat :=
  leBytes 4 key.length ++ leBytes 4 val.length ++ key ++ val

/-- The replay visitor body in `Engine::open`: ignore payloads shorter than 3
bytes or without the `SET` tag; otherwise decode the record, read the page,
splice the re-encoded entry at the logged offset, raise `used` to at least the
entry end, stamp the page lsn and write it back, then rebind the index.
`panicOob` models the panics of out-of-range slicing on a corrupt payload. -/
def applySet (st : RState) (lsn : Nat) (payload : List Nat) :
    Except EngErr RState :=
  if payload.length < 3 then .ok st
  else if payload.take 3 ≠ [0x53, 0x45, 0x54] then .ok st
  else
    let pid := fromLe (extract payload 3 8)
    let off := fromLe (extract payload 11 4)
    let keyLen := fromLe (extract payload 15 4)
    let valLen := fromLe (extract payload 19 4)
    if 23 + keyLen + valLen > payload.length then .error .panicOob
    else
      let key := extract payload 23 keyLen
      let val := extract payload (23 + keyLen) valLen
      match readPage st.dataFile pid with
      | .error e => .error (.pager e)
      | .ok page =>
        let entry := entryOf key val
        if off + entry.length > page.data.length then .error .panicOob
        else
          let page2 : Page :=
            ⟨page.id, lsn, max page.used (off + entry.length),
             splice page.data off entry⟩
          match writePage st.dataFile page2 with
          | none => .error .panicOob
          | some df => .ok ⟨df, (key, (pid, off, valLen)) :: st.idx⟩

/-- The replay loop of `Engine::open`, interleaving record parsing with the
visitor exactly as `Wal::replay_from_start` does. -/
def replayApply (rest : List Nat) (st : RState) : Except EngErr RState :=
  if rest.length < 8 then .ok st
  else if rest.length < 20 then .error (.wal .ioError)
  else
    let totalLen := fromLe (rest.take 8)
    let payloadLen := if 12 ≤ totalLen then totalLen - 12 else totalLen + (U64 - 12)
    if rest.length < 20 + payloadLen then .error (.wal .ioError)
    else
      let lsn := fromLe (extract rest 8 8)
      let payload := extract rest 20 payloadLen
      if crc32 payload ≠ fromLe (extract rest 16 4) then
        .error (.wal (.crcMismatch lsn))
      else
        match applySet st lsn payload with
        | .error e => .error e
        | .ok st2 => replayApply (rest.drop (20 + payloadLen)) st2
termination_by rest.length
decreasing_by simp only [List.length_drop]; omega

/-- The engine state: WAL file and its next-lsn counter, the paged data file,
the in-memory index, and the next-page cursor. -/
structure Engine where
  walFile : List Nat
  nextLsn : Nat
  dataFile : List Nat
  index : Index
  nextPage : Nat
deriving DecidableEq

/-- `Engine::open`: open the WAL (scanning for the next lsn), rebuild the
index by the page scan, then replay the log from the start applying every
record to the pager and the index.  The cursor is the id of the first
all-empty page found by the scan; replay does not move it. -/
def Engine.open (dataFile walFile : List Nat) : Except EngErr Engine :=
  match compute_next_lsn walFile with
  | .error e => .error (.wal e)
  | .ok nextLsn =>
    match scanPages dataFile 0 [] with
    | .error e => .error e
    | .ok (idx, nextPage) =>
      match replayApply walFile ⟨dataFile, idx⟩ with
      | .error e => .error e
      | .ok rst => .ok ⟨walFile, nextLsn, rst.dataFile, rst.idx, nextPage⟩

inductive SetResult
  | ok (st : Engine)
  | fail (st : Engine) (e : EngErr)
  | panicked
deriving DecidableEq

/-- `Engine::set` with failure injection for the two WAL syscalls: `fa` makes
`wal.append` fail, `fs` makes `wal.sync` fail (modelling the underlying I/O
failing; both `false` is an error-free filesystem).  The control flow follows
the source: read the cursor page, roll over to a fresh page when
`PAGE_SIZE - pager_hdr_sz() < used + entry_len`, build the WAL payload from
the chosen placement, append then fsync the WAL, and only then re-read the
page, splice the entry at the placement offset, set `used` and `lsn`, write
and fsync the page, and rebind the index.  `panicked` models the
out-of-bounds `copy_from_slice`. -/
def Engine.setWith (fa fs : Bool) (st : Engine) (key val : List Nat) : SetResult :=
  let entryLen := 8 + key.length + val.length
  match readPage st.dataFile st.nextPage with
  | .error e => .fail st (.pager e)
  | .ok page0 =>
    let roll := PAGE_SIZE - pager_hdr_sz < page0.used + entryLen
    let pid := if roll then st.nextPage + 1 else st.nextPage
    let st1 := if roll then { st with nextPage := st.nextPage + 1 } else st
    let off := if roll then (Page.new pid).used else page0.used
    if fa then .fail st1 (.wal .ioError)
    else
      let lsn := st1.nextLsn
      let payload := setPayload pid off key val
      let st2 : Engine :=
        { st1 with
          walFile := st1.walFile ++ walRecord lsn payload
          nextLsn := lsn + 1 }
      if fs then .fail st2 (.wal .ioError)
      else
        match readPage st2.dataFile pid with
        | .error e => .fail st2 (.pager e)
        | .ok page2 =>
          let entry := entryOf key val
          if off + entry.length > page2.data.length then .panicked
          else
            let page3 : Page := ⟨pid, lsn, off + entry.length,
                                 splice page2.data off entry⟩
            match writePage st2.dataFile page3 with
            | none => .panicked
            | some df =>
              .ok { st2 with
                    dataFile := df
                    index := (key, (pid, off, val.length)) :: st2.index }

/-- `Engine::set` under an error-free filesystem. -/
def Engine.set (st : Engine) (key val : List Nat) : SetResult :=
  Engine.setWith false false st key val

/-- `Engine::get`: look the key up, read the indexed page, parse the record
header at the stored offset and return the value bytes. -/
def Engine.get (st : Engine) (k : List Nat) :
    Except EngErr (Option (List Nat)) :=
  match ilookup st.index k with
  | none => .ok none
  | some (pid, off, _) =>
    match readPage st.dataFile pid with
    | .error e => .error (.pager e)
    | .ok page =>
      let keyLen := fromLe (extract page.data off 4)
      let valLen := fromLe (extract page.data (off + 4) 4)
      if off + 8 + keyLen + valLen > page.data.length then .error .panicOob
      else .ok (some (extract page.data (off + 8 + keyLen) valLen))

/-- The engine state produced by `Engine::open` on a fresh directory (both
files empty). -/
def Engine.init : Engine := ⟨[], 0, [], [], 0⟩

/-- Run a history of `set` calls from a starting state; `none` as soon as one
is not successful. -/
def runSets (st : Engine) : List (List Nat × List Nat) → Option Engine
  | [] => some st
  | (k, v) :: ops =>
    match Engine.set st k v with
    | .ok st2 => runSets st2 ops
    | _ => none

/-! ## Spec-side description of reachable engine states

The placement fold below mirrors, op by op, the page/offset decisions that
`Engine::set` makes; the characterization theorems prove that `runSets`
produces exactly the state it describes. -/

/-- One placed record: the page, offset, key/value bytes and lsn that a
successful `set` chose. -/
structure Pl where
  pid : Nat
  off : Nat
  key : List Nat
  val : List Nat
  lsn : Nat
deriving DecidableEq

def eLen (r : Pl) : Nat := 8 + r.key.length + r.val.length

def entry (r : Pl) : List Nat := entryOf r.key r.val

/-- The placement fold state: placements so far, current page, current used
(the used counter of the current page as stored on disk). -/
def placeStep : List Pl × Nat × Nat → List Nat × List Nat → List Pl × Nat × Nat
  | (pls, pid, used), (k, v) =>
    let L := 8 + k.length + v.length
    if PAGE_SIZE - pager_hdr_sz < used + L then
      (pls ++ [⟨pid + 1, 0, k, v, pls.length⟩], pid + 1, L)
    else
      (pls ++ [⟨pid, used, k, v, pls.length⟩], pid, used + L)

def placeAll (ops : List (List Nat × List Nat)) : List Pl × Nat × Nat :=
  ops.foldl placeStep ([], 0, 0)

def placements (ops : List (List Nat × List Nat)) : List Pl := (placeAll ops).1

def curPid (ops : List (List Nat × List Nat)) : Nat := (placeAll ops).2.1

def curUsed (ops : List (List Nat × List Nat)) : Nat := (placeAll ops).2.2

/-- The placements living on page `q`, in placement order. -/
def pageEntries (ps : List Pl) (q : Nat) : List Pl :=
  ps.filter (fun r => r.pid == q)

/-- The payload buffer of page `q`: all entries spliced into zeroes. -/
def pageData (ps : List Pl) (q : Nat) : List Nat :=
  (pageEntries ps q).foldl (fun d r => splice d r.off (entry r))
    (List.replicate DATA_CAP 0)

/-- The used counter of page `q`: the end of its last entry (0 if empty). -/
def pageUsed (ps : List Pl) (q : Nat) : Nat :=
  (pageEntries ps q).foldl (fun _ r => r.off + eLen r) 0

/-- The on-disk lsn of page `q` after all records with lsn below `j` have
been re-applied: the last such entry's lsn, or the live (final) lsn if no
entry of the page has been re-applied yet.  With `j = 0` this is the live
page lsn. -/
def pageLsnR (ps : List Pl) (q j : Nat) : Nat :=
  let es := (pageEntries ps q).filter (fun r => decide (r.lsn < j))
  if es.isEmpty then (pageEntries ps q).foldl (fun _ r => r.lsn) 0
  else es.foldl (fun _ r => r.lsn) 0

def pageStateR (ps : List Pl) (q j : Nat) : Page :=
  ⟨q, pageLsnR ps q j, pageUsed ps q, pageData ps q⟩

/-- One 8192-byte block of the data file: all zeroes for a page never
written, else the serialized page image. -/
def specBlock (ps : List Pl) (q j : Nat) : List Nat :=
  if pageEntries ps q = [] then List.replicate PAGE_SIZE 0
  else pageBytes (pageStateR ps q j)

/-- The first `n` pages of the data file. -/
def specFile (ps : List Pl) (j : Nat) : Nat → List Nat
  | 0 => []
  | n + 1 => specFile ps j n ++ specBlock ps n j

/-- The number of pages of the data file. -/
def numPages (ops : List (List Nat × List Nat)) : Nat :=
  if placements ops = [] then 0 else curPid ops + 1

def specIndex (ps : List Pl) : Index :=
  (ps.map (fun r => (r.key, (r.pid, r.off, r.val.length)))).reverse

def specWalPairs (ps : List Pl) : List (Nat × List Nat) :=
  ps.map (fun r => (r.lsn, setPayload r.pid r.off r.key r.val))

/-- A log file assembled by appending framed records in order. -/
def encodeLog : List (Nat × List Nat) → List Nat
  | [] => []
  | (lsn, p) :: rs => walRecord lsn p ++ encodeLog rs

/-- The engine state after a history of successful sets on a fresh
directory. -/
def specEngine (ops : List (List Nat × List Nat)) : Engine :=
  ⟨encodeLog (specWalPairs (placements ops)), (placements ops).length,
   specFile (placements ops) 0 (numPages ops),
   specIndex (placements ops), curPid ops⟩

/-- Offsets within a page are consecutive: each entry starts where the
previous one ended. -/
def chainFrom : Nat → List Pl → Prop
  | _, [] => True
  | o, r :: rs => r.off = o ∧ chainFrom (r.off + eLen r) rs

/-- Byte-range side condition on a history: keys and values are byte
strings. -/
def opsBytes (ops : List (List Nat × List Nat)) : Prop :=
  ∀ op ∈ ops, (∀ b ∈ op.1, b < 256) ∧ (∀ b ∈ op.2, b < 256)

/-- Every record of the history fits a page buffer. -/
def opsFit (ops : List (List Nat × List Nat)) : Prop :=
  ∀ op ∈ ops, 8 + op.1.length + op.2.length ≤ DATA_CAP

/-- The value of the last successful set on `k` in the history. -/
def lastVal (ops : List (List Nat × List Nat)) (k : List Nat) :
    Option (List Nat) :=
  ((ops.filter (fun op => op.1 == k)).getLast?).map (fun op => op.2)

/-- Engine states reachable from a fresh directory by successful sets of
byte-string records that fit a page, with the u64 lsn counter not wrapped. -/
def Reach (st : Engine) : Prop :=
  ∃ ops, opsFit ops ∧ opsBytes ops ∧ ops.length + 1 < U64
    ∧ runSets Engine.init ops = some st

/-! ## Derived log-shape definitions used in the statements -/

/-- Payload list tagged with consecutive LSNs starting at `i`. -/
def denseFrom (i : Nat) : List (List Nat) → List (Nat × List Nat)
  | [] => []
  | p :: ps => (i, p) :: denseFrom (i + 1) ps

/-- Machine-width and byte-range side conditions on framed records: each lsn
fits a u64, each record length fits a u64, each payload byte is a byte. -/
def goodPairs (rs : List (Nat × List Nat)) : Prop :=
  ∀ r ∈ rs, r.1 < U64 ∧ 12 + r.2.length < U64 ∧ ∀ b ∈ r.2, b < 256

/-- WAL files reachable through the `Wal` interface alone: starting from an
empty file, appends (`Wal::append` writes a record carrying the current
counter and bumps it) and reopenings (`Wal::open` recomputes the counter by
scanning).  The side conditions state that the payload is a byte string whose
record fits a u64 length and that the u64 lsn counter has not wrapped. -/
inductive WalReach : List Nat → Nat → Prop
  | base : WalReach [] 0
  | append {f : List Nat} {n : Nat} (p : List Nat)
      (hlen : 12 + p.length < U64) (hb : ∀ b ∈ p, b < 256) (hn : n < U64) :
      WalReach f n → WalReach (f ++ walRecord n p) (n + 1)
  | reopen {f : List Nat} {n m : Nat} :
      WalReach f n → compute_next_lsn f = .ok m → WalReach f m

/-! ## Byte-encoding lemmas -/

@[simp]
theorem leBytes_length (w n : Nat) : (leBytes w n).length = w := by
  induction w generalizing n with
  | zero => rfl
  | succ w ih => simp [leBytes, ih]

theorem leBytes_lt (w n : Nat) : ∀ b ∈ leBytes w n, b < 256 := by
  induction w generalizing n with
  | zero => simp [leBytes]
  | succ w ih =>
    intro b hb
    simp only [leBytes, List.mem_cons] at hb
    rcases hb with h | h
    · omega
    · exact ih _ b h

theorem fromLe_leBytes (w n : Nat) : fromLe (leBytes w n) = n % 256 ^ w := by
  induction w generalizing n with
  | zero => simp [leBytes, fromLe, Nat.mod_one]
  | succ w ih =>
    simp only [leBytes, fromLe, ih]
    rw [pow_succ, show (256 : Nat) ^ w * 256 = 256 * 256 ^ w from mul_comm _ _,
      Nat.mod_mul]

theorem fromLe_leBytes_small {w n : Nat} (h : n < 256 ^ w) :
    fromLe (leBytes w n) = n := by
  rw [fromLe_leBytes, Nat.mod_eq_of_lt h]

/-! ## Subslice and splice lemmas -/

theorem extract_zero (l : List Nat) (k : Nat) : extract l 0 k = l.take k := by
  simp [extract]

theorem extract_eq_nil {l : List Nat} {off : Nat} (h : l.length ≤ off) (k : Nat) :
    extract l off k = [] := by
  have : l.drop off = [] := List.drop_eq_nil_of_le h
  simp [extract, this]

@[simp]
theorem extract_length (l : List Nat) (off k : Nat) :
    (extract l off k).length = min k (l.length - off) := by
  simp [extract]

theorem extract_length_of_le {l : List Nat} {off k : Nat}
    (h : off + k ≤ l.length) : (extract l off k).length = k := by
  simp [extract]; omega

theorem drop_skip (l₁ l₂ : List Nat) (m : Nat) :
    (l₁ ++ l₂).drop (l₁.length + m) = l₂.drop m := by
  rw [List.drop_append]

theorem drop_skip' {l₁ : List Nat} (l₂ : List Nat) {a o m : Nat}
    (h : l₁.length = a) (hm : a + m = o) : (l₁ ++ l₂).drop o = l₂.drop m := by
  subst hm; rw [← h, List.drop_append]

theorem drop_exact {l₁ : List Nat} (l₂ : List Nat) {o : Nat}
    (h : l₁.length = o) : (l₁ ++ l₂).drop o = l₂ := by
  simpa using drop_skip' l₂ h (Nat.add_zero o)

theorem extract_skip' {l₁ : List Nat} (l₂ : List Nat) {a o m k : Nat}
    (h : l₁.length = a) (hm : a + m = o) :
    extract (l₁ ++ l₂) o k = extract l₂ m k := by
  simp only [extract, drop_skip' l₂ h hm]

theorem extract_exact {l₁ l₂ : List Nat} (l₃ : List Nat) {o k : Nat}
    (h₁ : l₁.length = o) (h₂ : l₂.length = k) :
    extract (l₁ ++ (l₂ ++ l₃)) o k = l₂ := by
  rw [extract_skip' (l₂ ++ l₃) h₁ (Nat.add_zero o), extract_zero,
    List.take_left' h₂]

theorem extract_prefix {l₁ : List Nat} (l₂ : List Nat) {k : Nat}
    (h : l₁.length = k) : extract (l₁ ++ l₂) 0 k = l₁ := by
  rw [extract_zero, List.take_left' h]

@[simp]
theorem splice_length {l e : List Nat} {off : Nat} (h : off + e.length ≤ l.length) :
    (splice l off e).length = l.length := by
  simp [splice]; omega

theorem extract_splice_self {l e : List Nat} {off : Nat}
    (h : off + e.length ≤ l.length) :
    extract (splice l off e) off e.length = e := by
  have ht : (l.take off).length = off := by simp; omega
  rw [splice, List.append_assoc, extract_skip' _ ht (Nat.add_zero off),
    extract_prefix _ rfl]

theorem extract_splice_before {l e : List Nat} {off o k : Nat}
    (hlen : off + e.length ≤ l.length) (h : o + k ≤ off) :
    extract (splice l off e) o k = extract l o k := by
  have ht : (l.take off).length = off := by simp; omega
  have hdrop : (splice l off e).drop o = (l.take off).drop o ++ (e ++ l.drop (off + e.length)) := by
    rw [splice, List.append_assoc]
    rw [List.drop_append_of_le_length (by omega)]
  have hdrop2 : l.drop o = (l.take off).drop o ++ l.drop off := by
    conv_lhs => rw [← List.take_append_drop off l]
    rw [List.drop_append_of_le_length (by omega)]
  have hlt : ((l.take off).drop o).length = off - o := by simp; omega
  rw [extract, extract, hdrop, hdrop2,
    List.take_append_of_le_length (by omega), List.take_append_of_le_length (by omega)]

theorem extract_splice_after {l e : List Nat} {off o k : Nat}
    (hlen : off + e.length ≤ l.length) (h : off + e.length ≤ o) :
    extract (splice l off e) o k = extract l o k := by
  have ht : (l.take off ++ e).length = off + e.length := by simp; omega
  have h1 : (splice l off e).drop o
      = (l.drop (off + e.length)).drop (o - (off + e.length)) := by
    rw [splice]
    exact drop_skip' _ ht (by omega)
  have h2 : l.drop o = (l.drop (off + e.length)).drop (o - (off + e.length)) := by
    rw [List.drop_drop]; congr 1; omega
  rw [extract, extract, h1, ← h2]

theorem splice_decomp (l : List Nat) (off m : Nat) :
    l.take off ++ (extract l off m ++ l.drop (off + m)) = l := by
  rw [extract, ← List.drop_drop, List.take_append_drop, List.take_append_drop]

theorem splice_of_extract_eq {l e : List Nat} {off : Nat}
    (h : extract l off e.length = e) :
    splice l off e = l := by
  conv_rhs => rw [← splice_decomp l off e.length]
  rw [splice, List.append_assoc, h]

/-! ## CRC-32 lemmas: range, linearity over xor, and single-bit sensitivity -/

theorem crcRound_lt {c : Nat} (h : c < 2 ^ 32) : crcRound c < 2 ^ 32 := by
  unfold crcRound
  split
  · exact Nat.xor_lt_two_pow (by omega) (by norm_num)
  · omega

theorem crcRound_iter_lt {c : Nat} (h : c < 2 ^ 32) (n : Nat) :
    crcRound^[n] c < 2 ^ 32 := by
  induction n with
  | zero => simpa using h
  | succ n ih => rw [Function.iterate_succ_apply']; exact crcRound_lt ih

theorem crcByte_lt {c b : Nat} (hc : c < 2 ^ 32) (hb : b < 256) :
    crcByte c b < 2 ^ 32 := by
  exact crcRound_iter_lt (Nat.xor_lt_two_pow hc (by omega)) 8

theorem crcFold_lt {data : List Nat} (h : ∀ b ∈ data, b < 256) :
    ∀ {c : Nat}, c < 2 ^ 32 → data.foldl crcByte c < 2 ^ 32 := by
  induction data with
  | nil => intro c hc; simpa using hc
  | cons b bs ih =>
    intro c hc
    rw [List.foldl_cons]
    exact ih (fun x hx => h x (List.mem_cons_of_mem b hx))
      (crcByte_lt hc (h b (List.mem_cons_self b bs)))

theorem crc32_lt {data : List Nat} (h : ∀ b ∈ data, b < 256) :
    crc32 data < 2 ^ 32 := by
  exact Nat.xor_lt_two_pow (crcFold_lt h (by norm_num)) (by norm_num)

theorem xor_div_two (x y : Nat) : (x ^^^ y) / 2 = x / 2 ^^^ y / 2 := by
  apply Nat.eq_of_testBit_eq
  intro i
  simp [Nat.testBit_div_two, Nat.testBit_xor]

theorem xor_swap_right (a b c : Nat) : a ^^^ b ^^^ c = a ^^^ c ^^^ b := by
  rw [Nat.xor_assoc, Nat.xor_comm b c, ← Nat.xor_assoc]

theorem xor_pair_cancel (a b c : Nat) : (a ^^^ c) ^^^ (b ^^^ c) = a ^^^ b := by
  apply Nat.eq_of_testBit_eq
  intro i
  simp only [Nat.testBit_xor]
  cases a.testBit i <;> cases b.testBit i <;> cases c.testBit i <;> rfl

theorem crcRound_linear (x y : Nat) :
    crcRound (x ^^^ y) = crcRound x ^^^ crcRound y := by
  have hxy : (x ^^^ y) % 2 = (x + y) % 2 := Nat.xor_mod_two_eq
  unfold crcRound
  rcases Nat.mod_two_eq_zero_or_one x with hx | hx <;>
    rcases Nat.mod_two_eq_zero_or_one y with hy | hy
  · rw [if_neg (by omega), if_neg (by omega), if_neg (by omega), xor_div_two]
  · rw [if_pos (by omega), if_neg (by omega), if_pos (by omega), xor_div_two,
      Nat.xor_assoc]
  · rw [if_pos (by omega), if_pos (by omega), if_neg (by omega), xor_div_two,
      xor_swap_right]
  · rw [if_neg (by omega), if_pos (by omega), if_pos (by omega), xor_div_two,
      xor_pair_cancel]

theorem crcRound_iter_linear (n x y : Nat) :
    crcRound^[n] (x ^^^ y) = crcRound^[n] x ^^^ crcRound^[n] y := by
  induction n with
  | zero => simp
  | succ n ih =>
    rw [Function.iterate_succ_apply', Function.iterate_succ_apply',
      Function.iterate_succ_apply', ih, crcRound_linear]

theorem crcByte_xor_left (c d b : Nat) :
    crcByte (c ^^^ d) b = crcByte c b ^^^ crcRound^[8] d := by
  unfold crcByte
  rw [xor_swap_right, crcRound_iter_linear]

theorem foldl_crcByte_xor (data : List Nat) (c d : Nat) :
    data.foldl crcByte (c ^^^ d)
      = data.foldl crcByte c ^^^ crcRound^[8 * data.length] d := by
  induction data generalizing c d with
  | nil => simp
  | cons b bs ih =>
    rw [List.foldl_cons, List.foldl_cons, crcByte_xor_left, ih]
    rw [List.length_cons, show 8 * (bs.length + 1) = 8 * bs.length + 8 by ring,
      Function.iterate_add_apply]

theorem crcRound_eq_zero {c : Nat} (h : c < 2 ^ 32) (h0 : crcRound c = 0) :
    c = 0 := by
  unfold crcRound at h0
  by_cases hpar : c % 2 = 1
  · rw [if_pos hpar] at h0
    exfalso
    have hbit : (c / 2 ^^^ 0xedb88320).testBit 31 = false := by
      rw [h0]; simp
    rw [Nat.testBit_xor] at hbit
    have hc2 : c / 2 < 2 ^ 31 := by omega
    rw [Nat.testBit_lt_two_pow hc2] at hbit
    have : Nat.testBit 0xedb88320 31 = true := by decide
    rw [this] at hbit
    simp at hbit
  · rw [if_neg hpar] at h0
    omega

theorem crcRound_iter_ne_zero {c : Nat} (h : c < 2 ^ 32) (h0 : c ≠ 0) (n : Nat) :
    crcRound^[n] c ≠ 0 := by
  induction n with
  | zero => simpa using h0
  | succ n ih =>
    rw [Function.iterate_succ_apply']
    intro hz
    exact ih (crcRound_eq_zero (crcRound_iter_lt h n) hz)

theorem foldl_crcByte_set {pre post : List Nat} {x : Nat} (c : Nat) :
    (pre ++ x :: post).foldl crcByte c
      = post.foldl crcByte (crcByte (pre.foldl crcByte c) x) := by
  rw [List.foldl_append, List.foldl_cons]

/-- Flipping any single bit of any byte of a byte string changes its crc32
(the shift-register map is injective on 32-bit values, so the linear
difference introduced by the flip never dies out). -/
theorem crc32_flipBit_ne {l : List Nat} {j : Nat} (hj : j < l.length)
    {t : Nat} (ht : t < 32) :
    crc32 (l.set j (l[j] ^^^ 2 ^ t)) ≠ crc32 l := by
  have hsplit : l.set j (l[j] ^^^ 2 ^ t)
      = l.take j ++ (l[j] ^^^ 2 ^ t) :: l.drop (j + 1) := by
    rw [List.set_eq_take_append_cons_drop, if_pos hj]
  have hl2 : l = l.take j ++ l[j] :: l.drop (j + 1) := by
    conv_lhs => rw [← List.take_append_drop j l, List.drop_eq_getElem_cons hj]
  have hfold1 : (l.set j (l[j] ^^^ 2 ^ t)).foldl crcByte 0xffffffff
      = (l.drop (j + 1)).foldl crcByte
          (crcByte ((l.take j).foldl crcByte 0xffffffff) (l[j] ^^^ 2 ^ t)) := by
    rw [hsplit]; exact foldl_crcByte_set _
  have hfold2 : l.foldl crcByte 0xffffffff
      = (l.drop (j + 1)).foldl crcByte
          (crcByte ((l.take j).foldl crcByte 0xffffffff) l[j]) := by
    conv_lhs => rw [hl2]
    exact foldl_crcByte_set _
  have hstep : crcByte ((l.take j).foldl crcByte 0xffffffff) (l[j] ^^^ 2 ^ t)
      = crcByte ((l.take j).foldl crcByte 0xffffffff) l[j]
          ^^^ crcRound^[8] (2 ^ t) := by
    unfold crcByte
    rw [← Nat.xor_assoc, crcRound_iter_linear]
  have hDlt : (2 : Nat) ^ t < 2 ^ 32 :=
    Nat.pow_lt_pow_right (by norm_num) ht
  have hD : crcRound^[8 * (l.drop (j + 1)).length] (crcRound^[8] (2 ^ t)) ≠ 0 := by
    rw [← Function.iterate_add_apply]
    exact crcRound_iter_ne_zero hDlt (pow_pos (by norm_num : (0 : Nat) < 2) t).ne' _
  intro heq
  unfold crc32 at heq
  rw [hfold1, hfold2, hstep, foldl_crcByte_xor] at heq
  have h1 := congrArg (fun z => z ^^^ 0xffffffff) heq
  simp only [Nat.xor_cancel_right] at h1
  have h2 := congrArg
    (fun z => ((l.drop (j + 1)).foldl crcByte
      (crcByte ((l.take j).foldl crcByte 0xffffffff) l[j])) ^^^ z) h1
  simp only [Nat.xor_cancel_left, Nat.xor_self] at h2
  exact hD h2

/-! ## Page serialization lemmas -/

theorem take_set_of_le {l : List Nat} {i k v : Nat} (h : k ≤ i) :
    (l.set i v).take k = l.take k := by
  apply List.ext_getElem
  · simp
  · intro n h1 h2
    rw [List.getElem_take, List.getElem_take, List.getElem_set,
      if_neg (by simp at h1; omega)]

theorem fromLe_set_ne {l : List Nat} (hl : ∀ b ∈ l, b < 256) {j : Nat}
    (hj : j < l.length) {v : Nat} (hv : v < 256) (hne : v ≠ l[j]) :
    fromLe (l.set j v) ≠ fromLe l := by
  induction l generalizing j with
  | nil => simp at hj
  | cons b bs ih =>
    cases j with
    | zero =>
      simp only [List.set_cons_zero, fromLe]
      have hb : b < 256 := hl b (List.mem_cons_self b bs)
      simp only [List.getElem_cons_zero] at hne
      intro hc
      omega
    | succ j =>
      simp only [List.set_cons_succ, fromLe]
      have hj2 : j < bs.length := by simpa using hj
      have hne2 : v ≠ bs[j] := by simpa using hne
      have := ih (fun x hx => hl x (List.mem_cons_of_mem b hx)) hj2 hne2
      intro hc
      omega

@[simp]
theorem pageHdr_length (p : Page) : (pageHdr p).length = 24 := by
  simp [pageHdr]

theorem pageBytes_length {p : Page} (h : p.data.length = DATA_CAP) :
    (pageBytes p).length = PAGE_SIZE := by
  simp [pageBytes, h, DATA_CAP, PAGE_SIZE, HDR_SZ]

theorem pageBytes_take4 (p : Page) :
    (pageBytes p).take 4 = leBytes 4 0xDEADBEEF := by
  simp only [pageBytes, pageHdr, List.append_assoc]
  rw [List.take_append_of_le_length (by simp),
    List.take_of_length_le (by simp)]

theorem pageBytes_extract_id (p : Page) :
    extract (pageBytes p) 4 8 = leBytes 8 p.id := by
  simp only [pageBytes, pageHdr, List.append_assoc]
  exact extract_exact _ (by simp) (by simp)

theorem pageBytes_extract_lsn (p : Page) :
    extract (pageBytes p) 12 8 = leBytes 8 p.lsn := by
  simp only [pageBytes, pageHdr, List.append_assoc]
  rw [extract_skip' _ (leBytes_length 4 0xDEADBEEF) (show 4 + 8 = 12 by omega)]
  exact extract_exact _ (by simp) (by simp)

theorem pageBytes_extract_used (p : Page) :
    extract (pageBytes p) 20 4 = leBytes 4 p.used := by
  simp only [pageBytes, pageHdr, List.append_assoc]
  rw [extract_skip' _ (leBytes_length 4 0xDEADBEEF) (show 4 + 16 = 20 by omega),
    extract_skip' _ (leBytes_length 8 p.id) (show 8 + 8 = 16 by omega),
    extract_skip' _ (leBytes_length 8 p.lsn) (show 8 + 0 = 8 by omega)]
  exact extract_prefix _ (by simp)

theorem pageBytes_extract_crc (p : Page) :
    extract (pageBytes p) 24 4 = leBytes 4 (crc32 (pageHdr p ++ p.data)) := by
  simp only [pageBytes, pageHdr, List.append_assoc]
  rw [extract_skip' _ (leBytes_length 4 0xDEADBEEF) (show 4 + 20 = 24 by omega),
    extract_skip' _ (leBytes_length 8 p.id) (show 8 + 12 = 20 by omega),
    extract_skip' _ (leBytes_length 8 p.lsn) (show 8 + 4 = 12 by omega),
    extract_skip' _ (leBytes_length 4 p.used) (show 4 + 0 = 4 by omega)]
  exact extract_prefix _ (by simp)

theorem pageBytes_take24 (p : Page) :
    (pageBytes p).take 24 = pageHdr p := by
  simp only [pageBytes]
  rw [List.append_assoc, List.take_left' (pageHdr_length p)]

theorem pageBytes_drop28 (p : Page) :
    (pageBytes p).drop 28 = p.data := by
  simp only [pageBytes]
  exact drop_exact _ (by simp)

theorem pageHdr_bytes_lt (p : Page) : ∀ b ∈ pageHdr p, b < 256 := by
  intro b hb
  simp only [pageHdr, List.mem_append] at hb
  rcases hb with ((h | h) | h) | h <;> exact leBytes_lt _ _ b h

/-- Round trip: a serialized page decodes to the page whose fields are
reduced to their machine widths. -/
theorem from_bytes_pageBytes {p : Page} (hdata : p.data.length = DATA_CAP)
    (hbytes : ∀ b ∈ p.data, b < 256)
    (hid : p.id < 2 ^ 64) (hlsn : p.lsn < 2 ^ 64) (hused : p.used < 2 ^ 32) :
    Page.from_bytes (pageBytes p) = .ok p := by
  have hcrcb : ∀ b ∈ pageHdr p ++ p.data, b < 256 := by
    intro b hb
    rcases List.mem_append.mp hb with h | h
    · exact pageHdr_bytes_lt p b h
    · exact hbytes b h
  have hcrclt : crc32 (pageHdr p ++ p.data) < 2 ^ 32 := crc32_lt hcrcb
  have hmagic : fromLe ((pageBytes p).take 4) = 0xDEADBEEF := by
    rw [pageBytes_take4, fromLe_leBytes_small (by norm_num)]
  have hsrc : (pageBytes p).take CRC_OFF ++ (pageBytes p).drop HDR_SZ
      = pageHdr p ++ p.data := by
    rw [show CRC_OFF = 24 from rfl, show HDR_SZ = 28 from rfl,
      pageBytes_take24, pageBytes_drop28]
  unfold Page.from_bytes
  rw [if_neg (by rw [pageBytes_length hdata]; exact fun h => h rfl)]
  rw [if_neg (by rw [hmagic]; exact fun h => h rfl)]
  rw [if_neg ?hcrc]
  case hcrc =>
    intro hne
    rw [hsrc, show CRC_OFF = 24 from rfl, pageBytes_extract_crc,
      fromLe_leBytes_small (by exact lt_of_lt_of_le hcrclt (by norm_num))] at hne
    exact hne rfl
  rw [show HDR_SZ = 28 from rfl, pageBytes_extract_id, pageBytes_extract_lsn,
    pageBytes_extract_used, pageBytes_drop28,
    fromLe_leBytes_small (by exact lt_of_lt_of_le hid (by norm_num)),
    fromLe_leBytes_small (by exact lt_of_lt_of_le hlsn (by norm_num)),
    fromLe_leBytes_small (by exact lt_of_lt_of_le hused (by norm_num))]

theorem xor_ne_self {x d : Nat} (hd : d ≠ 0) : x ^^^ d ≠ x := by
  intro hc
  have h2 := congrArg (fun z => x ^^^ z) hc
  simp only [Nat.xor_cancel_left, Nat.xor_self] at h2
  exact hd h2

theorem take_set_of_lt {l : List Nat} {i k : Nat} (v : Nat) (h : i < k) :
    (l.set i v).take k = (l.take k).set i v := by
  apply List.ext_getElem
  · simp
  · intro n h1 h2
    rw [List.getElem_take, List.getElem_set, List.getElem_set]
    by_cases hin : i = n
    · simp [hin]
    · rw [if_neg hin, if_neg hin, List.getElem_take]

theorem getD_take {l : List Nat} {j k : Nat} (d : Nat) (h : j < k) :
    (l.take k).getD j d = l.getD j d := by
  by_cases hj : j < l.length
  · rw [List.getD_eq_getElem _ _ (by simp; omega), List.getD_eq_getElem _ _ hj,
      List.getElem_take]
  · rw [List.getD_eq_default _ _ (by simp; omega),
      List.getD_eq_default _ _ (by omega)]

theorem getD_drop {l : List Nat} (k j d : Nat) :
    (l.drop k).getD j d = l.getD (k + j) d := by
  by_cases hj : k + j < l.length
  · rw [List.getD_eq_getElem _ _ (by simp; omega), List.getD_eq_getElem _ _ hj,
      List.getElem_drop]
  · rw [List.getD_eq_default _ _ (by simp; omega),
      List.getD_eq_default _ _ (by omega)]

/-- Variant of the bit-flip sensitivity lemma phrased with `getD`. -/
theorem crc32_flipD_ne {l : List Nat} {j : Nat} (hj : j < l.length)
    {t : Nat} (ht : t < 32) :
    crc32 (l.set j (l.getD j 0 ^^^ 2 ^ t)) ≠ crc32 l := by
  rw [List.getD_eq_getElem _ _ hj]
  exact crc32_flipBit_ne hj ht

/-- Amended page-corruption fault model: flipping any single bit of a stored
page image outside the 4-byte CRC slot makes `from_bytes` fail — with a
bad-magic error when the flipped bit lies in the magic field (bytes 0..4),
and with a CRC-mismatch error for every other byte (the rest of the header
and the whole payload region). -/
theorem from_bytes_flipBit {p : Page} (hdata : p.data.length = DATA_CAP)
    (hbytes : ∀ b ∈ p.data, b < 256)
    {i t : Nat} (hi : i < PAGE_SIZE) (ht : t < 8)
    (hnc : i < CRC_OFF ∨ HDR_SZ ≤ i) :
    ∃ e : PagerErr, Page.from_bytes (flipBit (pageBytes p) i t) = .error e
      ∧ (i < 4 → ∃ m, e = .badMagic m)
      ∧ (4 ≤ i → ∃ n, e = .crcMismatch n) := by
  have hi8 : i < 8192 := by simpa [PAGE_SIZE] using hi
  have hnc8 : i < 24 ∨ 28 ≤ i := by simpa [CRC_OFF, HDR_SZ] using hnc
  have hlenB : (pageBytes p).length = 8192 := by
    rw [pageBytes_length hdata]; rfl
  have hiB : i < (pageBytes p).length := by omega
  have hlen8 : (flipBit (pageBytes p) i t).length = 8192 := by
    rw [flipBit, List.length_set, hlenB]
  have hlen4 : (flipBit (pageBytes p) i t).length = PAGE_SIZE := by
    rw [hlen8]; rfl
  have htlt : (2 : Nat) ^ t < 256 := by
    calc (2 : Nat) ^ t ≤ 2 ^ 7 := Nat.pow_le_pow_right (by norm_num) (by omega)
    _ < 256 := by norm_num
  by_cases h4 : i < 4
  · -- the flip corrupts the magic field
    have htake : (flipBit (pageBytes p) i t).take 4
        = ((pageBytes p).take 4).set i ((pageBytes p).getD i 0 ^^^ 2 ^ t) := by
      rw [flipBit, take_set_of_lt _ h4]
    have hgd : ((pageBytes p).take 4).getD i 0 = (pageBytes p).getD i 0 :=
      getD_take 0 h4
    have hlt4 : ∀ b ∈ (pageBytes p).take 4, b < 256 := by
      rw [pageBytes_take4]; exact leBytes_lt 4 0xDEADBEEF
    have hi4 : i < ((pageBytes p).take 4).length := by simp [hlenB]; omega
    have hblt : (pageBytes p).getD i 0 < 256 := by
      rw [← hgd, List.getD_eq_getElem _ _ hi4]
      exact hlt4 _ (List.getElem_mem hi4)
    have hmagic : fromLe ((flipBit (pageBytes p) i t).take 4) ≠ 0xDEADBEEF := by
      rw [htake]
      have hne := fromLe_set_ne hlt4 hi4
        (v := (pageBytes p).getD i 0 ^^^ 2 ^ t)
        (Nat.xor_lt_two_pow (n := 8) (by omega) (by omega))
        (by rw [← List.getD_eq_getElem _ 0 hi4, hgd]
            exact xor_ne_self (by positivity))
      rw [show fromLe ((pageBytes p).take 4) = 0xDEADBEEF from by
        rw [pageBytes_take4, fromLe_leBytes_small (by norm_num)]] at hne
      exact hne
    refine ⟨.badMagic (fromLe ((flipBit (pageBytes p) i t).take 4)), ?_, ?_, ?_⟩
    · unfold Page.from_bytes
      rw [if_neg (by rw [hlen4]; exact fun h => h rfl), if_pos hmagic]
    · exact fun _ => ⟨_, rfl⟩
    · intro h; omega
  · -- the flip leaves the magic intact and breaks the CRC
    push_neg at h4
    have htake4 : (flipBit (pageBytes p) i t).take 4 = (pageBytes p).take 4 := by
      rw [flipBit, take_set_of_le (by omega)]
    have hstored : extract (flipBit (pageBytes p) i t) 24 4
        = extract (pageBytes p) 24 4 := by
      rw [flipBit, extract, extract, List.drop_set]
      rcases hnc8 with hlt | hge
      · rw [if_pos (by omega)]
      · rw [if_neg (by omega), take_set_of_le (by omega)]
    have hlent : ((pageBytes p).take 24).length = 24 := by
      rw [List.length_take, hlenB]; rfl
    have hlend : ((pageBytes p).drop 28).length = 8164 := by
      rw [List.length_drop, hlenB]
    -- the flipped crc source is the original crc source with byte j flipped
    have hsrcflip : (flipBit (pageBytes p) i t).take 24
          ++ (flipBit (pageBytes p) i t).drop 28
        = ((pageBytes p).take 24 ++ (pageBytes p).drop 28).set
            (if i < 24 then i else i - 4)
            (((pageBytes p).take 24 ++ (pageBytes p).drop 28).getD
              (if i < 24 then i else i - 4) 0 ^^^ 2 ^ t) := by
      rcases hnc8 with hlt | hge
      · rw [if_pos hlt, flipBit, take_set_of_lt _ hlt, List.drop_set,
          if_pos (by omega), List.set_append, if_pos (by rw [hlent]; omega)]
        rw [List.getD_append _ _ _ _ (by rw [hlent]; omega), getD_take 0 hlt]
      · rw [if_neg (by omega), flipBit, take_set_of_le (by omega), List.drop_set,
          if_neg (by omega), List.set_append, if_neg (by rw [hlent]; omega), hlent]
        have hidx : i - 4 - 24 = i - 28 := by omega
        rw [hidx, List.getD_append_right _ _ _ _ (by rw [hlent]; omega), hlent,
          hidx, getD_drop, show 28 + (i - 28) = i from by omega]
    have hjlt : (if i < 24 then i else i - 4)
        < ((pageBytes p).take 24 ++ (pageBytes p).drop 28).length := by
      rw [List.length_append, hlent, hlend]
      split <;> omega
    have hcrcne : crc32 ((flipBit (pageBytes p) i t).take 24
          ++ (flipBit (pageBytes p) i t).drop 28)
        ≠ crc32 ((pageBytes p).take 24 ++ (pageBytes p).drop 28) := by
      rw [hsrcflip]
      exact crc32_flipD_ne hjlt (by omega)
    have hsrc : (pageBytes p).take 24 ++ (pageBytes p).drop 28
        = pageHdr p ++ p.data := by rw [pageBytes_take24, pageBytes_drop28]
    have hcrcb : ∀ b ∈ pageHdr p ++ p.data, b < 256 := by
      intro b hb
      rcases List.mem_append.mp hb with h | h
      · exact pageHdr_bytes_lt p b h
      · exact hbytes b h
    have hcrclt : crc32 (pageHdr p ++ p.data) < 2 ^ 32 := crc32_lt hcrcb
    have hmagic2 : fromLe ((flipBit (pageBytes p) i t).take 4) = 0xDEADBEEF := by
      rw [htake4, pageBytes_take4, fromLe_leBytes_small (by norm_num)]
    refine ⟨.crcMismatch (fromLe (extract (flipBit (pageBytes p) i t) 4 8)),
      ?_, ?_, ?_⟩
    · unfold Page.from_bytes
      rw [if_neg (by rw [hlen4]; exact fun h => h rfl),
        if_neg (by rw [hmagic2]; exact fun h => h rfl), if_pos ?cnd]
      case cnd =>
        rw [show CRC_OFF = 24 from rfl, show HDR_SZ = 28 from rfl, hstored,
          pageBytes_extract_crc,
          fromLe_leBytes_small (lt_of_lt_of_le hcrclt (by norm_num))]
        rw [hsrc] at hcrcne
        exact hcrcne
    · intro h; omega
    · exact fun _ => ⟨_, rfl⟩

/-! ## WAL record-stream lemmas -/

@[simp]
theorem walRecord_length (lsn : Nat) (p : List Nat) :
    (walRecord lsn p).length = 20 + p.length := by
  simp [walRecord]
  omega

theorem walRecord_take8 (lsn : Nat) (p rest : List Nat) :
    (walRecord lsn p ++ rest).take 8 = leBytes 8 (12 + p.length) := by
  simp only [walRecord, List.append_assoc]
  rw [List.take_append_of_le_length (by simp), List.take_of_length_le (by simp)]

theorem walRecord_extract_lsn (lsn : Nat) (p rest : List Nat) :
    extract (walRecord lsn p ++ rest) 8 8 = leBytes 8 lsn := by
  simp only [walRecord, List.append_assoc]
  exact extract_exact _ (by simp) (by simp)

theorem walRecord_extract_crc (lsn : Nat) (p rest : List Nat) :
    extract (walRecord lsn p ++ rest) 16 4 = leBytes 4 (crc32 p) := by
  simp only [walRecord, List.append_assoc]
  rw [extract_skip' _ (leBytes_length 8 (12 + p.length)) (show 8 + 8 = 16 by omega)]
  exact extract_exact _ (by simp) (by simp)

theorem walRecord_extract_payload (lsn : Nat) (p rest : List Nat) :
    extract (walRecord lsn p ++ rest) 20 p.length = p := by
  simp only [walRecord, List.append_assoc]
  rw [extract_skip' _ (leBytes_length 8 (12 + p.length)) (show 8 + 12 = 20 by omega),
    extract_skip' _ (leBytes_length 8 lsn) (show 8 + 4 = 12 by omega),
    extract_skip' _ (leBytes_length 4 (crc32 p)) (show 4 + 0 = 4 by omega)]
  exact extract_prefix _ rfl

theorem walRecord_drop (lsn : Nat) (p rest : List Nat) :
    (walRecord lsn p ++ rest).drop (20 + p.length) = rest := by
  simp only [walRecord, List.append_assoc]
  rw [drop_skip' _ (leBytes_length 8 (12 + p.length)) (show 8 + (12 + p.length) = 20 + p.length by omega),
    drop_skip' _ (leBytes_length 8 lsn) (show 8 + (4 + p.length) = 12 + p.length by omega),
    drop_skip' _ (leBytes_length 4 (crc32 p)) (show 4 + p.length = 4 + p.length by omega)]
  exact drop_exact _ rfl

theorem computeNextLsnAux_record {lsn : Nat} {p : List Nat}
    (hp : 12 + p.length < 2 ^ 63 + 8) (hlsn : lsn < U64)
    (rest : List Nat) (next : Nat) :
    computeNextLsnAux (walRecord lsn p ++ rest) next
      = computeNextLsnAux rest (lsn + 1) := by
  have hU : U64 = 2 ^ 64 := rfl
  have h63 : (2 : Nat) ^ 63 + 8 < 2 ^ 64 := by norm_num
  have hlen : (walRecord lsn p ++ rest).length = 20 + p.length + rest.length := by
    simp
  rw [computeNextLsnAux]
  rw [if_neg (by omega), if_neg (by omega), walRecord_take8,
    walRecord_extract_lsn,
    fromLe_leBytes_small (show 12 + p.length < 256 ^ 8 by
      rw [show (256 : Nat) ^ 8 = 2 ^ 64 by norm_num]; omega),
    fromLe_leBytes_small (show lsn < 256 ^ 8 by
      rw [show (256 : Nat) ^ 8 = 2 ^ 64 by norm_num]; omega),
    if_pos hp,
    show 8 + (12 + p.length) = 20 + p.length by omega, walRecord_drop]

/-- A record whose length field is at least `2 ^ 63 + 8` makes the scan seek
to a negative offset: the scan fails. -/
theorem computeNextLsnAux_record_huge {lsn : Nat} {p : List Nat}
    (hp : 12 + p.length < U64) (hbig : 2 ^ 63 + 8 ≤ 12 + p.length)
    (rest : List Nat) (next : Nat) :
    computeNextLsnAux (walRecord lsn p ++ rest) next = .error .ioError := by
  have hU : U64 = 2 ^ 64 := rfl
  have hlen : (walRecord lsn p ++ rest).length = 20 + p.length + rest.length := by
    simp
  rw [computeNextLsnAux]
  rw [if_neg (by omega), if_neg (by omega), walRecord_take8,
    fromLe_leBytes_small (show 12 + p.length < 256 ^ 8 by
      rw [show (256 : Nat) ^ 8 = 2 ^ 64 by norm_num]; omega),
    if_neg (by omega)]

theorem replayRecords_record {lsn : Nat} {p : List Nat}
    (hp : 12 + p.length < U64) (hlsn : lsn < U64) (hb : ∀ b ∈ p, b < 256)
    (rest : List Nat) :
    replayRecords (walRecord lsn p ++ rest)
      = ((lsn, p) :: (replayRecords rest).1, (replayRecords rest).2) := by
  have hU : U64 = 2 ^ 64 := rfl
  have hlen : (walRecord lsn p ++ rest).length = 20 + p.length + rest.length := by
    simp
  have hcrc : crc32 p < 2 ^ 32 := crc32_lt hb
  rw [replayRecords]
  rw [if_neg (by omega), if_neg (by omega)]
  simp only [walRecord_take8, walRecord_extract_lsn, walRecord_extract_crc,
    fromLe_leBytes_small (show 12 + p.length < 256 ^ 8 by
      rw [show (256 : Nat) ^ 8 = 2 ^ 64 by norm_num]; omega),
    fromLe_leBytes_small (show lsn < 256 ^ 8 by
      rw [show (256 : Nat) ^ 8 = 2 ^ 64 by norm_num]; omega),
    fromLe_leBytes_small (show crc32 p < 256 ^ 4 by
      rw [show (256 : Nat) ^ 4 = 2 ^ 32 by norm_num]; omega)]
  rw [if_neg ?hpl]
  case hpl =>
    rw [show (if 12 ≤ 12 + p.length then 12 + p.length - 12 else 12 + p.length + (U64 - 12)) = p.length by rw [if_pos (by omega)]; omega]
    omega
  rw [show (if 12 ≤ 12 + p.length then 12 + p.length - 12 else 12 + p.length + (U64 - 12)) = p.length by rw [if_pos (by omega)]; omega,
    walRecord_extract_payload, if_neg (by omega),
    show 20 + p.length = 20 + p.length from rfl, walRecord_drop]

theorem goodPairs_cons {r : Nat × List Nat} {rs : List (Nat × List Nat)}
    (h : goodPairs (r :: rs)) : goodPairs rs :=
  fun x hx => h x (List.mem_cons_of_mem r hx)

theorem goodPairs_head {r : Nat × List Nat} {rs : List (Nat × List Nat)}
    (h : goodPairs (r :: rs)) :
    r.1 < U64 ∧ 12 + r.2.length < U64 ∧ ∀ b ∈ r.2, b < 256 :=
  h r (List.mem_cons_self r rs)

theorem computeNextLsnAux_encodeLog {rs : List (Nat × List Nat)}
    (h : goodPairs rs) (hs : ∀ r ∈ rs, 12 + r.2.length < 2 ^ 63 + 8)
    (tail : List Nat) (next : Nat) :
    computeNextLsnAux (encodeLog rs ++ tail) next
      = computeNextLsnAux tail (rs.foldl (fun _ r => r.1 + 1) next) := by
  induction rs generalizing next with
  | nil => simp [encodeLog]
  | cons r rs ih =>
    obtain ⟨h1, h2, _⟩ := goodPairs_head h
    have h3 := hs r (List.mem_cons_self r rs)
    obtain ⟨lsn, p⟩ := r
    rw [encodeLog, List.append_assoc, computeNextLsnAux_record h3 h1,
      ih (goodPairs_cons h) (fun x hx => hs x (List.mem_cons_of_mem _ hx)),
      List.foldl_cons]

/-- On a log of well-formed records the scan either steps over every record
(when all length fields keep the seek exact) or fails on the first record
whose length field drives the seek negative. -/
theorem computeNextLsnAux_encodeLog_or {rs : List (Nat × List Nat)}
    (h : goodPairs rs) (tail : List Nat) (next : Nat) :
    computeNextLsnAux (encodeLog rs ++ tail) next
        = computeNextLsnAux tail (rs.foldl (fun _ r => r.1 + 1) next)
      ∨ computeNextLsnAux (encodeLog rs ++ tail) next = .error .ioError := by
  induction rs generalizing next with
  | nil =>
    left
    simp [encodeLog]
  | cons r rs ih =>
    obtain ⟨h1, h2, _⟩ := goodPairs_head h
    obtain ⟨lsn, p⟩ := r
    by_cases hsm : 12 + p.length < 2 ^ 63 + 8
    · rw [encodeLog, List.append_assoc, computeNextLsnAux_record hsm h1,
        List.foldl_cons]
      exact ih (goodPairs_cons h) _
    · right
      rw [encodeLog, List.append_assoc,
        computeNextLsnAux_record_huge (p := p) h2 (by omega)]

theorem replayRecords_encodeLog {rs : List (Nat × List Nat)}
    (h : goodPairs rs) (tail : List Nat) :
    replayRecords (encodeLog rs ++ tail)
      = (rs ++ (replayRecords tail).1, (replayRecords tail).2) := by
  induction rs with
  | nil => simp [encodeLog]
  | cons r rs ih =>
    obtain ⟨h1, h2, h3⟩ := goodPairs_head h
    obtain ⟨lsn, p⟩ := r
    rw [encodeLog, List.append_assoc, replayRecords_record h2 h1 h3,
      ih (goodPairs_cons h)]
    simp

theorem replayRecords_nil : replayRecords [] = ([], none) := by
  rw [replayRecords]; simp

theorem replayRecords_clean {rs : List (Nat × List Nat)} (h : goodPairs rs) :
    replayRecords (encodeLog rs) = (rs, none) := by
  have h2 := replayRecords_encodeLog h []
  rw [List.append_nil, replayRecords_nil] at h2
  simpa using h2

theorem extract_take {l : List Nat} {o n k : Nat} (h : o + n ≤ k) :
    extract (l.take k) o n = extract l o n := by
  rw [extract, extract, List.drop_take, List.take_take,
    show min n (k - o) = n by omega]

theorem computeNextLsnAux_short {f : List Nat} (hf : f.length < 8) (next : Nat) :
    computeNextLsnAux f next = .ok next := by
  rw [computeNextLsnAux, if_pos hf]

theorem encodeLog_append (rs1 rs2 : List (Nat × List Nat)) :
    encodeLog (rs1 ++ rs2) = encodeLog rs1 ++ encodeLog rs2 := by
  induction rs1 with
  | nil => simp [encodeLog]
  | cons r rs ih =>
    obtain ⟨lsn, p⟩ := r
    rw [List.cons_append, encodeLog, encodeLog, ih, List.append_assoc]

theorem denseFrom_append (i : Nat) (ps : List (List Nat)) (p : List Nat) :
    denseFrom i (ps ++ [p]) = denseFrom i ps ++ [(i + ps.length, p)] := by
  induction ps generalizing i with
  | nil => simp [denseFrom]
  | cons a ps ih =>
    rw [List.cons_append, denseFrom, denseFrom, ih, List.cons_append]
    simp [Nat.add_comm, Nat.add_assoc, Nat.add_left_comm]

theorem denseFrom_map_fst (i : Nat) (ps : List (List Nat)) :
    (denseFrom i ps).map Prod.fst = List.range' i ps.length := by
  induction ps generalizing i with
  | nil => simp [denseFrom]
  | cons a ps ih =>
    rw [denseFrom, List.map_cons, ih, List.length_cons, List.range'_succ]

theorem denseFrom_foldl (i acc : Nat) (ps : List (List Nat)) :
    (denseFrom i ps).foldl (fun _ r => r.1 + 1) acc
      = if ps = [] then acc else i + ps.length := by
  induction ps generalizing i acc with
  | nil => simp [denseFrom]
  | cons a ps ih =>
    rw [denseFrom, List.foldl_cons, ih]
    cases ps with
    | nil => simp
    | cons b ps => simp; omega

/-- Machine-width and byte-range side conditions on raw payloads. -/
def goodPayloads (ps : List (List Nat)) : Prop :=
  ∀ p ∈ ps, 12 + p.length < U64 ∧ ∀ b ∈ p, b < 256

theorem goodPairs_denseFrom {ps : List (List Nat)} (h : goodPayloads ps)
    {i : Nat} (hi : i + ps.length ≤ U64) : goodPairs (denseFrom i ps) := by
  induction ps generalizing i with
  | nil => intro r hr; simp [denseFrom] at hr
  | cons a ps ih =>
    intro r hr
    rw [denseFrom] at hr
    rcases List.mem_cons.mp hr with hh | ht
    · subst hh
      refine ⟨by simp at hi ⊢; omega, ?_, ?_⟩
      · exact (h a (List.mem_cons_self a ps)).1
      · exact (h a (List.mem_cons_self a ps)).2
    · exact ih (fun p hp => h p (List.mem_cons_of_mem a hp))
        (by simp at hi ⊢; omega) r ht

/-- Characterization of WAL states reachable through the `Wal` interface:
the file is a dense log of the appended payloads and the counter equals
their number. -/
theorem walReach_spec {f : List Nat} {n : Nat} (h : WalReach f n) :
    ∃ ps : List (List Nat), f = encodeLog (denseFrom 0 ps) ∧ n = ps.length
      ∧ goodPayloads ps ∧ n ≤ U64 := by
  induction h with
  | base => exact ⟨[], rfl, rfl, fun p hp => absurd hp (List.not_mem_nil p), by positivity⟩
  | append p hlen hb hn hr ih =>
    obtain ⟨ps, hf, hnn, hgood, hle⟩ := ih
    refine ⟨ps ++ [p], ?_, by simp [hnn], ?_, by omega⟩
    · rw [hf, denseFrom_append, encodeLog_append, hnn]
      simp [encodeLog]
    · intro x hx
      rcases List.mem_append.mp hx with hh | ht
      · exact hgood x hh
      · simp at ht; subst ht; exact ⟨hlen, hb⟩
  | reopen hr hok ih =>
    obtain ⟨ps, hf, hnn, hgood, hle⟩ := ih
    subst hf
    rw [compute_next_lsn,
      ← List.append_nil (encodeLog (denseFrom 0 ps))] at hok
    rcases computeNextLsnAux_encodeLog_or
        (goodPairs_denseFrom (i := 0) hgood (by omega)) [] 0 with heq | heq
    · rw [heq, computeNextLsnAux_short (by simp), denseFrom_foldl] at hok
      rcases Except.ok.inj hok with h2
      subst h2
      refine ⟨ps, rfl, ?_, hgood, ?_⟩
      · cases ps with
        | nil => simp
        | cons a ps => simp
      · split <;> omega
    · rw [heq] at hok
      exact absurd hok (by simp)

/-! ## Replay-and-apply lemmas (the interleaved loop inside `Engine::open`) -/

theorem replayApply_record {lsn : Nat} {p : List Nat}
    (hp : 12 + p.length < U64) (hlsn : lsn < U64) (hb : ∀ b ∈ p, b < 256)
    (rest : List Nat) (st : RState) :
    replayApply (walRecord lsn p ++ rest) st
      = match applySet st lsn p with
        | .error e => .error e
        | .ok st2 => replayApply rest st2 := by
  have hU : U64 = 2 ^ 64 := rfl
  have hlen : (walRecord lsn p ++ rest).length = 20 + p.length + rest.length := by
    simp
  have hcrc : crc32 p < 2 ^ 32 := crc32_lt hb
  rw [replayApply]
  rw [if_neg (by omega), if_neg (by omega)]
  simp only [walRecord_take8, walRecord_extract_lsn, walRecord_extract_crc,
    fromLe_leBytes_small (show 12 + p.length < 256 ^ 8 by
      rw [show (256 : Nat) ^ 8 = 2 ^ 64 by norm_num]; omega),
    fromLe_leBytes_small (show lsn < 256 ^ 8 by
      rw [show (256 : Nat) ^ 8 = 2 ^ 64 by norm_num]; omega),
    fromLe_leBytes_small (show crc32 p < 256 ^ 4 by
      rw [show (256 : Nat) ^ 4 = 2 ^ 32 by norm_num]; omega)]
  rw [if_neg ?hpl]
  case hpl =>
    rw [show (if 12 ≤ 12 + p.length then 12 + p.length - 12 else 12 + p.length + (U64 - 12)) = p.length by rw [if_pos (by omega)]; omega]
    omega
  rw [show (if 12 ≤ 12 + p.length then 12 + p.length - 12 else 12 + p.length + (U64 - 12)) = p.length by rw [if_pos (by omega)]; omega,
    walRecord_extract_payload, if_neg (by omega), walRecord_drop]

theorem replayApply_short {f : List Nat} (hf : f.length < 8) (st : RState) :
    replayApply f st = .ok st := by
  rw [replayApply, if_pos hf]

/-- C4 (amended): flipping any single bit of any byte of a stored page image,
other than the 4 CRC bytes, makes `read_page` of that page id fail: with a
bad-magic error when the byte lies in the magic field (bytes 0..4), and with
a CRC-mismatch error for every other byte position. -/
theorem claim_C4 {p : Page} (hdata : p.data.length = DATA_CAP)
    (hbytes : ∀ b ∈ p.data, b < 256)
    {i t : Nat} (hi : i < PAGE_SIZE) (ht : t < 8)
    (hnc : i < CRC_OFF ∨ HDR_SZ ≤ i)
    {pre : List Nat} (hpre : pre.length = p.id * PAGE_SIZE) :
    ∃ e, readPage (pre ++ flipBit (pageBytes p) i t) p.id = .error e
      ∧ (i < 4 → ∃ m, e = .badMagic m)
      ∧ (4 ≤ i → ∃ n, e = .crcMismatch n) := by
  obtain ⟨e, he, hmag, hcrc⟩ := from_bytes_flipBit hdata hbytes hi ht hnc
  have hflen : (flipBit (pageBytes p) i t).length = PAGE_SIZE := by
    rw [flipBit, List.length_set, pageBytes_length hdata]
  have hchunk : extract (pre ++ flipBit (pageBytes p) i t)
      (p.id * PAGE_SIZE) PAGE_SIZE = flipBit (pageBytes p) i t := by
    rw [extract_skip' _ hpre (Nat.add_zero _), extract_zero,
      List.take_of_length_le (by omega)]
  refine ⟨e, ?_, hmag, hcrc⟩
  rw [readPage]
  simp only [hchunk, hflen]
  rw [if_neg (by simp [PAGE_SIZE]), if_neg (fun hne => hne rfl)]
  exact he

/-- C4 witness: a concrete stored page with one payload-region bit flipped
fails to read back, with a CRC-mismatch error. -/
theorem claim_C4_witness :
    ∃ e, readPage ([] ++ flipBit (pageBytes (Page.new 0)) 100 2) 0 = .error e
      ∧ (100 < 4 → ∃ m, e = .badMagic m)
      ∧ (4 ≤ 100 → ∃ n, e = .crcMismatch n) :=
  claim_C4 (p := Page.new 0) (by simp [Page.new])
    (fun b hb => by
      rw [List.eq_of_mem_replicate (show b ∈ List.replicate DATA_CAP 0 from hb)]
      omega)
    (by decide) (by decide) (by decide) (by simp [Page.new])

/-- C4 counterexample: flipping bit 0 of byte 0 — a position outside the CRC
field — of a stored well-formed page yields a bad-magic error, not the
CRC-mismatch error the claim promises for every such position. -/
theorem claim_C4_cex :
    ∃ m, Page.from_bytes (flipBit (pageBytes (Page.new 0)) 0 0)
        = .error (.badMagic m)
      ∧ ∀ n, Page.from_bytes (flipBit (pageBytes (Page.new 0)) 0 0)
        ≠ .error (.crcMismatch n) := by
  obtain ⟨e, he, hmag, _⟩ := from_bytes_flipBit (p := Page.new 0)
    (by simp [Page.new])
    (fun b hb => by
      rw [List.eq_of_mem_replicate (show b ∈ List.replicate DATA_CAP 0 from hb)]
      omega)
    (i := 0) (t := 0) (by decide) (by decide) (by decide)
  obtain ⟨m, hm⟩ := hmag (by omega)
  subst hm
  exact ⟨m, he, fun n hn => by rw [he] at hn; simp at hn⟩

/-- C5 (the code at the failing input): the serialized page has a 28-byte
header — the payload region starts at byte 28 immediately after the CRC
field, spans 8164 bytes, and there is no reserved zero pad: byte 28 holds the
first payload byte.  The CRC is computed over bytes 0..24 concatenated with
bytes 28..8192. -/
theorem claim_C5 :
    ∃ b, Page.to_bytes ⟨0, 0, 0, 7 :: List.replicate 8163 0⟩ = some b
      ∧ b.length = 8192
      ∧ b.drop 28 = 7 :: List.replicate 8163 0
      ∧ extract b 24 4 = leBytes 4 (crc32 (b.take 24 ++ b.drop 28)) := by
  have hd : (7 :: List.replicate 8163 0 : List Nat).length = PAGE_SIZE - HDR_SZ := by
    rw [List.length_cons, List.length_replicate, PAGE_SIZE, HDR_SZ]
  refine ⟨pageBytes ⟨0, 0, 0, 7 :: List.replicate 8163 0⟩, ?_, ?_, ?_, ?_⟩
  · rw [Page.to_bytes, if_pos hd]
  · rw [pageBytes_length hd, PAGE_SIZE]
  · exact pageBytes_drop28 _
  · rw [pageBytes_extract_crc, pageBytes_take24, pageBytes_drop28]

/-- C7: across any WAL file built from an empty file through the `Wal`
interface (appends and reopens), replay passes the visitor LSNs that
strictly increase by 1 starting at 0, and the walk ends cleanly. -/
theorem claim_C7 {f : List Nat} {n : Nat} (h : WalReach f n) :
    (replayRecords f).1.map Prod.fst = List.range n
    ∧ (replayRecords f).2 = none := by
  obtain ⟨ps, hf, hn, hgood, hle⟩ := walReach_spec h
  subst hf hn
  rw [replayRecords_clean (goodPairs_denseFrom hgood (by omega))]
  exact ⟨by rw [denseFrom_map_fst, List.range_eq_range'], rfl⟩

/-- C7 witness: two appends from an empty log replay with LSNs 0, 1. -/
theorem claim_C7_witness :
    (replayRecords (([] ++ walRecord 0 [65]) ++ walRecord 1 [66])).1.map Prod.fst
      = List.range 2
    ∧ (replayRecords (([] ++ walRecord 0 [65]) ++ walRecord 1 [66])).2 = none :=
  claim_C7 (WalReach.append [66] (by decide) (by decide) (by decide)
    (WalReach.append [65] (by decide) (by decide) (by decide) WalReach.base))

/-- C8: `Engine::set` commits only after `wal.append` and `wal.sync` both
succeed.  If either fails, set returns an error and neither the page write,
the page fsync, nor the index update has happened: the data file and the
in-memory index are exactly the ones from before the call. -/
theorem claim_C8 (st : Engine) (k v : List Nat) (fa fs : Bool)
    (h : fa = true ∨ fs = true) :
    ∃ st2 e, Engine.setWith fa fs st k v = .fail st2 e
      ∧ st2.dataFile = st.dataFile ∧ st2.index = st.index := by
  unfold Engine.setWith
  cases hrp : readPage st.dataFile st.nextPage with
  | error e => exact ⟨st, .pager e, rfl, rfl, rfl⟩
  | ok page0 =>
    dsimp only
    by_cases hroll : PAGE_SIZE - pager_hdr_sz < page0.used + (8 + k.length + v.length)
    · simp only [if_pos hroll]
      cases fa with
      | true => exact ⟨_, _, rfl, rfl, rfl⟩
      | false =>
        cases fs with
        | true => exact ⟨_, _, rfl, rfl, rfl⟩
        | false => simp at h
    · simp only [if_neg hroll]
      cases fa with
      | true => exact ⟨_, _, rfl, rfl, rfl⟩
      | false =>
        cases fs with
        | true => exact ⟨_, _, rfl, rfl, rfl⟩
        | false => simp at h

/-- C8 witness: a failing append on the fresh engine leaves the (empty) data
file and index untouched. -/
theorem claim_C8_witness :
    ∃ st2 e, Engine.setWith true false Engine.init [107] [118] = .fail st2 e
      ∧ st2.dataFile = Engine.init.dataFile ∧ st2.index = Engine.init.index :=
  claim_C8 Engine.init [107] [118] true false (Or.inl rfl)

/-! ## Placement-fold structure -/

theorem placeAll_append (ops : List (List Nat × List Nat)) (op : List Nat × List Nat) :
    placeAll (ops ++ [op]) = placeStep (placeAll ops) op := by
  rw [placeAll, List.foldl_append, placeAll]
  rfl

theorem pageEntries_append (ps : List Pl) (r : Pl) (q : Nat) :
    pageEntries (ps ++ [r]) q
      = pageEntries ps q ++ (if r.pid = q then [r] else []) := by
  rw [pageEntries, List.filter_append, pageEntries]
  congr 1
  by_cases h : r.pid = q
  · simp [List.filter, h]
  · have hb : (r.pid == q) = false := by simp [h]
    simp [List.filter, hb]
    exact h

theorem pageEntries_nil_of_all_ne {ps : List Pl} {q : Nat}
    (h : ∀ r ∈ ps, r.pid ≠ q) : pageEntries ps q = [] := by
  rw [pageEntries, List.filter_eq_nil]
  intro r hr
  simpa using h r hr

/-- The end offset of a chain of entries starting at `o`. -/
def endOf (o : Nat) (es : List Pl) : Nat :=
  es.foldl (fun _ r => r.off + eLen r) o

theorem endOf_append_one (o : Nat) (es : List Pl) (r : Pl) :
    endOf o (es ++ [r]) = r.off + eLen r := by
  rw [endOf, List.foldl_append]
  rfl

theorem pageUsed_eq_endOf (ps : List Pl) (q : Nat) :
    pageUsed ps q = endOf 0 (pageEntries ps q) := rfl

theorem chainFrom_append_one {o : Nat} {es : List Pl} {r : Pl}
    (h : chainFrom o es) (hr : r.off = endOf o es) :
    chainFrom o (es ++ [r]) := by
  induction es generalizing o with
  | nil => exact ⟨hr, trivial⟩
  | cons a es ih =>
    obtain ⟨h1, h2⟩ := h
    exact ⟨h1, ih h2 hr⟩

theorem endOf_cons (o : Nat) (a : Pl) (es : List Pl) :
    endOf o (a :: es) = endOf (a.off + eLen a) es := rfl

theorem le_endOf {o : Nat} {es : List Pl} (h : chainFrom o es) :
    o ≤ endOf o es := by
  induction es generalizing o with
  | nil => exact le_refl o
  | cons a es ih =>
    obtain ⟨h1, h2⟩ := h
    rw [endOf_cons]
    calc o = a.off := h1.symm
    _ ≤ a.off + eLen a := Nat.le_add_right _ _
    _ ≤ endOf (a.off + eLen a) es := ih h2

theorem chainFrom_bounds {o : Nat} {es : List Pl} (h : chainFrom o es) :
    ∀ r ∈ es, o ≤ r.off ∧ r.off + eLen r ≤ endOf o es := by
  induction es generalizing o with
  | nil => intro r hr; exact absurd hr (List.not_mem_nil r)
  | cons a es ih =>
    obtain ⟨h1, h2⟩ := h
    intro r hr
    rw [endOf_cons]
    rcases List.mem_cons.mp hr with hh | ht
    · subst hh
      exact ⟨le_of_eq h1.symm, by rw [h1] at h2 ⊢; exact le_endOf h2⟩
    · have hb := ih h2 r ht
      exact ⟨le_trans (by omega) hb.1, hb.2⟩

/-- Structural invariant of the placement fold: lsns are dense, pages fill
left to right, offsets chain without gaps or overlaps, every entry fits the
page buffer, and the cursor tracks the last page and its used counter. -/
structure PlOk (ps : List Pl) (pid used : Nat) : Prop where
  lsn_eq : ps.map Pl.lsn = List.range ps.length
  pid_le : ∀ r ∈ ps, r.pid ≤ pid
  pid_len : pid ≤ ps.length
  used_eq : used = pageUsed ps pid
  chain : ∀ q, chainFrom 0 (pageEntries ps q)
  fits : ∀ r ∈ ps, r.off + eLen r ≤ DATA_CAP
  dense : ∀ q, 1 ≤ q → q ≤ pid → pageEntries ps q ≠ []
  nil_pid : ps = [] → pid = 0
  last_pid : ∀ r, ps.getLast? = some r → r.pid = pid

theorem plOk_nil : PlOk [] 0 0 := by
  refine ⟨rfl, ?_, le_refl 0, rfl, ?_, ?_, ?_, fun _ => rfl, ?_⟩
  · intro r hr; exact absurd hr (List.not_mem_nil r)
  · intro q; exact trivial
  · intro r hr; exact absurd hr (List.not_mem_nil r)
  · intro q h1 h2; omega
  · intro r hr; simp at hr

theorem plOk_step {ps : List Pl} {pid used : Nat} (h : PlOk ps pid used)
    {k v : List Nat} (hfit : 8 + k.length + v.length ≤ DATA_CAP) :
    PlOk (placeStep (ps, pid, used) (k, v)).1
      (placeStep (ps, pid, used) (k, v)).2.1
      (placeStep (ps, pid, used) (k, v)).2.2 := by
  by_cases hroll : PAGE_SIZE - pager_hdr_sz < used + (8 + k.length + v.length)
  · -- roll over to the fresh page pid + 1
    have hstep : placeStep (ps, pid, used) (k, v)
        = (ps ++ [⟨pid + 1, 0, k, v, ps.length⟩], pid + 1,
           8 + k.length + v.length) := by
      rw [placeStep]; simp [hroll]
    rw [hstep]
    show PlOk (ps ++ [⟨pid + 1, 0, k, v, ps.length⟩]) (pid + 1)
      (8 + k.length + v.length)
    have hfresh : pageEntries ps (pid + 1) = [] :=
      pageEntries_nil_of_all_ne (fun r hr => by have := h.pid_le r hr; omega)
    refine ⟨?_, ?_, ?_, ?_, ?_, ?_, ?_, ?_, ?_⟩
    · rw [List.map_append, h.lsn_eq, List.length_append]
      simp [List.range_succ]
    · intro r hr
      rcases List.mem_append.mp hr with h1 | h1
      · have := h.pid_le r h1; omega
      · simp at h1; subst h1; rfl
    · have := h.pid_len; simp; omega
    · rw [pageUsed, pageEntries_append, if_pos rfl, hfresh, List.nil_append,
        List.foldl_cons, List.foldl_nil]
      simp [eLen]
    · intro q
      rw [pageEntries_append]
      by_cases hq : pid + 1 = q
      · subst hq
        rw [if_pos rfl, hfresh, List.nil_append]
        exact ⟨rfl, trivial⟩
      · rw [if_neg hq, List.append_nil]
        exact h.chain q
    · intro r hr
      rcases List.mem_append.mp hr with h1 | h1
      · exact h.fits r h1
      · simp at h1; subst h1; simpa [eLen] using hfit
    · intro q h1 h2
      rw [pageEntries_append]
      by_cases hq : pid + 1 = q
      · subst hq; simp
      · rw [if_neg hq, List.append_nil]
        exact h.dense q h1 (by omega)
    · intro hcon; simp at hcon
    · intro r hr
      rw [List.getLast?_append] at hr
      simp at hr
      rw [← hr]

  · -- append to the current page at offset `used`
    have hstep : placeStep (ps, pid, used) (k, v)
        = (ps ++ [⟨pid, used, k, v, ps.length⟩], pid,
           used + (8 + k.length + v.length)) := by
      rw [placeStep]; simp [hroll]
    rw [hstep]
    show PlOk (ps ++ [⟨pid, used, k, v, ps.length⟩]) pid
      (used + (8 + k.length + v.length))
    have hcap : used + (8 + k.length + v.length) ≤ PAGE_SIZE - pager_hdr_sz := by
      omega
    have hcap2 : PAGE_SIZE - pager_hdr_sz ≤ DATA_CAP := by
      simp only [PAGE_SIZE, pager_hdr_sz, DATA_CAP, HDR_SZ]
      omega
    refine ⟨?_, ?_, ?_, ?_, ?_, ?_, ?_, ?_, ?_⟩
    · rw [List.map_append, h.lsn_eq, List.length_append]
      simp [List.range_succ]
    · intro r hr
      rcases List.mem_append.mp hr with h1 | h1
      · exact h.pid_le r h1
      · simp at h1; subst h1; rfl
    · have := h.pid_len; simp; omega
    · rw [pageUsed_eq_endOf, pageEntries_append, if_pos rfl,
        endOf_append_one]
      rfl
    · intro q
      rw [pageEntries_append]
      by_cases hq : pid = q
      · subst hq
        rw [if_pos rfl]
        refine chainFrom_append_one (h.chain pid) ?_
        rw [← pageUsed_eq_endOf, ← h.used_eq]
      · rw [if_neg hq, List.append_nil]
        exact h.chain q
    · intro r hr
      rcases List.mem_append.mp hr with h1 | h1
      · exact h.fits r h1
      · simp at h1; subst h1
        simp only [eLen]
        omega
    · intro q h1 h2
      rw [pageEntries_append]
      by_cases hq : pid = q
      · subst hq; simp
      · rw [if_neg hq, List.append_nil]
        exact h.dense q h1 h2
    · intro hcon; simp at hcon
    · intro r hr
      rw [List.getLast?_append] at hr
      simp at hr
      rw [← hr]

theorem placeStep_shape (ps : List Pl) (c u : Nat) (k v : List Nat) :
    ∃ pid off, (placeStep (ps, c, u) (k, v)).1 = ps ++ [⟨pid, off, k, v, ps.length⟩] := by
  rw [placeStep]
  by_cases hroll : PAGE_SIZE - pager_hdr_sz < u + (8 + k.length + v.length)
  · exact ⟨c + 1, 0, by simp [hroll]⟩
  · exact ⟨c, u, by simp [hroll]⟩

/-- Master structural lemma about the placement fold. -/
theorem placeAll_ok {ops : List (List Nat × List Nat)} (hfit : opsFit ops) :
    PlOk (placements ops) (curPid ops) (curUsed ops)
      ∧ (placements ops).map (fun r => (r.key, r.val)) = ops
      ∧ (placements ops).length = ops.length := by
  induction ops using List.reverseRecOn with
  | nil => exact ⟨plOk_nil, rfl, rfl⟩
  | append_singleton ops op ih =>
    have hfit2 : opsFit ops := fun x hx => hfit x (List.mem_append_left _ hx)
    obtain ⟨h1, h2, h3⟩ := ih hfit2
    obtain ⟨k, v⟩ := op
    have hop := hfit (k, v) (List.mem_append_right _ (List.mem_cons_self _ _))
    have heq : placeAll (ops ++ [(k, v)])
        = placeStep (placements ops, curPid ops, curUsed ops) (k, v) := by
      rw [placeAll_append]
      rfl
    have hps : placements (ops ++ [(k, v)])
        = (placeStep (placements ops, curPid ops, curUsed ops) (k, v)).1 := by
      rw [placements, heq]
    have hpid : curPid (ops ++ [(k, v)])
        = (placeStep (placements ops, curPid ops, curUsed ops) (k, v)).2.1 := by
      rw [curPid, heq]
    have hused : curUsed (ops ++ [(k, v)])
        = (placeStep (placements ops, curPid ops, curUsed ops) (k, v)).2.2 := by
      rw [curUsed, heq]
    refine ⟨?_, ?_, ?_⟩
    · rw [hps, hpid, hused]
      exact plOk_step h1 (by simpa using hop)
    · obtain ⟨pid, off, hshape⟩ :=
        placeStep_shape (placements ops) (curPid ops) (curUsed ops) k v
      rw [hps, hshape, List.map_append, h2]
      rfl
    · obtain ⟨pid, off, hshape⟩ :=
        placeStep_shape (placements ops) (curPid ops) (curUsed ops) k v
      rw [hps, hshape, List.length_append, h3]
      simp

theorem lsn_lt_of_mem {ps : List Pl} (hlsn : ps.map Pl.lsn = List.range ps.length)
    {r : Pl} (hr : r ∈ ps) : r.lsn < ps.length := by
  have : r.lsn ∈ ps.map Pl.lsn := List.mem_map_of_mem Pl.lsn hr
  rw [hlsn] at this
  exact List.mem_range.mp this

theorem entry_length (r : Pl) : (entry r).length = eLen r := by
  simp [entry, entryOf, eLen]
  omega

theorem eLen_ge (r : Pl) : 8 ≤ eLen r := by
  rw [eLen]
  omega

theorem mem_pageEntries {ps : List Pl} {q : Nat} {r : Pl}
    (h : r ∈ pageEntries ps q) : r ∈ ps ∧ r.pid = q := by
  rw [pageEntries] at h
  have h2 := List.of_mem_filter h
  simp at h2
  exact ⟨List.mem_of_mem_filter h, h2⟩

theorem pageEntries_mem {ps : List Pl} {q : Nat} {r : Pl}
    (h1 : r ∈ ps) (h2 : r.pid = q) : r ∈ pageEntries ps q := by
  rw [pageEntries]
  exact List.mem_filter.mpr ⟨h1, by simp [h2]⟩

theorem chainFrom_append_split {o : Nat} {es : List Pl} {a : Pl}
    (h : chainFrom o (es ++ [a])) : chainFrom o es ∧ a.off = endOf o es := by
  induction es generalizing o with
  | nil => exact ⟨trivial, h.1⟩
  | cons b es ih =>
    obtain ⟨h1, h2⟩ := h
    obtain ⟨h3, h4⟩ := ih h2
    exact ⟨⟨h1, h3⟩, h4⟩

/-- Folding all entries of a chain into a fresh buffer keeps the length and
leaves every entry readable at its offset. -/
theorem spliceFold_ok {es : List Pl} {o : Nat} (hch : chainFrom o es)
    (hfits : ∀ r ∈ es, r.off + eLen r ≤ DATA_CAP)
    {d0 : List Nat} (hd0 : d0.length = DATA_CAP) :
    (es.foldl (fun d r => splice d r.off (entry r)) d0).length = DATA_CAP
    ∧ ∀ r ∈ es,
      extract (es.foldl (fun d r => splice d r.off (entry r)) d0) r.off (eLen r)
        = entry r := by
  induction es using List.reverseRecOn generalizing d0 with
  | nil => exact ⟨hd0, fun r hr => absurd hr (List.not_mem_nil r)⟩
  | append_singleton es a ih =>
    obtain ⟨hch2, hend⟩ := chainFrom_append_split hch
    have hfits2 : ∀ r ∈ es, r.off + eLen r ≤ DATA_CAP :=
      fun r hr => hfits r (List.mem_append_left _ hr)
    have hfa : a.off + eLen a ≤ DATA_CAP :=
      hfits a (List.mem_append_right _ (List.mem_cons_self a []))
    obtain ⟨hlen, hext⟩ := ih hch2 hfits2 hd0
    have hsplice_len : a.off + (entry a).length
        ≤ (es.foldl (fun d r => splice d r.off (entry r)) d0).length := by
      rw [entry_length, hlen]
      exact hfa
    constructor
    · rw [List.foldl_append, List.foldl_cons, List.foldl_nil,
        splice_length hsplice_len, hlen]
    · intro r hr
      rw [List.foldl_append, List.foldl_cons, List.foldl_nil]
      rcases List.mem_append.mp hr with hmem | hmem
      · have hbefore : r.off + eLen r ≤ a.off := by
          rw [hend]
          exact (chainFrom_bounds hch2 r hmem).2
        rw [extract_splice_before hsplice_len hbefore]
        exact hext r hmem
      · simp at hmem
        subst hmem
        rw [← entry_length r]
        exact extract_splice_self hsplice_len

theorem pageData_length {ps : List Pl} {q : Nat}
    (hch : chainFrom 0 (pageEntries ps q))
    (hfits : ∀ r ∈ ps, r.off + eLen r ≤ DATA_CAP) :
    (pageData ps q).length = DATA_CAP :=
  (spliceFold_ok hch (fun r hr => hfits r (mem_pageEntries hr).1)
    (by simp [DATA_CAP])).1

theorem pageData_extract {ps : List Pl} {q : Nat}
    (hch : chainFrom 0 (pageEntries ps q))
    (hfits : ∀ r ∈ ps, r.off + eLen r ≤ DATA_CAP)
    {r : Pl} (hr : r ∈ pageEntries ps q) :
    extract (pageData ps q) r.off (eLen r) = entry r :=
  (spliceFold_ok hch (fun x hx => hfits x (mem_pageEntries hx).1)
    (by simp [DATA_CAP])).2 r hr

theorem endOf_le {o c : Nat} {es : List Pl} (hch : chainFrom o es)
    (hfits : ∀ r ∈ es, r.off + eLen r ≤ c) (ho : o ≤ c) : endOf o es ≤ c := by
  induction es generalizing o with
  | nil => exact ho
  | cons a es ih =>
    obtain ⟨h1, h2⟩ := hch
    rw [endOf_cons]
    exact ih h2 (fun r hr => hfits r (List.mem_cons_of_mem a hr))
      (hfits a (List.mem_cons_self a es))

theorem pageUsed_le {ps : List Pl} {q : Nat}
    (hch : chainFrom 0 (pageEntries ps q))
    (hfits : ∀ r ∈ ps, r.off + eLen r ≤ DATA_CAP) :
    pageUsed ps q ≤ DATA_CAP := by
  rw [pageUsed_eq_endOf]
  exact endOf_le hch (fun r hr => hfits r (mem_pageEntries hr).1) (by omega)

theorem pageUsed_pos {ps : List Pl} {q : Nat}
    (hch : chainFrom 0 (pageEntries ps q)) (hne : pageEntries ps q ≠ []) :
    0 < pageUsed ps q := by
  rw [pageUsed_eq_endOf]
  rcases hes : pageEntries ps q with _ | ⟨a, es⟩
  · exact absurd hes hne
  · rw [hes] at hch
    have := (chainFrom_bounds hch a (List.mem_cons_self a es)).2
    have h8 := eLen_ge a
    omega

theorem entry_end_le_used {ps : List Pl} {q : Nat}
    (hch : chainFrom 0 (pageEntries ps q)) {r : Pl}
    (hr : r ∈ pageEntries ps q) :
    r.off + eLen r ≤ pageUsed ps q := by
  rw [pageUsed_eq_endOf]
  exact (chainFrom_bounds hch r hr).2

/-! ## Data-file layout lemmas -/

/-- Byte-range side condition on placements. -/
def plBytes (ps : List Pl) : Prop :=
  ∀ r ∈ ps, (∀ b ∈ r.key, b < 256) ∧ (∀ b ∈ r.val, b < 256)

theorem entry_bytes_lt {r : Pl} (hk : ∀ b ∈ r.key, b < 256)
    (hv : ∀ b ∈ r.val, b < 256) : ∀ b ∈ entry r, b < 256 := by
  intro b hb
  simp only [entry, entryOf, List.append_assoc, List.mem_append] at hb
  rcases hb with h | h | h | h
  · exact leBytes_lt _ _ b h
  · exact leBytes_lt _ _ b h
  · exact hk b h
  · exact hv b h

theorem splice_bytes_lt {d e : List Nat} {off : Nat}
    (hd : ∀ b ∈ d, b < 256) (he : ∀ b ∈ e, b < 256) :
    ∀ b ∈ splice d off e, b < 256 := by
  intro b hb
  simp only [splice, List.mem_append] at hb
  rcases hb with (h | h) | h
  · exact hd b (List.take_subset _ _ h)
  · exact he b h
  · exact hd b (List.drop_subset _ _ h)

theorem spliceFold_bytes_lt {es : List Pl}
    (hes : ∀ r ∈ es, (∀ b ∈ r.key, b < 256) ∧ (∀ b ∈ r.val, b < 256))
    {d0 : List Nat} (hd0 : ∀ b ∈ d0, b < 256) :
    ∀ b ∈ es.foldl (fun d r => splice d r.off (entry r)) d0, b < 256 := by
  induction es generalizing d0 with
  | nil => exact hd0
  | cons a es ih =>
    rw [List.foldl_cons]
    have ha := hes a (List.mem_cons_self a es)
    exact ih (fun r hr => hes r (List.mem_cons_of_mem a hr))
      (splice_bytes_lt hd0 (entry_bytes_lt ha.1 ha.2))

theorem pageData_bytes_lt {ps : List Pl} (hps : plBytes ps) (q : Nat) :
    ∀ b ∈ pageData ps q, b < 256 :=
  spliceFold_bytes_lt (fun r hr => hps r (mem_pageEntries hr).1)
    (fun b hb => by rw [List.eq_of_mem_replicate hb]; omega)

theorem foldl_pick {α : Type} (g : Pl → α) (es : List Pl) (a : α) :
    es.foldl (fun _ r => g r) a = a ∨ ∃ r ∈ es, es.foldl (fun _ r => g r) a = g r := by
  induction es generalizing a with
  | nil => exact Or.inl rfl
  | cons b es ih =>
    rw [List.foldl_cons]
    rcases ih (g b) with h | ⟨r, hr, h⟩
    · exact Or.inr ⟨b, List.mem_cons_self b es, h⟩
    · exact Or.inr ⟨r, List.mem_cons_of_mem b hr, h⟩

theorem pageLsnR_lt {ps : List Pl} {q j N : Nat}
    (hlsn : ∀ r ∈ ps, r.lsn < N) (hN : 0 < N) : pageLsnR ps q j < N := by
  rw [pageLsnR]
  split
  · rcases foldl_pick Pl.lsn (pageEntries ps q) 0 with h | ⟨r, hr, h⟩
    · omega
    · rw [h]; exact hlsn r (mem_pageEntries hr).1
  · rcases foldl_pick Pl.lsn
        ((pageEntries ps q).filter (fun r => decide (r.lsn < j))) 0 with h | ⟨r, hr, h⟩
    · omega
    · rw [h]
      exact hlsn r (mem_pageEntries (List.mem_of_mem_filter hr)).1

theorem pageStateR_empty {ps : List Pl} {q : Nat} (h : pageEntries ps q = [])
    (j : Nat) : pageStateR ps q j = Page.new q := by
  rw [pageStateR, Page.new, pageLsnR, pageUsed, pageData, h]
  simp

theorem specBlock_length {ps : List Pl} {q : Nat}
    (hch : chainFrom 0 (pageEntries ps q))
    (hfits : ∀ r ∈ ps, r.off + eLen r ≤ DATA_CAP) (j : Nat) :
    (specBlock ps q j).length = PAGE_SIZE := by
  rw [specBlock]
  split
  · simp
  · exact pageBytes_length (pageData_length hch hfits)

theorem specFile_length {ps : List Pl}
    (hch : ∀ q, chainFrom 0 (pageEntries ps q))
    (hfits : ∀ r ∈ ps, r.off + eLen r ≤ DATA_CAP) (j n : Nat) :
    (specFile ps j n).length = n * PAGE_SIZE := by
  induction n with
  | zero => rfl
  | succ n ih =>
    rw [specFile, List.length_append, ih, specBlock_length (hch n) hfits]
    ring

theorem specFile_congr {ps ps2 : List Pl} {j j2 : Nat} {n : Nat}
    (h : ∀ q < n, specBlock ps q j = specBlock ps2 q j2) :
    specFile ps j n = specFile ps2 j2 n := by
  induction n with
  | zero => rfl
  | succ n ih =>
    rw [specFile, specFile, ih (fun q hq => h q (by omega)), h n (by omega)]

theorem extract_append_first {A B : List Nat} {off len : Nat}
    (h : off + len ≤ A.length) :
    extract (A ++ B) off len = extract A off len := by
  rw [extract, extract, List.drop_append_of_le_length (by omega),
    List.take_append_of_le_length (by rw [List.length_drop]; omega)]

theorem specFile_extract {ps : List Pl} {j n q : Nat} (hq : q < n)
    (hch : ∀ p, chainFrom 0 (pageEntries ps p))
    (hfits : ∀ r ∈ ps, r.off + eLen r ≤ DATA_CAP) :
    extract (specFile ps j n) (q * PAGE_SIZE) PAGE_SIZE = specBlock ps q j := by
  induction n with
  | zero => omega
  | succ n ih =>
    rw [specFile]
    by_cases hqn : q < n
    · rw [extract_append_first ?hb]
      case hb =>
        rw [specFile_length hch hfits]
        have : q + 1 ≤ n := hqn
        calc q * PAGE_SIZE + PAGE_SIZE = (q + 1) * PAGE_SIZE := by ring
        _ ≤ n * PAGE_SIZE := Nat.mul_le_mul_right _ this
      exact ih hqn
    · have hqn2 : q = n := by omega
      subst hqn2
      rw [extract_skip' _ (specFile_length hch hfits j q) (Nat.add_zero _),
        extract_zero, List.take_of_length_le (by rw [specBlock_length (hch q) hfits])]

theorem readPage_specFile_eof {ps : List Pl} {j n q : Nat}
    (hch : ∀ p, chainFrom 0 (pageEntries ps p))
    (hfits : ∀ r ∈ ps, r.off + eLen r ≤ DATA_CAP) (hq : n ≤ q) :
    readPage (specFile ps j n) q = .ok (Page.new q) := by
  rw [readPage]
  have h0 : extract (specFile ps j n) (q * PAGE_SIZE) PAGE_SIZE = [] :=
    extract_eq_nil (by rw [specFile_length hch hfits]
                       exact Nat.mul_le_mul_right _ hq) _
  simp only [h0]
  rfl

theorem readPage_specFile_placed {ps : List Pl} {j n q : Nat} (hq : q < n)
    (hne : pageEntries ps q ≠ [])
    (hch : ∀ p, chainFrom 0 (pageEntries ps p))
    (hfits : ∀ r ∈ ps, r.off + eLen r ≤ DATA_CAP)
    (hbytes : plBytes ps)
    (hid : q < 2 ^ 64) (hlsn : ∀ r ∈ ps, r.lsn < 2 ^ 64) :
    readPage (specFile ps j n) q = .ok (pageStateR ps q j) := by
  rw [readPage]
  have hx := specFile_extract hq hch hfits (j := j)
  rw [specBlock, if_neg hne] at hx
  simp only [hx]
  have hdl : (pageStateR ps q j).data.length = DATA_CAP :=
    pageData_length (hch q) hfits
  have hbl : (pageBytes (pageStateR ps q j)).length = PAGE_SIZE :=
    pageBytes_length hdl
  rw [if_neg (by rw [hbl]; simp [PAGE_SIZE]), if_neg (by rw [hbl]; exact fun h => h rfl)]
  rw [from_bytes_pageBytes hdl (pageData_bytes_lt hbytes q) hid
    (pageLsnR_lt hlsn (by positivity))
    (lt_of_le_of_lt (pageUsed_le (hch q) hfits) (by rw [DATA_CAP, PAGE_SIZE, HDR_SZ]; norm_num))]

/-! ## File-surgery lemmas for `write_page` -/

theorem writeAt_append_self (file b : List Nat) :
    writeAt file file.length b = file ++ b := by
  rw [writeAt, List.take_length, Nat.sub_self, List.replicate_zero,
    List.drop_eq_nil_of_le (by omega)]
  simp

theorem writeAt_append_left {A : List Nat} (C b : List Nat) {off : Nat}
    (h : off + b.length ≤ A.length) :
    writeAt (A ++ C) off b = writeAt A off b ++ C := by
  rw [writeAt, writeAt, List.take_append_of_le_length (by omega),
    List.drop_append_of_le_length h]
  have h1 : off - (A ++ C).length = 0 := by simp; omega
  have h2 : off - A.length = 0 := by omega
  rw [h1, h2]
  simp

theorem writeAt_replace {A B C b : List Nat} (hA : A.length = off)
    (hB : B.length = b.length) :
    writeAt (A ++ (B ++ C)) off b = A ++ (b ++ C) := by
  have h1 : off - (A ++ (B ++ C)).length = 0 := by
    rw [List.length_append]; omega
  have h2 : (A ++ (B ++ C)).drop (off + b.length) = C := by
    rw [← List.append_assoc]
    exact List.drop_left' (by rw [List.length_append]; omega)
  rw [writeAt, List.take_append_of_le_length (by omega),
    List.take_of_length_le (by omega), h1, h2, List.replicate_zero]
  simp

theorem writeAt_specFile {ps ps2 : List Pl} {j j2 n q : Nat} {img : List Nat}
    (hq : q < n)
    (hblocks : ∀ p, p < n → p ≠ q → specBlock ps2 p j2 = specBlock ps p j)
    (himg : specBlock ps2 q j2 = img)
    (hch : ∀ p, chainFrom 0 (pageEntries ps p))
    (hfits : ∀ r ∈ ps, r.off + eLen r ≤ DATA_CAP)
    (himglen : img.length = PAGE_SIZE) :
    writeAt (specFile ps j n) (q * PAGE_SIZE) img = specFile ps2 j2 n := by
  induction n with
  | zero => omega
  | succ n ih =>
    rw [specFile]
    by_cases hqn : q < n
    · rw [writeAt_append_left _ _ ?hbound]
      case hbound =>
        rw [specFile_length hch hfits, himglen]
        calc q * PAGE_SIZE + PAGE_SIZE = (q + 1) * PAGE_SIZE := by ring
        _ ≤ n * PAGE_SIZE := Nat.mul_le_mul_right _ hqn
      rw [ih hqn (fun p hp hne => hblocks p (by omega) hne), specFile,
        hblocks n (by omega) (by omega)]
    · have hqn2 : q = n := by omega
      subst hqn2
      rw [show specFile ps j q ++ specBlock ps q j
          = specFile ps j q ++ (specBlock ps q j ++ []) by simp,
        writeAt_replace (specFile_length hch hfits j q)
          (by rw [specBlock_length (hch q) hfits, himglen]),
        specFile,
        specFile_congr (fun p hp => (hblocks p (by omega) (by omega)).symm), himg]
      simp

theorem writeAt_specFile_end {ps : List Pl} {j n : Nat} (img : List Nat)
    (hch : ∀ p, chainFrom 0 (pageEntries ps p))
    (hfits : ∀ r ∈ ps, r.off + eLen r ≤ DATA_CAP) :
    writeAt (specFile ps j n) (n * PAGE_SIZE) img = specFile ps j n ++ img := by
  conv_lhs => rw [show n * PAGE_SIZE = (specFile ps j n).length from
    (specFile_length hch hfits j n).symm]
  exact writeAt_append_self _ _

theorem specIndex_append (ps : List Pl) (r : Pl) :
    specIndex (ps ++ [r])
      = (r.key, (r.pid, r.off, r.val.length)) :: specIndex ps := by
  rw [specIndex, List.map_append, List.reverse_append, specIndex]
  simp

theorem specWalPairs_append (ps : List Pl) (r : Pl) :
    specWalPairs (ps ++ [r])
      = specWalPairs ps ++ [(r.lsn, setPayload r.pid r.off r.key r.val)] := by
  simp [specWalPairs]

theorem pageData_append_same {ps : List Pl} {r : Pl} {q : Nat} (h : r.pid = q) :
    pageData (ps ++ [r]) q = splice (pageData ps q) r.off (entry r) := by
  rw [pageData, pageEntries_append, if_pos h, List.foldl_append,
    List.foldl_cons, List.foldl_nil, pageData]

theorem pageUsed_append_same {ps : List Pl} {r : Pl} {q : Nat} (h : r.pid = q) :
    pageUsed (ps ++ [r]) q = r.off + eLen r := by
  rw [pageUsed, pageEntries_append, if_pos h, List.foldl_append,
    List.foldl_cons, List.foldl_nil]

theorem pageLsnR0_append_same {ps : List Pl} {r : Pl} {q : Nat} (h : r.pid = q) :
    pageLsnR (ps ++ [r]) q 0 = r.lsn := by
  rw [pageLsnR, pageEntries_append, if_pos h]
  have hemp : ((pageEntries ps q ++ [r]).filter
      (fun x => decide (x.lsn < 0))).isEmpty = true := by
    rw [List.isEmpty_iff, List.filter_eq_nil]
    intro x hx
    simp
  rw [if_pos hemp, List.foldl_append, List.foldl_cons, List.foldl_nil]

theorem specBlock_append_other {ps : List Pl} {r : Pl} {q : Nat}
    (h : r.pid ≠ q) (j : Nat) :
    specBlock (ps ++ [r]) q j = specBlock ps q j := by
  have he : pageEntries (ps ++ [r]) q = pageEntries ps q := by
    rw [pageEntries_append, if_neg h, List.append_nil]
  simp only [specBlock, pageStateR, pageData, pageUsed, pageLsnR, he]

theorem writeAt_nil (off : Nat) (b : List Nat) :
    writeAt [] off b = List.replicate off 0 ++ b := by
  simp [writeAt]

theorem pageData_nil {ps : List Pl} {q : Nat} (h : pageEntries ps q = []) :
    pageData ps q = List.replicate DATA_CAP 0 := by
  rw [pageData, h, List.foldl_nil]

theorem entryOf_length (k v : List Nat) :
    (entryOf k v).length = 8 + k.length + v.length := by
  simp [entryOf]
  omega

theorem pageEntries_last_ne {ps : List Pl} {pid used : Nat} (h : PlOk ps pid used)
    (hne : ps ≠ []) : pageEntries ps pid ≠ [] := by
  have hr : ps.getLast? = some (ps.getLast hne) := List.getLast?_eq_getLast ps hne
  have hpid := h.last_pid _ hr
  have hmem : ps.getLast hne ∈ pageEntries ps pid :=
    pageEntries_mem (List.getLast_mem hne) hpid
  intro hnil
  rw [hnil] at hmem
  exact absurd hmem (List.not_mem_nil _)

theorem plBytes_of_ops {ops : List (List Nat × List Nat)}
    (hmap : (placements ops).map (fun r => (r.key, r.val)) = ops)
    (hbytes : opsBytes ops) : plBytes (placements ops) := by
  intro r hr
  have hm : (r.key, r.val) ∈ ops := by
    rw [← hmap]
    exact List.mem_map_of_mem _ hr
  exact hbytes (r.key, r.val) hm

theorem specFile_all_empty {ps : List Pl} {j n : Nat}
    (h : ∀ p, p < n → pageEntries ps p = []) :
    specFile ps j n = List.replicate (n * PAGE_SIZE) 0 := by
  induction n with
  | zero => rfl
  | succ n ih =>
    rw [specFile, ih (fun p hp => h p (by omega)), specBlock,
      if_pos (h n (by omega)), ← List.replicate_add,
      show n * PAGE_SIZE + PAGE_SIZE = (n + 1) * PAGE_SIZE by ring]

theorem encodeLog_singleton (a : Nat) (p : List Nat) :
    encodeLog [(a, p)] = walRecord a p := by
  rw [encodeLog, encodeLog, List.append_nil]

/-- The central step theorem: on the state reached by the history `ops`, one
more error-free `set` succeeds and yields exactly the state described for the
history `ops ++ [(k, v)]`. -/
theorem setWith_spec {ops : List (List Nat × List Nat)} {k v : List Nat}
    (hfit : opsFit (ops ++ [(k, v)]))
    (hbytes : opsBytes (ops ++ [(k, v)]))
    (hlen : ops.length + 1 < U64) :
    Engine.set (specEngine ops) k v = .ok (specEngine (ops ++ [(k, v)])) := by
  have hfit1 : opsFit ops := fun x hx => hfit x (List.mem_append_left _ hx)
  have hbytes1 : opsBytes ops := fun x hx => hbytes x (List.mem_append_left _ hx)
  have hop : 8 + k.length + v.length ≤ DATA_CAP :=
    hfit (k, v) (List.mem_append_right _ (List.mem_cons_self _ _))
  obtain ⟨hok, hmap, hlenps⟩ := placeAll_ok hfit1
  have hch := hok.chain
  have hfits := hok.fits
  have hpb : plBytes (placements ops) := plBytes_of_ops hmap hbytes1
  have h64 : U64 = 18446744073709551616 := by norm_num [U64]
  have hlsn : ∀ r ∈ placements ops, r.lsn < 2 ^ 64 := by
    intro r hr
    have h1 := lsn_lt_of_mem hok.lsn_eq hr
    have h2 : (2 : Nat) ^ 64 = 18446744073709551616 := by norm_num
    omega
  have hpidlt : curPid ops < 2 ^ 64 := by
    have h1 := hok.pid_len
    have h2 : (2 : Nat) ^ 64 = 18446744073709551616 := by norm_num
    omega
  have hc1 : PAGE_SIZE - pager_hdr_sz = 8160 := by
    norm_num [PAGE_SIZE, pager_hdr_sz]
  have hc2 : DATA_CAP = 8164 := by norm_num [DATA_CAP, PAGE_SIZE, HDR_SZ]
  have hread : readPage (specFile (placements ops) 0 (numPages ops)) (curPid ops)
      = .ok (pageStateR (placements ops) (curPid ops) 0) := by
    by_cases hnil : placements ops = []
    · have h0 : numPages ops = 0 := by rw [numPages, if_pos hnil]
      have hemp : pageEntries (placements ops) (curPid ops) = [] := by
        rw [hnil]
        rfl
      rw [h0, readPage_specFile_eof hch hfits (Nat.zero_le _),
        pageStateR_empty hemp 0]
    · have h0 : numPages ops = curPid ops + 1 := by rw [numPages, if_neg hnil]
      rw [h0]
      exact readPage_specFile_placed (by omega) (pageEntries_last_ne hok hnil)
        hch hfits hpb hpidlt hlsn
  have hused : (pageStateR (placements ops) (curPid ops) 0).used = curUsed ops :=
    hok.used_eq.symm
  unfold Engine.set Engine.setWith
  simp only [specEngine]
  cases hrp : readPage (specFile (placements ops) 0 (numPages ops)) (curPid ops) with
  | error e =>
    rw [hread] at hrp
    simp at hrp
  | ok page0 =>
    have hp0 : page0 = pageStateR (placements ops) (curPid ops) 0 := by
      rw [hread] at hrp
      exact (Except.ok.inj hrp).symm
    subst hp0
    dsimp only
    rw [hused]
    by_cases hroll : PAGE_SIZE - pager_hdr_sz < curUsed ops + (8 + k.length + v.length)
    · -- rollover to a fresh page
      have heq : placeAll (ops ++ [(k, v)])
          = placeStep (placements ops, curPid ops, curUsed ops) (k, v) := by
        rw [placeAll_append]
        rfl
      have hstep : placeAll (ops ++ [(k, v)])
          = (placements ops ++ [⟨curPid ops + 1, 0, k, v, (placements ops).length⟩],
             curPid ops + 1, 8 + k.length + v.length) := by
        rw [heq, placeStep]
        simp [hroll]
      have hps2 : placements (ops ++ [(k, v)])
          = placements ops ++ [⟨curPid ops + 1, 0, k, v, (placements ops).length⟩] := by
        rw [placements, hstep]
      have hpid2 : curPid (ops ++ [(k, v)]) = curPid ops + 1 := by
        rw [curPid, hstep]
      have hnum2 : numPages (ops ++ [(k, v)]) = curPid ops + 2 := by
        rw [numPages, if_neg (by rw [hps2]; simp), hpid2]
      have hfresh : pageEntries (placements ops) (curPid ops + 1) = [] :=
        pageEntries_nil_of_all_ne (fun x hx => by have := hok.pid_le x hx; omega)
      have hread2 : readPage (specFile (placements ops) 0 (numPages ops))
          (curPid ops + 1) = .ok (Page.new (curPid ops + 1)) :=
        readPage_specFile_eof hch hfits (by rw [numPages]; split <;> omega)
      have hne2 : pageEntries (placements ops
            ++ [⟨curPid ops + 1, 0, k, v, (placements ops).length⟩])
          (curPid ops + 1) ≠ [] := by
        rw [pageEntries_append, if_pos rfl, hfresh]
        simp
      simp only [if_pos hroll, Page.new, Bool.false_eq_true, if_false]
      cases hrp2 : readPage (specFile (placements ops) 0 (numPages ops))
          (curPid ops + 1) with
      | error e =>
        rw [hread2] at hrp2
        simp at hrp2
      | ok page2 =>
        have hp2 : page2 = Page.new (curPid ops + 1) := by
          rw [hread2] at hrp2
          exact (Except.ok.inj hrp2).symm
        subst hp2
        dsimp only
        simp only [Page.new]
        have hpage3 : pageStateR (placements ops
              ++ [⟨curPid ops + 1, 0, k, v, (placements ops).length⟩])
            (curPid ops + 1) 0
            = ⟨curPid ops + 1, (placements ops).length,
               (entryOf k v).length,
               splice (List.replicate DATA_CAP 0) 0 (entryOf k v)⟩ := by
          rw [pageStateR, pageLsnR0_append_same rfl, pageUsed_append_same rfl,
            pageData_append_same rfl, pageData_nil hfresh]
          simp [eLen, entry, entryOf_length]
        have hfile : writeAt (specFile (placements ops) 0 (numPages ops))
            ((curPid ops + 1) * PAGE_SIZE)
            (pageBytes ⟨curPid ops + 1, (placements ops).length,
              (entryOf k v).length,
              splice (List.replicate DATA_CAP 0) 0 (entryOf k v)⟩)
            = specFile (placements ops
                ++ [⟨curPid ops + 1, 0, k, v, (placements ops).length⟩])
                0 (curPid ops + 2) := by
          by_cases hnil : placements ops = []
          · have h0 : numPages ops = 0 := by rw [numPages, if_pos hnil]
            have hempty : ∀ p, p < curPid ops + 1 → pageEntries (placements ops
                  ++ [⟨curPid ops + 1, 0, k, v, (placements ops).length⟩]) p = [] := by
              intro p hp
              rw [pageEntries_append, if_neg (show
                  (⟨curPid ops + 1, 0, k, v, (placements ops).length⟩ : Pl).pid ≠ p
                  from by show curPid ops + 1 ≠ p; omega),
                List.append_nil, hnil]
              rfl
            rw [h0, show specFile (placements ops) 0 0 = [] from rfl, writeAt_nil,
              show curPid ops + 2 = (curPid ops + 1) + 1 from rfl, specFile,
              specFile_all_empty hempty, specBlock, if_neg hne2, hpage3]
          · have h0 : numPages ops = curPid ops + 1 := by
              rw [numPages, if_neg hnil]
            have hcg : specFile (placements ops) 0 (curPid ops + 1)
                = specFile (placements ops
                    ++ [⟨curPid ops + 1, 0, k, v, (placements ops).length⟩])
                    0 (curPid ops + 1) :=
              specFile_congr (fun p hp => (specBlock_append_other (show
                (⟨curPid ops + 1, 0, k, v, (placements ops).length⟩ : Pl).pid ≠ p
                from by show curPid ops + 1 ≠ p; omega) 0).symm)
            rw [h0, writeAt_specFile_end _ hch hfits]
            conv_rhs => rw [show curPid ops + 2 = (curPid ops + 1) + 1 from rfl,
              specFile]
            rw [← hcg, specBlock, if_neg hne2, hpage3]
        split
        · rename_i hcond
          exfalso
          rw [entryOf_length, List.length_replicate] at hcond
          omega
        · rename_i hcond
          cases hw : writePage (specFile (placements ops) 0 (numPages ops))
              ⟨curPid ops + 1, (placements ops).length,
               0 + (entryOf k v).length,
               splice (List.replicate DATA_CAP 0) 0 (entryOf k v)⟩ with
          | none =>
            exfalso
            rw [writePage, Page.to_bytes, if_pos (by
              rw [splice_length (by rw [entryOf_length, List.length_replicate]; omega)]
              simp [DATA_CAP])] at hw
            simp at hw
          | some df2 =>
            rw [writePage, Page.to_bytes, if_pos (by
              rw [splice_length (by rw [entryOf_length, List.length_replicate]; omega)]
              simp [DATA_CAP])] at hw
            simp at hw
            rw [← hw, hfile]
            simp only [specEngine, hps2, hpid2, hnum2, specWalPairs_append,
              encodeLog_append, encodeLog_singleton, specIndex_append,
              List.length_append, List.length_cons, List.length_nil]
    · -- the record still fits the cursor page
      have heq : placeAll (ops ++ [(k, v)])
          = placeStep (placements ops, curPid ops, curUsed ops) (k, v) := by
        rw [placeAll_append]
        rfl
      have hstep : placeAll (ops ++ [(k, v)])
          = (placements ops
              ++ [⟨curPid ops, curUsed ops, k, v, (placements ops).length⟩],
             curPid ops, curUsed ops + (8 + k.length + v.length)) := by
        rw [heq, placeStep]
        simp [hroll]
      have hps2 : placements (ops ++ [(k, v)])
          = placements ops
            ++ [⟨curPid ops, curUsed ops, k, v, (placements ops).length⟩] := by
        rw [placements, hstep]
      have hpid2 : curPid (ops ++ [(k, v)]) = curPid ops := by
        rw [curPid, hstep]
      have hnum2 : numPages (ops ++ [(k, v)]) = curPid ops + 1 := by
        rw [numPages, if_neg (by rw [hps2]; simp), hpid2]
      have hne2 : pageEntries (placements ops
            ++ [⟨curPid ops, curUsed ops, k, v, (placements ops).length⟩])
          (curPid ops) ≠ [] := by
        rw [pageEntries_append, if_pos rfl]
        simp
      have hdlen : (pageData (placements ops) (curPid ops)).length = DATA_CAP :=
        pageData_length (hch _) hfits
      have hucap : curUsed ops + (8 + k.length + v.length) ≤ DATA_CAP := by
        omega
      simp only [if_neg hroll, Bool.false_eq_true, if_false]
      cases hrp2 : readPage (specFile (placements ops) 0 (numPages ops))
          (curPid ops) with
      | error e =>
        rw [hread] at hrp2
        simp at hrp2
      | ok page2 =>
        have hp2 : page2 = pageStateR (placements ops) (curPid ops) 0 := by
          rw [hread] at hrp2
          exact (Except.ok.inj hrp2).symm
        subst hp2
        dsimp only
        have hpage3 : pageStateR (placements ops
              ++ [⟨curPid ops, curUsed ops, k, v, (placements ops).length⟩])
            (curPid ops) 0
            = ⟨curPid ops, (placements ops).length,
               curUsed ops + (entryOf k v).length,
               splice (pageStateR (placements ops) (curPid ops) 0).data
                 (curUsed ops) (entryOf k v)⟩ := by
          rw [pageStateR, pageLsnR0_append_same rfl, pageUsed_append_same rfl,
            pageData_append_same rfl]
          simp [eLen, entry, entryOf_length, pageStateR]
        have hfile : writeAt (specFile (placements ops) 0 (numPages ops))
            (curPid ops * PAGE_SIZE)
            (pageBytes ⟨curPid ops, (placements ops).length,
              curUsed ops + (entryOf k v).length,
              splice (pageStateR (placements ops) (curPid ops) 0).data
                (curUsed ops) (entryOf k v)⟩)
            = specFile (placements ops
                ++ [⟨curPid ops, curUsed ops, k, v, (placements ops).length⟩])
                0 (curPid ops + 1) := by
          by_cases hnil : placements ops = []
          · have h0 : numPages ops = 0 := by rw [numPages, if_pos hnil]
            have hempty : ∀ p, p < curPid ops → pageEntries (placements ops
                  ++ [⟨curPid ops, curUsed ops, k, v, (placements ops).length⟩]) p
                  = [] := by
              intro p hp
              rw [pageEntries_append, if_neg (show
                  (⟨curPid ops, curUsed ops, k, v, (placements ops).length⟩ : Pl).pid ≠ p
                  from by show curPid ops ≠ p; omega),
                List.append_nil, hnil]
              rfl
            rw [h0, show specFile (placements ops) 0 0 = [] from rfl, writeAt_nil,
              specFile, specFile_all_empty hempty, specBlock, if_neg hne2, hpage3]
          · have h0 : numPages ops = curPid ops + 1 := by
              rw [numPages, if_neg hnil]
            rw [h0]
            refine writeAt_specFile (by omega) ?_ ?_ hch hfits ?_
            · intro p hp hne
              exact specBlock_append_other (show
                (⟨curPid ops, curUsed ops, k, v, (placements ops).length⟩ : Pl).pid ≠ p
                from by show curPid ops ≠ p; omega) 0
            · rw [specBlock, if_neg hne2, hpage3]
            · rw [pageBytes_length]
              rw [show (⟨curPid ops, (placements ops).length,
                  curUsed ops + (entryOf k v).length,
                  splice (pageStateR (placements ops) (curPid ops) 0).data
                    (curUsed ops) (entryOf k v)⟩ : Page).data
                  = splice (pageData (placements ops) (curPid ops))
                    (curUsed ops) (entryOf k v) from rfl]
              rw [splice_length (by rw [entryOf_length]; omega)]
              exact hdlen
        split
        · rename_i hcond
          exfalso
          rw [entryOf_length] at hcond
          have hpl : (pageStateR (placements ops) (curPid ops) 0).data.length
              = DATA_CAP := hdlen
          omega
        · rename_i hcond
          cases hw : writePage (specFile (placements ops) 0 (numPages ops))
              ⟨curPid ops, (placements ops).length,
               curUsed ops + (entryOf k v).length,
               splice (pageStateR (placements ops) (curPid ops) 0).data
                 (curUsed ops) (entryOf k v)⟩ with
          | none =>
            exfalso
            rw [writePage, Page.to_bytes, if_pos (by
              rw [splice_length (show curUsed ops + (entryOf k v).length
                  ≤ ((pageStateR (placements ops) (curPid ops) 0).data).length
                  from by rw [entryOf_length]
                          show _ ≤ (pageData (placements ops) (curPid ops)).length
                          omega)]
              show (pageData (placements ops) (curPid ops)).length = _
              rw [hdlen, DATA_CAP])] at hw
            simp at hw
          | some df2 =>
            rw [writePage, Page.to_bytes, if_pos (by
              rw [splice_length (show curUsed ops + (entryOf k v).length
                  ≤ ((pageStateR (placements ops) (curPid ops) 0).data).length
                  from by rw [entryOf_length]
                          show _ ≤ (pageData (placements ops) (curPid ops)).length
                          omega)]
              show (pageData (placements ops) (curPid ops)).length = _
              rw [hdlen, DATA_CAP])] at hw
            simp at hw
            rw [← hw, hfile]
            simp only [specEngine, hps2, hpid2, hnum2, specWalPairs_append,
              encodeLog_append, encodeLog_singleton, specIndex_append,
              List.length_append, List.length_cons, List.length_nil]

/-- The fresh engine is the spec state of the empty history. -/
theorem specEngine_nil : specEngine [] = Engine.init := rfl

theorem runSets_app {ops2 ops1 : List (List Nat × List Nat)}
    (hfit : opsFit (ops1 ++ ops2)) (hbytes : opsBytes (ops1 ++ ops2))
    (hlen : (ops1 ++ ops2).length + 1 < U64) :
    runSets (specEngine ops1) ops2 = some (specEngine (ops1 ++ ops2)) := by
  induction ops2 generalizing ops1 with
  | nil =>
    rw [runSets, List.append_nil]
  | cons op ops2 ih =>
    obtain ⟨k, v⟩ := op
    have hassoc : ops1 ++ (k, v) :: ops2 = (ops1 ++ [(k, v)]) ++ ops2 := by
      simp
    have hf1 : opsFit (ops1 ++ [(k, v)]) := by
      intro x hx
      rcases List.mem_append.mp hx with h1 | h1
      · exact hfit x (List.mem_append_left _ h1)
      · simp at h1
        subst h1
        exact hfit (k, v) (by simp)
    have hb1 : opsBytes (ops1 ++ [(k, v)]) := by
      intro x hx
      rcases List.mem_append.mp hx with h1 | h1
      · exact hbytes x (List.mem_append_left _ h1)
      · simp at h1
        subst h1
        exact hbytes (k, v) (by simp)
    have hl1 : ops1.length + 1 < U64 := by
      rw [List.length_append, List.length_cons] at hlen
      omega
    rw [runSets, setWith_spec hf1 hb1 hl1]
    show runSets (specEngine (ops1 ++ [(k, v)])) ops2
      = some (specEngine (ops1 ++ (k, v) :: ops2))
    rw [hassoc]
    refine ih ?_ ?_ ?_
    · rw [← hassoc]
      exact hfit
    · rw [← hassoc]
      exact hbytes
    · rw [← hassoc]
      exact hlen

/-- The reachable-state characterization: a history of successful sets on a
fresh directory yields exactly the state the placement fold describes. -/
theorem runSets_spec {ops : List (List Nat × List Nat)} (hfit : opsFit ops)
    (hbytes : opsBytes ops) (hlen : ops.length + 1 < U64) :
    runSets Engine.init ops = some (specEngine ops) := by
  have h := @runSets_app ops []
    (by rw [List.nil_append]; exact hfit)
    (by rw [List.nil_append]; exact hbytes)
    (by rw [List.nil_append]; exact hlen)
  rw [List.nil_append] at h
  rw [← specEngine_nil]
  exact h

theorem reach_spec {st : Engine} (h : Reach st) :
    ∃ ops, opsFit ops ∧ opsBytes ops ∧ ops.length + 1 < U64
      ∧ st = specEngine ops := by
  obtain ⟨ops, hfit, hbytes, hlen, hrun⟩ := h
  refine ⟨ops, hfit, hbytes, hlen, ?_⟩
  rw [runSets_spec hfit hbytes hlen] at hrun
  exact (Option.some.inj hrun).symm

/-- The cursor page always reads back as the live page state. -/
theorem cursor_read {ops : List (List Nat × List Nat)} (hfit : opsFit ops)
    (hbytes : opsBytes ops) (hlen : ops.length + 1 < U64) :
    readPage (specFile (placements ops) 0 (numPages ops)) (curPid ops)
      = .ok (pageStateR (placements ops) (curPid ops) 0) := by
  obtain ⟨hok, hmap, hlenps⟩ := placeAll_ok hfit
  have hpb : plBytes (placements ops) := plBytes_of_ops hmap hbytes
  have h2 : (2 : Nat) ^ 64 = 18446744073709551616 := by norm_num
  have h64 : U64 = 18446744073709551616 := by norm_num [U64]
  have hlsn : ∀ r ∈ placements ops, r.lsn < 2 ^ 64 := by
    intro r hr
    have h1 := lsn_lt_of_mem hok.lsn_eq hr
    omega
  have hpidlt : curPid ops < 2 ^ 64 := by
    have h1 := hok.pid_len
    omega
  by_cases hnil : placements ops = []
  · have h0 : numPages ops = 0 := by rw [numPages, if_pos hnil]
    have hemp : pageEntries (placements ops) (curPid ops) = [] := by
      rw [hnil]
      rfl
    rw [h0, readPage_specFile_eof hok.chain hok.fits (Nat.zero_le _),
      pageStateR_empty hemp 0]
  · have h0 : numPages ops = curPid ops + 1 := by rw [numPages, if_neg hnil]
    rw [h0]
    exact readPage_specFile_placed (by omega) (pageEntries_last_ne hok hnil)
      hok.chain hok.fits hpb hpidlt hlsn

/-- A record longer than the page buffer panics `set`: the rollover check
passes it to a fresh page whose buffer it then overruns. -/
theorem set_panics {ops : List (List Nat × List Nat)} {k v : List Nat}
    (hfit : opsFit ops) (hbytes : opsBytes ops) (hlen : ops.length + 1 < U64)
    (hbig : DATA_CAP < 8 + k.length + v.length) :
    Engine.set (specEngine ops) k v = .panicked := by
  obtain ⟨hok, hmap, hlenps⟩ := placeAll_ok hfit
  have hc1 : PAGE_SIZE - pager_hdr_sz = 8160 := by
    norm_num [PAGE_SIZE, pager_hdr_sz]
  have hc2 : DATA_CAP = 8164 := by norm_num [DATA_CAP, PAGE_SIZE, HDR_SZ]
  have hread := cursor_read hfit hbytes hlen
  have hused : (pageStateR (placements ops) (curPid ops) 0).used = curUsed ops :=
    hok.used_eq.symm
  have hread2 : readPage (specFile (placements ops) 0 (numPages ops))
      (curPid ops + 1) = .ok (Page.new (curPid ops + 1)) :=
    readPage_specFile_eof hok.chain hok.fits (by rw [numPages]; split <;> omega)
  unfold Engine.set Engine.setWith
  simp only [specEngine]
  cases hrp : readPage (specFile (placements ops) 0 (numPages ops)) (curPid ops) with
  | error e =>
    rw [hread] at hrp
    simp at hrp
  | ok page0 =>
    have hp0 : page0 = pageStateR (placements ops) (curPid ops) 0 := by
      rw [hread] at hrp
      exact (Except.ok.inj hrp).symm
    subst hp0
    dsimp only
    rw [hused]
    have hroll : PAGE_SIZE - pager_hdr_sz < curUsed ops + (8 + k.length + v.length) := by
      omega
    simp only [if_pos hroll, Page.new, Bool.false_eq_true, if_false]
    cases hrp2 : readPage (specFile (placements ops) 0 (numPages ops))
        (curPid ops + 1) with
    | error e =>
      rw [hread2] at hrp2
      simp at hrp2
    | ok page2 =>
      have hp2 : page2 = Page.new (curPid ops + 1) := by
        rw [hread2] at hrp2
        exact (Except.ok.inj hrp2).symm
      subst hp2
      dsimp only
      simp only [Page.new]
      split
      · rfl
      · rename_i hcond
        exfalso
        rw [entryOf_length, List.length_replicate] at hcond
        omega

/-! ## In-page record layout under the index -/

theorem extract_extract {l : List Nat} {o n a m : Nat} (h : a + m ≤ n) :
    extract (extract l o n) a m = extract l (o + a) m := by
  rw [extract, extract, extract]
  have h1 : ((l.drop o).take n).drop a = ((l.drop o).drop a).take (n - a) := by
    rw [List.drop_take]
  rw [h1, List.take_take, Nat.min_eq_left (by omega), List.drop_drop]

theorem entryOf_extract_klen (k v : List Nat) :
    extract (entryOf k v) 0 4 = leBytes 4 k.length := by
  rw [entryOf]
  exact extract_prefix _ (leBytes_length 4 _)

theorem entryOf_extract_vlen (k v : List Nat) :
    extract (entryOf k v) 4 4 = leBytes 4 v.length := by
  rw [entryOf, List.append_assoc, List.append_assoc, extract_skip' _ (leBytes_length 4 k.length) (show 4 + 0 = 4 by omega)]
  exact extract_prefix _ (leBytes_length 4 _)

theorem entryOf_extract_key (k v : List Nat) :
    extract (entryOf k v) 8 k.length = k := by
  rw [entryOf, List.append_assoc, List.append_assoc, extract_skip' _ (leBytes_length 4 k.length) (show 4 + 4 = 8 by omega),
    extract_skip' _ (leBytes_length 4 v.length) (show 4 + 0 = 4 by omega)]
  exact extract_prefix _ rfl

theorem entryOf_extract_val (k v : List Nat) :
    extract (entryOf k v) (8 + k.length) v.length = v := by
  rw [entryOf, List.append_assoc, List.append_assoc,
    extract_skip' _ (leBytes_length 4 k.length)
      (show 4 + (4 + k.length) = 8 + k.length by omega),
    extract_skip' _ (leBytes_length 4 v.length)
      (show 4 + k.length = 4 + k.length from rfl),
    extract, drop_exact v rfl, List.take_length]

theorem ilookup_cons_self (x : Nat × Nat × Nat) (idx : Index) (k : List Nat) :
    ilookup ((k, x) :: idx) k = some x := by
  rw [ilookup, List.find?_cons_of_pos _ (by simp)]
  rfl

/-- Every placed record reads back intact from its page buffer: the two
length fields, the key bytes and the value bytes sit at the indexed offset,
and the record ends within the page's used region. -/
theorem record_wf {ops : List (List Nat × List Nat)} (hfit : opsFit ops)
    {r : Pl} (hr : r ∈ placements ops) :
    fromLe (extract (pageData (placements ops) r.pid) r.off 4) = r.key.length
    ∧ fromLe (extract (pageData (placements ops) r.pid) (r.off + 4) 4)
        = r.val.length
    ∧ extract (pageData (placements ops) r.pid) (r.off + 8) r.key.length = r.key
    ∧ extract (pageData (placements ops) r.pid) (r.off + 8 + r.key.length)
        r.val.length = r.val
    ∧ r.off + 8 + r.key.length + r.val.length
        ≤ pageUsed (placements ops) r.pid := by
  obtain ⟨hok, hmap, hlenps⟩ := placeAll_ok hfit
  have hpe : r ∈ pageEntries (placements ops) r.pid := pageEntries_mem hr rfl
  have hx : extract (pageData (placements ops) r.pid) r.off (eLen r) = entry r :=
    pageData_extract (hok.chain r.pid) hok.fits hpe
  have hfr := hok.fits r hr
  have hel : eLen r = 8 + r.key.length + r.val.length := by rw [eLen]
  have h44 : (256 : Nat) ^ 4 = 4294967296 := by norm_num
  have hdc : DATA_CAP = 8164 := by norm_num [DATA_CAP, PAGE_SIZE, HDR_SZ]
  have hkl : r.key.length < 256 ^ 4 := by omega
  have hvl : r.val.length < 256 ^ 4 := by omega
  refine ⟨?_, ?_, ?_, ?_, ?_⟩
  · have h1 := extract_extract (l := pageData (placements ops) r.pid)
      (o := r.off) (n := eLen r) (a := 0) (m := 4) (by omega)
    rw [hx] at h1
    rw [show r.off = r.off + 0 from by omega, ← h1, entry,
      entryOf_extract_klen, fromLe_leBytes_small hkl]
  · have h1 := extract_extract (l := pageData (placements ops) r.pid)
      (o := r.off) (n := eLen r) (a := 4) (m := 4) (by omega)
    rw [hx] at h1
    rw [← h1, entry, entryOf_extract_vlen, fromLe_leBytes_small hvl]
  · have h1 := extract_extract (l := pageData (placements ops) r.pid)
      (o := r.off) (n := eLen r) (a := 8) (m := r.key.length) (by omega)
    rw [hx] at h1
    rw [← h1, entry, entryOf_extract_key]
  · have h1 := extract_extract (l := pageData (placements ops) r.pid)
      (o := r.off) (n := eLen r) (a := 8 + r.key.length) (m := r.val.length)
      (by omega)
    rw [hx] at h1
    rw [show r.off + 8 + r.key.length = r.off + (8 + r.key.length) from by omega,
      ← h1, entry, entryOf_extract_val]
  · have h2 := entry_end_le_used (hok.chain r.pid) hpe
    omega

/-- After a successful `set`, `get` on the same key reads back the value:
the freshly consed index binding points at the just-written record. -/
theorem get_spec_last {ops : List (List Nat × List Nat)} {k v : List Nat}
    (hfit : opsFit (ops ++ [(k, v)])) (hbytes : opsBytes (ops ++ [(k, v)]))
    (hlen : ops.length + 1 < U64) :
    Engine.get (specEngine (ops ++ [(k, v)])) k = .ok (some v) := by
  obtain ⟨hok, hmap, hlenps⟩ := placeAll_ok hfit
  obtain ⟨pid, off, hr⟩ :=
    placeStep_shape (placements ops) (curPid ops) (curUsed ops) k v
  have hps : placements (ops ++ [(k, v)])
      = placements ops ++ [⟨pid, off, k, v, (placements ops).length⟩] := by
    have h1 : placements (ops ++ [(k, v)])
        = (placeStep (placements ops, curPid ops, curUsed ops) (k, v)).1 := by
      rw [placements, placeAll_append]
      rfl
    rw [h1, hr]
  have hmem : (⟨pid, off, k, v, (placements ops).length⟩ : Pl)
      ∈ placements (ops ++ [(k, v)]) := by
    rw [hps]
    exact List.mem_append_right _ (List.mem_cons_self _ _)
  have hwf := record_wf hfit hmem
  dsimp only at hwf
  have hpb : plBytes (placements (ops ++ [(k, v)])) :=
    plBytes_of_ops hmap hbytes
  have h2 : (2 : Nat) ^ 64 = 18446744073709551616 := by norm_num
  have h64 : U64 = 18446744073709551616 := by norm_num [U64]
  have hlt : (placements (ops ++ [(k, v)])).length = ops.length + 1 := by
    rw [hlenps, List.length_append, List.length_cons, List.length_nil]
  have hlsn : ∀ x ∈ placements (ops ++ [(k, v)]), x.lsn < 2 ^ 64 := by
    intro x hx
    have h1 := lsn_lt_of_mem hok.lsn_eq hx
    omega
  have hpidle : pid ≤ curPid (ops ++ [(k, v)]) :=
    hok.pid_le ⟨pid, off, k, v, (placements ops).length⟩ hmem
  have hpid64 : pid < 2 ^ 64 := by
    have h1 := hok.pid_len
    omega
  have hne : pageEntries (placements (ops ++ [(k, v)])) pid ≠ [] := by
    rw [hps, pageEntries_append, if_pos rfl]
    simp
  have hnum : numPages (ops ++ [(k, v)]) = curPid (ops ++ [(k, v)]) + 1 := by
    rw [numPages, if_neg (by rw [hps]; simp)]
  have hreadp : readPage
      (specFile (placements (ops ++ [(k, v)])) 0 (numPages (ops ++ [(k, v)])))
      pid = .ok (pageStateR (placements (ops ++ [(k, v)])) pid 0) := by
    rw [hnum]
    exact readPage_specFile_placed (by omega) hne hok.chain hok.fits hpb
      hpid64 hlsn
  have hidx : ilookup (specIndex (placements (ops ++ [(k, v)]))) k
      = some (pid, off, v.length) := by
    rw [hps, specIndex_append]
    exact ilookup_cons_self _ _ _
  have hdl : (pageData (placements (ops ++ [(k, v)])) pid).length = DATA_CAP :=
    pageData_length (hok.chain pid) hok.fits
  have hule : pageUsed (placements (ops ++ [(k, v)])) pid ≤ DATA_CAP :=
    pageUsed_le (hok.chain pid) hok.fits
  unfold Engine.get
  simp only [specEngine]
  rw [hidx]
  dsimp only
  rw [hreadp]
  dsimp only
  rw [show (pageStateR (placements (ops ++ [(k, v)])) pid 0).data
      = pageData (placements (ops ++ [(k, v)])) pid from rfl]
  rw [hwf.1, hwf.2.1, if_neg (by rw [hdl]; omega), hwf.2.2.2.1]

/-! ## Claim theorems: C3, C9, C10 -/

/-- C3 (amended): on any reachable engine state, for byte-string keys and
values with `len(k) ∈ [1, 2048]` and `len(v) ∈ [0, 7000]` whose encoded
record also fits the page buffer (`8 + len(k) + len(v) ≤ PAGE_SIZE - HDR_SZ`),
`set(k, v)` succeeds and an immediately following `get(k)` returns
`Some(v)`.  Without the fit bound the claim fails: the extremes of the
stated ranges panic (see the counterexample). -/
theorem claim_C3 {st : Engine} (h : Reach st) {k v : List Nat}
    (_hk1 : 1 ≤ k.length) (_hk2 : k.length ≤ 2048) (_hv2 : v.length ≤ 7000)
    (hkb : ∀ b ∈ k, b < 256) (hvb : ∀ b ∈ v, b < 256)
    (hsz : 8 + k.length + v.length ≤ PAGE_SIZE - HDR_SZ) :
    ∃ st2, Engine.set st k v = .ok st2 ∧ Engine.get st2 k = .ok (some v) := by
  obtain ⟨ops, hfit, hbytes, hlen, hst⟩ := reach_spec h
  subst hst
  have hfit2 : opsFit (ops ++ [(k, v)]) := by
    intro x hx
    rcases List.mem_append.mp hx with h1 | h1
    · exact hfit x h1
    · simp at h1
      subst h1
      show 8 + k.length + v.length ≤ DATA_CAP
      rw [DATA_CAP]
      exact hsz
  have hbytes2 : opsBytes (ops ++ [(k, v)]) := by
    intro x hx
    rcases List.mem_append.mp hx with h1 | h1
    · exact hbytes x h1
    · simp at h1
      subst h1
      exact ⟨hkb, hvb⟩
  exact ⟨specEngine (ops ++ [(k, v)]), setWith_spec hfit2 hbytes2 hlen,
    get_spec_last hfit2 hbytes2 hlen⟩

/-- C3 witness: a one-byte key and value on the fresh engine. -/
theorem claim_C3_witness :
    ∃ st2, Engine.set Engine.init [107] [118] = .ok st2
      ∧ Engine.get st2 [107] = .ok (some [118]) :=
  claim_C3 ⟨[], fun x hx => absurd hx (List.not_mem_nil x),
      fun x hx => absurd hx (List.not_mem_nil x), by decide, rfl⟩
    (by decide) (by decide) (by decide) (by decide) (by decide) (by decide)

/-- C3 counterexample: the extremes of the claimed ranges — a 2048-byte key
with a 7000-byte value — make `set` panic on the out-of-range in-page copy
(9056 bytes against an 8164-byte buffer), instead of succeeding. -/
theorem claim_C3_cex :
    Engine.set Engine.init (List.replicate 2048 97) (List.replicate 7000 98)
      = .panicked := by
  have h := @set_panics [] (List.replicate 2048 97) (List.replicate 7000 98)
    (fun x hx => absurd hx (List.not_mem_nil x))
    (fun x hx => absurd hx (List.not_mem_nil x))
    (by decide)
    (by rw [List.length_replicate, List.length_replicate]
        norm_num [DATA_CAP, PAGE_SIZE, HDR_SZ])
  rw [specEngine_nil] at h
  exact h

/-- C10: on every reachable engine state, `set(k, v)` panics (out-of-bounds
in-page copy) exactly when the encoded record `8 + len(k) + len(v)` exceeds
the `PAGE_SIZE - HDR_SZ`-byte page data region; records that fit are copied
in bounds and `set` does not panic. -/
theorem claim_C10 {st : Engine} (h : Reach st) {k v : List Nat}
    (hkb : ∀ b ∈ k, b < 256) (hvb : ∀ b ∈ v, b < 256) :
    (Engine.set st k v = .panicked
      ↔ PAGE_SIZE - HDR_SZ < 8 + k.length + v.length) := by
  obtain ⟨ops, hfit, hbytes, hlen, hst⟩ := reach_spec h
  subst hst
  constructor
  · intro hp
    by_contra hgt
    have hle : 8 + k.length + v.length ≤ PAGE_SIZE - HDR_SZ := by omega
    have hfit2 : opsFit (ops ++ [(k, v)]) := by
      intro x hx
      rcases List.mem_append.mp hx with h1 | h1
      · exact hfit x h1
      · simp at h1
        subst h1
        show 8 + k.length + v.length ≤ DATA_CAP
        rw [DATA_CAP]
        exact hle
    have hbytes2 : opsBytes (ops ++ [(k, v)]) := by
      intro x hx
      rcases List.mem_append.mp hx with h1 | h1
      · exact hbytes x h1
      · simp at h1
        subst h1
        exact ⟨hkb, hvb⟩
    rw [setWith_spec hfit2 hbytes2 hlen] at hp
    exact SetResult.noConfusion hp
  · intro hgt
    exact set_panics hfit hbytes hlen (by rw [DATA_CAP]; exact hgt)

/-- C10 witness: a small record on the fresh engine does not panic, matching
the falsity of the size condition. -/
theorem claim_C10_witness :
    (Engine.set Engine.init [107] [118] = .panicked
      ↔ PAGE_SIZE - HDR_SZ < 8 + ([107] : List Nat).length
        + ([118] : List Nat).length) :=
  claim_C10 ⟨[], fun x hx => absurd hx (List.not_mem_nil x),
      fun x hx => absurd hx (List.not_mem_nil x), by decide, rfl⟩
    (by decide) (by decide)

/-! ## WAL payload layout and lsn ordering (reopen machinery) -/

theorem setPayload_length (pid off : Nat) (k v : List Nat) :
    (setPayload pid off k v).length = 23 + k.length + v.length := by
  simp [setPayload]
  omega

theorem setPayload_lt {pid off : Nat} {k v : List Nat}
    (hk : ∀ b ∈ k, b < 256) (hv : ∀ b ∈ v, b < 256) :
    ∀ b ∈ setPayload pid off k v, b < 256 := by
  intro b hb
  simp only [setPayload, List.append_assoc, List.mem_append, List.mem_cons,
    List.not_mem_nil, or_false] at hb
  rcases hb with (h | h | h) | h | h | h | h | h | h
  · omega
  · omega
  · omega
  · exact leBytes_lt _ _ b h
  · exact leBytes_lt _ _ b h
  · exact leBytes_lt _ _ b h
  · exact leBytes_lt _ _ b h
  · exact hk b h
  · exact hv b h

theorem setPayload_take3 (pid off : Nat) (k v : List Nat) :
    (setPayload pid off k v).take 3 = [0x53, 0x45, 0x54] := by
  rw [setPayload]
  simp

theorem setPayload_extract_pid (pid off : Nat) (k v : List Nat) :
    extract (setPayload pid off k v) 3 8 = leBytes 8 pid := by
  rw [setPayload, List.append_assoc, List.append_assoc, List.append_assoc,
    List.append_assoc, List.append_assoc,
    extract_skip' _ (show ([0x53, 0x45, 0x54] : List Nat).length = 3 from rfl)
      (show 3 + 0 = 3 by omega)]
  exact extract_prefix _ (leBytes_length 8 _)

theorem setPayload_extract_off (pid off : Nat) (k v : List Nat) :
    extract (setPayload pid off k v) 11 4 = leBytes 4 off := by
  rw [setPayload, List.append_assoc, List.append_assoc, List.append_assoc,
    List.append_assoc, List.append_assoc,
    extract_skip' _ (show ([0x53, 0x45, 0x54] : List Nat).length = 3 from rfl)
      (show 3 + 8 = 11 by omega),
    extract_skip' _ (leBytes_length 8 pid) (show 8 + 0 = 8 by omega)]
  exact extract_prefix _ (leBytes_length 4 _)

theorem setPayload_extract_klen (pid off : Nat) (k v : List Nat) :
    extract (setPayload pid off k v) 15 4 = leBytes 4 k.length := by
  rw [setPayload, List.append_assoc, List.append_assoc, List.append_assoc,
    List.append_assoc, List.append_assoc,
    extract_skip' _ (show ([0x53, 0x45, 0x54] : List Nat).length = 3 from rfl)
      (show 3 + 12 = 15 by omega),
    extract_skip' _ (leBytes_length 8 pid) (show 8 + 4 = 12 by omega),
    extract_skip' _ (leBytes_length 4 off) (show 4 + 0 = 4 by omega)]
  exact extract_prefix _ (leBytes_length 4 _)

theorem setPayload_extract_vlen (pid off : Nat) (k v : List Nat) :
    extract (setPayload pid off k v) 19 4 = leBytes 4 v.length := by
  rw [setPayload, List.append_assoc, List.append_assoc, List.append_assoc,
    List.append_assoc, List.append_assoc,
    extract_skip' _ (show ([0x53, 0x45, 0x54] : List Nat).length = 3 from rfl)
      (show 3 + 16 = 19 by omega),
    extract_skip' _ (leBytes_length 8 pid) (show 8 + 8 = 16 by omega),
    extract_skip' _ (leBytes_length 4 off) (show 4 + 4 = 8 by omega),
    extract_skip' _ (leBytes_length 4 k.length) (show 4 + 0 = 4 by omega)]
  exact extract_prefix _ (leBytes_length 4 _)

theorem setPayload_extract_key (pid off : Nat) (k v : List Nat) :
    extract (setPayload pid off k v) 23 k.length = k := by
  rw [setPayload, List.append_assoc, List.append_assoc, List.append_assoc,
    List.append_assoc, List.append_assoc,
    extract_skip' _ (show ([0x53, 0x45, 0x54] : List Nat).length = 3 from rfl)
      (show 3 + 20 = 23 by omega),
    extract_skip' _ (leBytes_length 8 pid) (show 8 + 12 = 20 by omega),
    extract_skip' _ (leBytes_length 4 off) (show 4 + 8 = 12 by omega),
    extract_skip' _ (leBytes_length 4 k.length) (show 4 + 4 = 8 by omega),
    extract_skip' _ (leBytes_length 4 v.length) (show 4 + 0 = 4 by omega)]
  exact extract_prefix _ rfl

theorem setPayload_extract_val (pid off : Nat) (k v : List Nat) :
    extract (setPayload pid off k v) (23 + k.length) v.length = v := by
  rw [setPayload, List.append_assoc, List.append_assoc, List.append_assoc,
    List.append_assoc, List.append_assoc,
    extract_skip' _ (show ([0x53, 0x45, 0x54] : List Nat).length = 3 from rfl)
      (show 3 + (20 + k.length) = 23 + k.length by omega),
    extract_skip' _ (leBytes_length 8 pid)
      (show 8 + (12 + k.length) = 20 + k.length by omega),
    extract_skip' _ (leBytes_length 4 off)
      (show 4 + (8 + k.length) = 12 + k.length by omega),
    extract_skip' _ (leBytes_length 4 k.length)
      (show 4 + (4 + k.length) = 8 + k.length by omega),
    extract_skip' _ (leBytes_length 4 v.length)
      (show 4 + k.length = 4 + k.length from rfl),
    extract, drop_exact v rfl, List.take_length]

/-- The lsns of the placements are pairwise increasing in placement order. -/
theorem lsn_pairwise {ps : List Pl}
    (hlsn : ps.map Pl.lsn = List.range ps.length) :
    List.Pairwise (fun a b => a.lsn < b.lsn) ps := by
  have h1 : List.Pairwise (fun a b : Nat => a < b) (ps.map Pl.lsn) := by
    rw [hlsn]
    exact List.pairwise_lt_range ps.length
  exact (List.pairwise_map.mp h1)

theorem lsn_inj {ps : List Pl}
    (hlsn : ps.map Pl.lsn = List.range ps.length) {x y : Pl}
    (hx : x ∈ ps) (hy : y ∈ ps) (he : x.lsn = y.lsn) : x = y := by
  have hnd : (ps.map Pl.lsn).Nodup := by
    rw [hlsn]
    exact List.nodup_range _
  exact List.inj_on_of_nodup_map hnd hx hy he

theorem lsn_at {ps rs1 rs2 : List Pl} {r : Pl}
    (hlsn : ps.map Pl.lsn = List.range ps.length)
    (hsplit : ps = rs1 ++ r :: rs2) : r.lsn = rs1.length := by
  have hlt : rs1.length < ps.length := by
    rw [hsplit, List.length_append, List.length_cons]
    omega
  have h1 : (ps.map Pl.lsn)[rs1.length]? = some r.lsn := by
    rw [hsplit, List.map_append, List.map_cons,
      List.getElem?_append_right (by simp)]
    simp
  rw [hlsn, List.getElem?_range hlt] at h1
  exact (Option.some.inj h1).symm

/-- Folding to the last lsn over the entries applied so far: once the record
with lsn `j` is in, the page lsn is `j`. -/
theorem foldl_lsn_sorted {es : List Pl} {j : Nat}
    (hp : List.Pairwise (fun a b => a.lsn < b.lsn) es)
    {r : Pl} (hr : r ∈ es) (hj : r.lsn = j) (c : Nat) :
    (es.filter (fun x => decide (x.lsn < j + 1))).foldl (fun _ x => x.lsn) c
      = j := by
  induction es generalizing c with
  | nil => exact absurd hr (List.not_mem_nil r)
  | cons a es ih =>
    rw [List.pairwise_cons] at hp
    rcases List.mem_cons.mp hr with hra | hra
    · subst hra
      have hfe : es.filter (fun x => decide (x.lsn < j + 1)) = [] := by
        rw [List.filter_eq_nil_iff]
        intro x hx
        have := hp.1 x hx
        simp
        omega
      rw [List.filter_cons_of_pos (by simp; omega), List.foldl_cons, hfe,
        List.foldl_nil, hj]
    · have halt : a.lsn < j := by
        have := hp.1 r hra
        omega
      rw [List.filter_cons_of_pos (by simp; omega), List.foldl_cons]
      exact ih hp.2 hra _

/-- Applying the record with lsn `j` stamps its page's on-disk lsn to `j`. -/
theorem pageLsnR_succ_self {ps : List Pl} {r : Pl} {j : Nat}
    (hlsn : ps.map Pl.lsn = List.range ps.length)
    (hr : r ∈ ps) (hj : r.lsn = j) :
    pageLsnR ps r.pid (j + 1) = j := by
  have hmem : r ∈ pageEntries ps r.pid := pageEntries_mem hr rfl
  have hp : List.Pairwise (fun a b => a.lsn < b.lsn) (pageEntries ps r.pid) :=
    List.Pairwise.filter _ (lsn_pairwise hlsn)
  have hne : ((pageEntries ps r.pid).filter
      (fun x => decide (x.lsn < j + 1))).isEmpty = false := by
    rw [List.isEmpty_eq_false_iff_exists_mem]
    exact ⟨r, List.mem_filter.mpr ⟨hmem, by simp; omega⟩⟩
  rw [pageLsnR]
  simp only [hne, Bool.false_eq_true, if_false]
  exact foldl_lsn_sorted hp hmem hj 0

/-- Replaying the record with lsn `j` leaves every other page's block
unchanged: no entry of another page carries lsn `j`. -/
theorem pageLsnR_succ_other {ps : List Pl} {r : Pl} {j q : Nat}
    (hlsn : ps.map Pl.lsn = List.range ps.length)
    (hr : r ∈ ps) (hj : r.lsn = j) (hq : r.pid ≠ q) :
    pageLsnR ps q (j + 1) = pageLsnR ps q j := by
  have hflt : (pageEntries ps q).filter (fun x => decide (x.lsn < j + 1))
      = (pageEntries ps q).filter (fun x => decide (x.lsn < j)) := by
    apply List.filter_congr
    intro x hx
    have hxps := (mem_pageEntries hx).1
    have hxq := (mem_pageEntries hx).2
    have hxj : x.lsn ≠ j := by
      intro hcon
      have : x = r := lsn_inj hlsn hxps hr (by omega)
      subst this
      exact hq hxq
    simp only [decide_eq_decide]
    omega
  rw [pageLsnR, pageLsnR, hflt]

theorem specBlock_succ_other {ps : List Pl} {r : Pl} {j q : Nat}
    (hlsn : ps.map Pl.lsn = List.range ps.length)
    (hr : r ∈ ps) (hj : r.lsn = j) (hq : r.pid ≠ q) :
    specBlock ps q (j + 1) = specBlock ps q j := by
  rw [specBlock, specBlock, pageStateR, pageStateR,
    pageLsnR_succ_other hlsn hr hj hq]

/-- Replaying one logged record against the transitional data file is the
identity on the page content: the entry is already in place, the splice
rewrites it with itself, `used` is already past the entry end, and only the
page lsn advances to the replayed record's lsn. -/
theorem applySet_spec {ops : List (List Nat × List Nat)} {r : Pl} {j : Nat}
    (idx : Index) (hfit : opsFit ops) (hbytes : opsBytes ops)
    (hlen : ops.length + 1 < U64) (hr : r ∈ placements ops) (hj : r.lsn = j) :
    applySet ⟨specFile (placements ops) j (numPages ops), idx⟩ r.lsn
        (setPayload r.pid r.off r.key r.val)
      = .ok ⟨specFile (placements ops) (j + 1) (numPages ops),
             (r.key, (r.pid, r.off, r.val.length)) :: idx⟩ := by
  obtain ⟨hok, hmap, hlenps⟩ := placeAll_ok hfit
  have hpb : plBytes (placements ops) := plBytes_of_ops hmap hbytes
  have h2 : (2 : Nat) ^ 64 = 18446744073709551616 := by norm_num
  have h64 : U64 = 18446744073709551616 := by norm_num [U64]
  have hdc : DATA_CAP = 8164 := by norm_num [DATA_CAP, PAGE_SIZE, HDR_SZ]
  have hfr := hok.fits r hr
  have hel : eLen r = 8 + r.key.length + r.val.length := by rw [eLen]
  have hlsn64 : ∀ x ∈ placements ops, x.lsn < 2 ^ 64 := by
    intro x hx
    have h1 := lsn_lt_of_mem hok.lsn_eq hx
    omega
  have hpid64 : r.pid < 2 ^ 64 := by
    have h1 := hok.pid_le r hr
    have h3 := hok.pid_len
    omega
  have h84 : (256 : Nat) ^ 8 = 18446744073709551616 := by norm_num
  have h44 : (256 : Nat) ^ 4 = 4294967296 := by norm_num
  have hnil : placements ops ≠ [] := List.ne_nil_of_mem hr
  have hnum : numPages ops = curPid ops + 1 := by rw [numPages, if_neg hnil]
  have hqlt : r.pid < numPages ops := by
    have h1 := hok.pid_le r hr
    omega
  have hne : pageEntries (placements ops) r.pid ≠ [] := by
    have h1 : r ∈ pageEntries (placements ops) r.pid := pageEntries_mem hr rfl
    intro hcon
    rw [hcon] at h1
    exact absurd h1 (List.not_mem_nil r)
  have hreadp : readPage (specFile (placements ops) j (numPages ops)) r.pid
      = .ok (pageStateR (placements ops) r.pid j) :=
    readPage_specFile_placed hqlt hne hok.chain hok.fits hpb hpid64 hlsn64
  have hpidv : fromLe (extract (setPayload r.pid r.off r.key r.val) 3 8)
      = r.pid := by
    rw [setPayload_extract_pid, fromLe_leBytes_small (by omega)]
  have hoffv : fromLe (extract (setPayload r.pid r.off r.key r.val) 11 4)
      = r.off := by
    rw [setPayload_extract_off, fromLe_leBytes_small (by omega)]
  have hklv : fromLe (extract (setPayload r.pid r.off r.key r.val) 15 4)
      = r.key.length := by
    rw [setPayload_extract_klen, fromLe_leBytes_small (by omega)]
  have hvlv : fromLe (extract (setPayload r.pid r.off r.key r.val) 19 4)
      = r.val.length := by
    rw [setPayload_extract_vlen, fromLe_leBytes_small (by omega)]
  have hsplice : splice (pageData (placements ops) r.pid) r.off
      (entryOf r.key r.val) = pageData (placements ops) r.pid := by
    apply splice_of_extract_eq
    rw [show (entryOf r.key r.val).length = eLen r by rw [entryOf_length, eLen],
      show entryOf r.key r.val = entry r from rfl]
    exact pageData_extract (hok.chain r.pid) hok.fits (pageEntries_mem hr rfl)
  have hend := entry_end_le_used (hok.chain r.pid) (pageEntries_mem hr rfl)
  have hmax : max (pageUsed (placements ops) r.pid)
      (r.off + (entryOf r.key r.val).length)
      = pageUsed (placements ops) r.pid := by
    rw [entryOf_length]
    have : r.off + (8 + r.key.length + r.val.length)
        ≤ pageUsed (placements ops) r.pid := by omega
    omega
  have hdl : (pageData (placements ops) r.pid).length = DATA_CAP :=
    pageData_length (hok.chain r.pid) hok.fits
  have hpage2 : pageStateR (placements ops) r.pid (j + 1)
      = ⟨r.pid, r.lsn, pageUsed (placements ops) r.pid,
         pageData (placements ops) r.pid⟩ := by
    rw [pageStateR, pageLsnR_succ_self hok.lsn_eq hr hj, hj]
  rw [applySet]
  rw [setPayload_length,
    if_neg (show ¬(23 + r.key.length + r.val.length < 3) by omega),
    setPayload_take3,
    if_neg (show ¬(([0x53, 0x45, 0x54] : List Nat) ≠ [0x53, 0x45, 0x54])
      from fun hcon => hcon rfl)]
  dsimp only
  rw [hpidv, hoffv, hklv, hvlv,
    if_neg (show ¬(23 + r.key.length + r.val.length
      > 23 + r.key.length + r.val.length) by omega),
    setPayload_extract_key, setPayload_extract_val]
  cases hrp : readPage (specFile (placements ops) j (numPages ops)) r.pid with
  | error e =>
    rw [hreadp] at hrp
    simp at hrp
  | ok page =>
    have hp : page = pageStateR (placements ops) r.pid j := by
      rw [hreadp] at hrp
      exact (Except.ok.inj hrp).symm
    subst hp
    dsimp only
    rw [show (pageStateR (placements ops) r.pid j).data
        = pageData (placements ops) r.pid from rfl,
      show (pageStateR (placements ops) r.pid j).used
        = pageUsed (placements ops) r.pid from rfl,
      show (pageStateR (placements ops) r.pid j).id = r.pid from rfl]
    rw [if_neg (by rw [entryOf_length, hdl]; omega), hsplice, hmax]
    cases hw : writePage (specFile (placements ops) j (numPages ops))
        ⟨r.pid, r.lsn, pageUsed (placements ops) r.pid,
         pageData (placements ops) r.pid⟩ with
    | none =>
      exfalso
      rw [writePage, Page.to_bytes,
        if_pos (show (pageData (placements ops) r.pid).length
          = PAGE_SIZE - HDR_SZ from hdl)] at hw
      simp at hw
    | some df =>
      rw [writePage, Page.to_bytes,
        if_pos (show (pageData (placements ops) r.pid).length
          = PAGE_SIZE - HDR_SZ from hdl)] at hw
      simp at hw
      have hfile : writeAt (specFile (placements ops) j (numPages ops))
          (r.pid * PAGE_SIZE)
          (pageBytes ⟨r.pid, r.lsn, pageUsed (placements ops) r.pid,
            pageData (placements ops) r.pid⟩)
          = specFile (placements ops) (j + 1) (numPages ops) := by
        refine writeAt_specFile hqlt ?_ ?_ hok.chain hok.fits ?_
        · intro p hp hpne
          exact specBlock_succ_other hok.lsn_eq hr hj (Ne.symm hpne)
        · rw [specBlock, if_neg hne, hpage2]
        · rw [pageBytes_length]
          exact hdl
      rw [← hw, hfile]

/-- Replaying the logged suffix `rs2` of the placements over the transitional
file is the identity on page contents and conses exactly the suffix's index
bindings. -/
theorem replayApply_chain {ops : List (List Nat × List Nat)}
    (hfit : opsFit ops) (hbytes : opsBytes ops) (hlen : ops.length + 1 < U64) :
    ∀ rs2 rs1 idx, placements ops = rs1 ++ rs2 →
      replayApply (encodeLog (specWalPairs rs2))
          ⟨specFile (placements ops) rs1.length (numPages ops), idx⟩
        = .ok ⟨specFile (placements ops) (placements ops).length (numPages ops),
               specIndex rs2 ++ idx⟩ := by
  obtain ⟨hok, hmap, hlenps⟩ := placeAll_ok hfit
  have hpb : plBytes (placements ops) := plBytes_of_ops hmap hbytes
  have h2 : (2 : Nat) ^ 64 = 18446744073709551616 := by norm_num
  have h64 : U64 = 18446744073709551616 := by norm_num [U64]
  have hdc : DATA_CAP = 8164 := by norm_num [DATA_CAP, PAGE_SIZE, HDR_SZ]
  intro rs2
  induction rs2 with
  | nil =>
    intro rs1 idx hsplit
    rw [show specWalPairs [] = [] from rfl, show encodeLog [] = [] from rfl,
      replayApply_short (show ([] : List Nat).length < 8 by simp),
      show specIndex [] = [] from rfl, List.nil_append, hsplit,
      List.append_nil]
  | cons r rs2 ih =>
    intro rs1 idx hsplit
    have hrps : r ∈ placements ops := by
      rw [hsplit]
      exact List.mem_append_right _ (List.mem_cons_self _ _)
    have hjr : r.lsn = rs1.length := lsn_at hok.lsn_eq hsplit
    have hfr := hok.fits r hrps
    have hel : eLen r = 8 + r.key.length + r.val.length := by rw [eLen]
    have hp12 : 12 + (setPayload r.pid r.off r.key r.val).length < U64 := by
      rw [setPayload_length]
      omega
    have hlsn64 : r.lsn < U64 := by
      have h1 := lsn_lt_of_mem hok.lsn_eq hrps
      omega
    have hbp : ∀ b ∈ setPayload r.pid r.off r.key r.val, b < 256 :=
      setPayload_lt (hpb r hrps).1 (hpb r hrps).2
    rw [show specWalPairs (r :: rs2)
        = (r.lsn, setPayload r.pid r.off r.key r.val) :: specWalPairs rs2
      from rfl, encodeLog, replayApply_record hp12 hlsn64 hbp,
      applySet_spec idx hfit hbytes hlen hrps hjr]
    show replayApply (encodeLog (specWalPairs rs2))
        ⟨specFile (placements ops) (rs1.length + 1) (numPages ops),
         (r.key, (r.pid, r.off, r.val.length)) :: idx⟩
      = .ok ⟨specFile (placements ops) (placements ops).length (numPages ops),
             specIndex (r :: rs2) ++ idx⟩
    have hsplit2 : placements ops = (rs1 ++ [r]) ++ rs2 := by
      rw [hsplit]
      simp
    have hlen2 : rs1.length + 1 = (rs1 ++ [r]).length := by simp
    rw [hlen2, ih (rs1 ++ [r]) ((r.key, (r.pid, r.off, r.val.length)) :: idx)
      hsplit2]
    have hidx2 : specIndex (r :: rs2)
        = specIndex rs2 ++ [(r.key, (r.pid, r.off, r.val.length))] := by
      rw [specIndex, specIndex, List.map_cons, List.reverse_cons]
    rw [hidx2, List.append_assoc]
    rfl

/-- The scan of a dense log of the placements counts to the number of
placements. -/
theorem computeNextLsn_spec {ops : List (List Nat × List Nat)}
    (hfit : opsFit ops) (hbytes : opsBytes ops)
    (hlen : ops.length + 1 < U64) :
    compute_next_lsn (encodeLog (specWalPairs (placements ops)))
      = .ok (placements ops).length := by
  obtain ⟨hok, hmap, hlenps⟩ := placeAll_ok hfit
  have hpb : plBytes (placements ops) := plBytes_of_ops hmap hbytes
  have h64 : U64 = 18446744073709551616 := by norm_num [U64]
  have hdc : DATA_CAP = 8164 := by norm_num [DATA_CAP, PAGE_SIZE, HDR_SZ]
  have hgood : goodPairs (specWalPairs (placements ops)) := by
    intro x hx
    rw [specWalPairs] at hx
    obtain ⟨r, hr, hfx⟩ := List.mem_map.mp hx
    subst hfx
    have hfr := hok.fits r hr
    have hel : eLen r = 8 + r.key.length + r.val.length := by rw [eLen]
    refine ⟨?_, ?_, ?_⟩
    · have h1 := lsn_lt_of_mem hok.lsn_eq hr
      show r.lsn < U64
      omega
    · show 12 + (setPayload r.pid r.off r.key r.val).length < U64
      rw [setPayload_length]
      omega
    · exact setPayload_lt (hpb r hr).1 (hpb r hr).2
  have hsmall : ∀ r ∈ specWalPairs (placements ops),
      12 + r.2.length < 2 ^ 63 + 8 := by
    intro x hx
    rw [specWalPairs] at hx
    obtain ⟨r, hr, hfx⟩ := List.mem_map.mp hx
    subst hfx
    have hfr := hok.fits r hr
    have hel : eLen r = 8 + r.key.length + r.val.length := by rw [eLen]
    show 12 + (setPayload r.pid r.off r.key r.val).length < 2 ^ 63 + 8
    rw [setPayload_length]
    have h63 : (2 : Nat) ^ 63 + 8 = 9223372036854775816 := by norm_num
    omega
  rw [compute_next_lsn]
  have h1 := computeNextLsnAux_encodeLog hgood hsmall [] 0
  rw [List.append_nil] at h1
  rw [h1, computeNextLsnAux_short (show ([] : List Nat).length < 8 by simp)]
  congr 1
  rw [specWalPairs, List.foldl_map]
  rcases List.eq_nil_or_concat (placements ops) with hnil | ⟨qs, a, heq⟩
  · rw [hnil]
    rfl
  · have heq2 : placements ops = qs ++ [a] := by
      rw [heq, List.concat_eq_append]
    have ha : a.lsn = qs.length := lsn_at hok.lsn_eq heq2
    rw [heq2, List.foldl_append, List.foldl_cons, List.foldl_nil,
      List.length_append, List.length_cons, List.length_nil]
    omega

/-- With no all-zero gap page, the page scan of `Engine::open` walks every
page and stops at the first page past end of file. -/
theorem scanPages_spec {ops : List (List Nat × List Nat)}
    (hfit : opsFit ops) (hbytes : opsBytes ops) (hlen : ops.length + 1 < U64)
    (hgap : ∀ p, p < numPages ops → pageEntries (placements ops) p ≠ []) :
    ∀ m q idx, numPages ops - q ≤ m → q ≤ numPages ops →
      ∃ idx2, scanPages (specFile (placements ops) 0 (numPages ops)) q idx
        = .ok (idx2, numPages ops) := by
  obtain ⟨hok, hmap, hlenps⟩ := placeAll_ok hfit
  have hpb : plBytes (placements ops) := plBytes_of_ops hmap hbytes
  have h2 : (2 : Nat) ^ 64 = 18446744073709551616 := by norm_num
  have h64 : U64 = 18446744073709551616 := by norm_num [U64]
  have hterm : ∀ idx : Index,
      scanPages (specFile (placements ops) 0 (numPages ops)) (numPages ops) idx
        = .ok (idx, numPages ops) := by
    intro idx
    rw [scanPages, if_pos (by
      rw [specFile_length hok.chain hok.fits])]
  have hlsn64 : ∀ x ∈ placements ops, x.lsn < 2 ^ 64 := by
    intro x hx
    have h1 := lsn_lt_of_mem hok.lsn_eq hx
    omega
  intro m
  induction m with
  | zero =>
    intro q idx hm hq
    have hq2 : q = numPages ops := by omega
    subst hq2
    exact ⟨idx, hterm idx⟩
  | succ m ih =>
    intro q idx hm hq
    by_cases hqn : q = numPages ops
    · subst hqn
      exact ⟨idx, hterm idx⟩
    · have hqlt : q < numPages ops := by omega
      have hnnil : placements ops ≠ [] := by
        intro hc
        rw [numPages, if_pos hc] at hqlt
        omega
      have hnum : numPages ops = curPid ops + 1 := by
        rw [numPages, if_neg hnnil]
      have hq64 : q < 2 ^ 64 := by
        have h1 := hok.pid_len
        omega
      have hreadp := readPage_specFile_placed hqlt (hgap q hqlt) hok.chain
        hok.fits hpb hq64 hlsn64 (j := 0)
      have hup : 0 < pageUsed (placements ops) q :=
        pageUsed_pos (hok.chain q) (hgap q hqlt)
      obtain ⟨idx2, hrec⟩ := ih (q + 1)
        (parseKvs (pageData (placements ops) q) q 0 idx) (by omega) (by omega)
      refine ⟨idx2, ?_⟩
      rw [scanPages, if_neg ?hbig]
      case hbig =>
        rw [specFile_length hok.chain hok.fits]
        intro hcon
        have hstep : q * PAGE_SIZE + PAGE_SIZE = (q + 1) * PAGE_SIZE := by
          ring
        have hmul : (q + 1) * PAGE_SIZE ≤ numPages ops * PAGE_SIZE :=
          Nat.mul_le_mul_right _ (by omega)
        have hpos : 0 < PAGE_SIZE := by norm_num [PAGE_SIZE]
        omega
      cases hrp : readPage (specFile (placements ops) 0 (numPages ops)) q with
      | error e =>
        rw [hreadp] at hrp
        simp at hrp
      | ok page =>
        have hp : page = pageStateR (placements ops) q 0 := by
          rw [hreadp] at hrp
          exact (Except.ok.inj hrp).symm
        subst hp
        dsimp only
        rw [if_neg (show ¬((pageStateR (placements ops) q 0).used = 0
            ∧ (pageStateR (placements ops) q 0).lsn = 0) from fun hcon => by
          have hu : pageUsed (placements ops) q = 0 := hcon.1
          omega)]
        rw [show (pageStateR (placements ops) q 0).data
          = pageData (placements ops) q from rfl]
        exact hrec

/-- The index lookup on a spec index finds the newest (last-placed) binding
for the key. -/
theorem ilookup_specIndex (ps : List Pl) (k : List Nat) :
    ilookup (specIndex ps) k
      = ((ps.filter (fun r => r.key == k)).getLast?).map
          (fun r => (r.pid, r.off, r.val.length)) := by
  induction ps using List.reverseRecOn with
  | nil => rfl
  | append_singleton qs a ih =>
    rw [specIndex, List.map_append, List.reverse_append, List.map_cons,
      List.map_nil, List.reverse_cons, List.reverse_nil, List.nil_append,
      List.filter_append, List.singleton_append]
    by_cases hk : a.key == k
    · rw [ilookup, List.find?_cons_of_pos
        (p := fun x : List Nat × (Nat × Nat × Nat) => x.1 == k) _ hk,
        List.filter_cons_of_pos (p := fun r : Pl => r.key == k) hk,
        List.filter_nil, List.getLast?_concat]
      rfl
    · rw [ilookup, List.find?_cons_of_neg
        (p := fun x : List Nat × (Nat × Nat × Nat) => x.1 == k) _ hk,
        List.filter_cons_of_neg (p := fun r : Pl => r.key == k) hk,
        List.filter_nil, List.append_nil, ← specIndex]
      rw [ilookup] at ih
      exact ih

theorem ilookup_append_left {l1 l2 : Index} {k : List Nat} {x : Nat × Nat × Nat}
    (h : ilookup l1 k = some x) : ilookup (l1 ++ l2) k = some x := by
  rw [ilookup, List.find?_append]
  rw [ilookup] at h
  cases hf : List.find? (fun p => p.1 == k) l1 with
  | none =>
    rw [hf] at h
    simp at h
  | some y =>
    rw [hf] at h
    simpa using h

theorem lastVal_spec {ops : List (List Nat × List Nat)}
    (hmap : (placements ops).map (fun r => (r.key, r.val)) = ops)
    (k : List Nat) :
    lastVal ops k
      = ((placements ops).filter (fun r => r.key == k)).getLast?.map
          (fun r => r.val) := by
  rw [lastVal]
  conv_lhs => rw [← hmap]
  rw [List.filter_map, List.getLast?_map, Option.map_map]
  rfl

/-- `Engine::open` on the files of a reachable state, with no all-zero gap
page: the WAL counter resumes past the last record, the scan succeeds, and
replay rebuilds the index on top of the scanned one. -/
theorem open_spec {ops : List (List Nat × List Nat)}
    (hfit : opsFit ops) (hbytes : opsBytes ops) (hlen : ops.length + 1 < U64)
    (hgap : ∀ p, p < numPages ops → pageEntries (placements ops) p ≠ []) :
    ∃ idx0, Engine.open (specEngine ops).dataFile (specEngine ops).walFile
      = .ok ⟨(specEngine ops).walFile, (placements ops).length,
             specFile (placements ops) (placements ops).length (numPages ops),
             specIndex (placements ops) ++ idx0, numPages ops⟩ := by
  obtain ⟨idx0, hscan⟩ := scanPages_spec hfit hbytes hlen hgap (numPages ops)
    0 [] (by omega) (by omega)
  refine ⟨idx0, ?_⟩
  have hrep := replayApply_chain hfit hbytes hlen (placements ops) [] idx0
    (by rw [List.nil_append])
  rw [List.length_nil] at hrep
  unfold Engine.open
  simp only [specEngine]
  rw [computeNextLsn_spec hfit hbytes hlen]
  dsimp only
  rw [hscan]
  dsimp only
  rw [hrep]

/-- After a clean reopen, `get` returns the value of the newest record for
the key: the replayed bindings sit on top of the scanned index and point at
the live page contents. -/
theorem open_get {ops : List (List Nat × List Nat)} {k v : List Nat}
    (idx0 : Index) (hfit : opsFit ops) (hbytes : opsBytes ops)
    (hlen : ops.length + 1 < U64) (hlast : lastVal ops k = some v) :
    Engine.get ⟨(specEngine ops).walFile, (placements ops).length,
        specFile (placements ops) (placements ops).length (numPages ops),
        specIndex (placements ops) ++ idx0, numPages ops⟩ k
      = .ok (some v) := by
  obtain ⟨hok, hmap, hlenps⟩ := placeAll_ok hfit
  have hpb : plBytes (placements ops) := plBytes_of_ops hmap hbytes
  have h2 : (2 : Nat) ^ 64 = 18446744073709551616 := by norm_num
  have h64 : U64 = 18446744073709551616 := by norm_num [U64]
  have hl2 : ((placements ops).filter (fun r => r.key == k)).getLast?.map
      (fun r => r.val) = some v := by
    rw [← lastVal_spec hmap]
    exact hlast
  obtain ⟨r, hrl⟩ : ∃ r, ((placements ops).filter
      (fun r => r.key == k)).getLast? = some r := by
    cases hg : ((placements ops).filter (fun r => r.key == k)).getLast? with
    | none =>
      rw [hg] at hl2
      simp at hl2
    | some r => exact ⟨r, rfl⟩
  have hrv : r.val = v := by
    rw [hrl] at hl2
    simpa using hl2
  have hrfl : r ∈ (placements ops).filter (fun x => x.key == k) := by
    have h1 : ((placements ops).filter (fun x => x.key == k)) ≠ [] := by
      intro hcon
      rw [hcon] at hrl
      simp at hrl
    have h3 := List.getLast?_eq_getLast _ h1
    rw [hrl] at h3
    rw [show r = ((placements ops).filter (fun x => x.key == k)).getLast h1
      from Option.some.inj h3]
    exact List.getLast_mem h1
  have hrmem : r ∈ placements ops := List.mem_of_mem_filter hrfl
  have hrkey : r.key = k := by
    have h1 := List.of_mem_filter hrfl
    simpa using h1
  have hwf := record_wf hfit hrmem
  have hidx : ilookup (specIndex (placements ops) ++ idx0) k
      = some (r.pid, r.off, r.val.length) := by
    refine ilookup_append_left ?_
    rw [ilookup_specIndex, hrl]
    rfl
  have hlsn64 : ∀ x ∈ placements ops, x.lsn < 2 ^ 64 := by
    intro x hx
    have h1 := lsn_lt_of_mem hok.lsn_eq hx
    omega
  have hpid64 : r.pid < 2 ^ 64 := by
    have h1 := hok.pid_le r hrmem
    have h3 := hok.pid_len
    omega
  have hnnil : placements ops ≠ [] := List.ne_nil_of_mem hrmem
  have hnum : numPages ops = curPid ops + 1 := by rw [numPages, if_neg hnnil]
  have hqlt : r.pid < numPages ops := by
    have h1 := hok.pid_le r hrmem
    omega
  have hne : pageEntries (placements ops) r.pid ≠ [] := by
    have h1 : r ∈ pageEntries (placements ops) r.pid := pageEntries_mem hrmem rfl
    intro hcon
    rw [hcon] at h1
    exact absurd h1 (List.not_mem_nil r)
  have hreadp : readPage
      (specFile (placements ops) (placements ops).length (numPages ops)) r.pid
      = .ok (pageStateR (placements ops) r.pid (placements ops).length) :=
    readPage_specFile_placed hqlt hne hok.chain hok.fits hpb hpid64 hlsn64
  have hdl : (pageData (placements ops) r.pid).length = DATA_CAP :=
    pageData_length (hok.chain r.pid) hok.fits
  have hule : pageUsed (placements ops) r.pid ≤ DATA_CAP :=
    pageUsed_le (hok.chain r.pid) hok.fits
  unfold Engine.get
  dsimp only
  rw [hidx]
  dsimp only
  rw [hreadp]
  dsimp only
  rw [show (pageStateR (placements ops) r.pid (placements ops).length).data
      = pageData (placements ops) r.pid from rfl]
  rw [hwf.1, hwf.2.1, if_neg (by
    rw [hdl]
    have h1 := hwf.2.2.2.2
    omega), hwf.2.2.2.1, hrv]

/-! ## The gap-page behaviour of the placement fold and of `read_page` -/

theorem placeStep_fst (s : List Pl × Nat × Nat) (op : List Nat × List Nat) :
    ∃ x, (placeStep s op).1 = s.1 ++ [x] := by
  obtain ⟨pls, c, u⟩ := s
  obtain ⟨k, v⟩ := op
  rw [placeStep]
  dsimp only
  by_cases h : PAGE_SIZE - pager_hdr_sz < u + (8 + k.length + v.length)
  · rw [if_pos h]
    exact ⟨_, rfl⟩
  · rw [if_neg h]
    exact ⟨_, rfl⟩

theorem foldl_placeStep_mem (ops : List (List Nat × List Nat)) :
    ∀ s : List Pl × Nat × Nat, ∀ x ∈ s.1,
      x ∈ (ops.foldl placeStep s).1 := by
  induction ops with
  | nil =>
    intro s x hx
    rw [List.foldl_nil]
    exact hx
  | cons op ops ih =>
    intro s x hx
    rw [List.foldl_cons]
    obtain ⟨y, hy⟩ := placeStep_fst s op
    refine ih (placeStep s op) x ?_
    rw [hy]
    exact List.mem_append_left _ hx

/-- When the first record of the history fits the rollover threshold of
8160 bytes, its placement lands on page 0. -/
theorem first_placement {op : List Nat × List Nat}
    {ops : List (List Nat × List Nat)}
    (h : 8 + op.1.length + op.2.length ≤ PAGE_SIZE - pager_hdr_sz) :
    (⟨0, 0, op.1, op.2, 0⟩ : Pl) ∈ placements (op :: ops) := by
  obtain ⟨k, v⟩ := op
  have h2 : 8 + k.length + v.length ≤ PAGE_SIZE - pager_hdr_sz := h
  rw [placements, placeAll, List.foldl_cons]
  have hstep : placeStep ([], 0, 0) (k, v)
      = ([⟨0, 0, k, v, 0⟩], 0, 0 + (8 + k.length + v.length)) := by
    rw [placeStep]
    rw [if_neg (by omega)]
    rfl
  rw [hstep]
  exact foldl_placeStep_mem ops _ _ (List.mem_cons_self _ _)

/-- A page inside the file that no record was ever placed on reads back as
all zeroes, and decoding fails on the zero magic. -/
theorem readPage_gap {ps : List Pl} {j n q : Nat} (hq : q < n)
    (hemp : pageEntries ps q = [])
    (hch : ∀ p, chainFrom 0 (pageEntries ps p))
    (hfits : ∀ r ∈ ps, r.off + eLen r ≤ DATA_CAP) :
    readPage (specFile ps j n) q = .error (.badMagic 0) := by
  rw [readPage]
  have hx := specFile_extract hq hch hfits (j := j)
  rw [specBlock, if_pos hemp] at hx
  simp only [hx]
  have hm : fromLe ((List.replicate PAGE_SIZE 0).take 4) = 0 := by
    rw [List.take_replicate, show min 4 PAGE_SIZE = 4 by norm_num [PAGE_SIZE]]
    decide
  rw [if_neg (by rw [List.length_replicate]; norm_num [PAGE_SIZE]),
    if_neg (by rw [List.length_replicate]; exact fun hcon => hcon rfl),
    Page.from_bytes,
    if_neg (by rw [List.length_replicate]; exact fun hcon => hcon rfl),
    if_pos (by rw [hm]; norm_num), hm]

theorem lastVal_singleton (a b : List Nat) : lastVal [(a, b)] a = some b := by
  rw [lastVal, List.filter_cons_of_pos
    (p := fun op : List Nat × List Nat => op.1 == a) (by simp),
    List.filter_nil]
  rfl

/-- C1 (amended): on a history of successful sets of byte-string records
that fit a page (with the u64 lsn counter not wrapped), whose first record
also fits the 8160-byte rollover threshold, reopening the engine on the
files left behind succeeds, and `get k` then returns the value of the last
successful `set` on `k`.  (The original claim, without the proviso on the
first record, is refuted by `claim_C1_cex`: a first record of 8161..8164
bytes rolls over to page 1, page 0 stays all-zero, and reopen fails on its
zero magic.) -/
theorem claim_C1 {ops : List (List Nat × List Nat)} {k v : List Nat}
    (hfit : opsFit ops) (hbytes : opsBytes ops) (hlen : ops.length + 1 < U64)
    (hfirst : ∀ op, ops.head? = some op
      → 8 + op.1.length + op.2.length ≤ PAGE_SIZE - pager_hdr_sz)
    (hlast : lastVal ops k = some v) :
    ∃ st st2, runSets Engine.init ops = some st
      ∧ Engine.open st.dataFile st.walFile = .ok st2
      ∧ Engine.get st2 k = .ok (some v) := by
  obtain ⟨hok, hmap, hlenps⟩ := placeAll_ok hfit
  have hgap : ∀ p, p < numPages ops → pageEntries (placements ops) p ≠ [] := by
    intro p hp
    have hnnil : placements ops ≠ [] := by
      intro hcon
      rw [numPages, if_pos hcon] at hp
      omega
    have hnum : numPages ops = curPid ops + 1 := by
      rw [numPages, if_neg hnnil]
    rcases Nat.eq_zero_or_pos p with hp0 | hp1
    · subst hp0
      cases hops : ops with
      | nil =>
        rw [hops] at hnnil
        exact absurd rfl hnnil
      | cons op ops2 =>
        have hf := hfirst op (by rw [hops]; rfl)
        have hmem : (⟨0, 0, op.1, op.2, 0⟩ : Pl) ∈ placements ops := by
          rw [hops]
          exact first_placement hf
        intro hcon
        have hpe := pageEntries_mem hmem rfl
        rw [hops] at hpe
        rw [hcon] at hpe
        exact absurd hpe (List.not_mem_nil _)
    · exact hok.dense p hp1 (by omega)
  obtain ⟨idx0, hopen⟩ := open_spec hfit hbytes hlen hgap
  exact ⟨specEngine ops,
    ⟨(specEngine ops).walFile, (placements ops).length,
     specFile (placements ops) (placements ops).length (numPages ops),
     specIndex (placements ops) ++ idx0, numPages ops⟩,
    runSets_spec hfit hbytes hlen, hopen,
    open_get idx0 hfit hbytes hlen hlast⟩

/-- C1 witness: one small set, reopen, get it back. -/
theorem claim_C1_witness :
    ∃ st st2, runSets Engine.init [([107], [118])] = some st
      ∧ Engine.open st.dataFile st.walFile = .ok st2
      ∧ Engine.get st2 [107] = .ok (some [118]) :=
  claim_C1
    (by intro op hop; rw [List.mem_singleton] at hop; subst hop; decide)
    (by intro op hop; rw [List.mem_singleton] at hop; subst hop
        exact ⟨by decide, by decide⟩)
    (by rw [List.length_cons, List.length_nil]; norm_num [U64])
    (by intro op hop; rw [List.head?_cons, Option.some.injEq] at hop
        subst hop; decide)
    (by decide)

/-- When the first page of a reachable data file is all-zero (a record
placed past page 0 while page 0 was never written), `Engine::open` fails. -/
theorem open_gap0 {ops : List (List Nat × List Nat)}
    (hfit : opsFit ops) (hbytes : opsBytes ops) (hlen : ops.length + 1 < U64)
    (hpos : 0 < numPages ops)
    (hemp : pageEntries (placements ops) 0 = []) :
    ∀ st2, Engine.open (specEngine ops).dataFile (specEngine ops).walFile
      ≠ .ok st2 := by
  obtain ⟨hok, hmap, hlenps⟩ := placeAll_ok hfit
  have hread0 : readPage (specFile (placements ops) 0 (numPages ops)) 0
      = .error (.badMagic 0) := readPage_gap hpos hemp hok.chain hok.fits
  have hflen := specFile_length hok.chain hok.fits 0 (numPages ops)
  have hpg : PAGE_SIZE = 8192 := by norm_num [PAGE_SIZE]
  have hscan0 : scanPages (specFile (placements ops) 0 (numPages ops)) 0 []
      = .error (.pager (.badMagic 0)) := by
    rw [scanPages, if_neg (by rw [hflen, hpg]; omega), hread0]
  intro st2 hcon
  unfold Engine.open at hcon
  simp only [specEngine] at hcon
  rw [computeNextLsn_spec hfit hbytes hlen] at hcon
  dsimp only at hcon
  rw [hscan0] at hcon
  dsimp only at hcon
  exact absurd hcon (by simp)

/-- C1 counterexample (to the unamended claim): a single successful set of a
1-byte key and 8152-byte value (record size 8161, above the 8160 rollover
threshold but within the 8164-byte page buffer) places the record on page 1,
leaving page 0 all-zero; reopening fails with a bad-magic error on page 0,
so no `get` after reopen can see the value. -/
theorem claim_C1_cex :
    ∃ st, runSets Engine.init [([107], List.replicate 8152 48)] = some st
      ∧ lastVal [([107], List.replicate 8152 48)] [107]
          = some (List.replicate 8152 48)
      ∧ ∀ st2, Engine.open st.dataFile st.walFile ≠ .ok st2 := by
  have hfit0 : opsFit [([107], List.replicate 8152 48)] := by
    intro op hop
    rw [List.mem_singleton] at hop
    subst hop
    simp only [List.length_replicate, List.length_cons, List.length_nil]
    norm_num [DATA_CAP, PAGE_SIZE, HDR_SZ]
  have hbytes0 : opsBytes [([107], List.replicate 8152 48)] := by
    intro op hop
    rw [List.mem_singleton] at hop
    subst hop
    refine ⟨by decide, ?_⟩
    intro b hb
    have hb2 := List.eq_of_mem_replicate hb
    omega
  have hlen0 : ([([107], List.replicate 8152 48)]
      : List (List Nat × List Nat)).length + 1 < U64 := by
    rw [List.length_cons, List.length_nil]
    norm_num [U64]
  have hcond : PAGE_SIZE - pager_hdr_sz
      < 0 + (8 + ([107] : List Nat).length
          + (List.replicate 8152 48).length) := by
    rw [List.length_replicate]
    norm_num [PAGE_SIZE, pager_hdr_sz]
  have hstep0 : placeAll [([107], List.replicate 8152 48)]
      = ([⟨1, 0, [107], List.replicate 8152 48, 0⟩], 1,
         8 + ([107] : List Nat).length + (List.replicate 8152 48).length) := by
    rw [placeAll, List.foldl_cons, List.foldl_nil, placeStep]
    rw [if_pos hcond]
    rfl
  have hps0 : placements [([107], List.replicate 8152 48)]
      = [⟨1, 0, [107], List.replicate 8152 48, 0⟩] := by
    rw [placements, hstep0]
  have hcur0 : curPid [([107], List.replicate 8152 48)] = 1 := by
    rw [curPid, hstep0]
  have hnum0 : numPages [([107], List.replicate 8152 48)] = 2 := by
    rw [numPages, if_neg (by rw [hps0]; exact List.cons_ne_nil _ _), hcur0]
  have hemp0 : pageEntries (placements [([107], List.replicate 8152 48)]) 0
      = [] := by
    rw [hps0, pageEntries]
    rfl
  exact ⟨specEngine [([107], List.replicate 8152 48)],
    runSets_spec hfit0 hbytes0 hlen0,
    lastVal_singleton [107] (List.replicate 8152 48),
    open_gap0 hfit0 hbytes0 hlen0 (by rw [hnum0]; omega) hemp0⟩

/-! ## A page-level invariant for arbitrary interleavings of `set` and
`Engine::open` (the engine-interface reachability of C9) -/

/-- One page image of the data file: `none` for a block never written (all
zeroes on disk), `some es` for a written page holding exactly the chained
records `es` (tagged with their page id). -/
def BlockRep (file : List Nat) (q : Nat) : Option (List Pl) → Prop
  | none => extract file (q * PAGE_SIZE) PAGE_SIZE = List.replicate PAGE_SIZE 0
  | some es => es ≠ [] ∧ q < 2 ^ 64 ∧ (∀ r ∈ es, r.pid = q) ∧ chainFrom 0 es
      ∧ (∀ r ∈ es, r.off + eLen r ≤ DATA_CAP) ∧ plBytes es
      ∧ ∃ l, l < 2 ^ 64
          ∧ readPage file q = .ok ⟨q, l, pageUsed es q, pageData es q⟩

/-- The data file is `mp` page-aligned blocks, described block by block. -/
def FileRep (file : List Nat) (bs : Nat → Option (List Pl)) (mp : Nat) : Prop :=
  file.length = mp * PAGE_SIZE
  ∧ (∀ q, mp ≤ q → bs q = none)
  ∧ ∀ q, q < mp → BlockRep file q (bs q)

/-- An index binding points at a record of a written page. -/
def GoodBind (bs : Nat → Option (List Pl))
    (b : List Nat × (Nat × Nat × Nat)) : Prop :=
  ∃ es r, bs b.2.1 = some es ∧ r ∈ es ∧ r.off = b.2.2.1 ∧ r.key = b.1
    ∧ r.val.length = b.2.2.2

/-- The engine invariant: the data file is a page-aligned image whose written
pages hold chained records and do not pass the cursor (their ids fitting a
u64), every index binding points at a record of a written page, and the WAL
is a log of framed `SET` payloads, each already applied to its page. -/
def EngWf (st : Engine) : Prop :=
  ∃ bs mp, FileRep st.dataFile bs mp
    ∧ (∀ q es, bs q = some es → q ≤ st.nextPage)
    ∧ (∀ b ∈ st.index, GoodBind bs b)
    ∧ ∃ pairs, st.walFile = encodeLog pairs
      ∧ ∀ pr ∈ pairs, pr.1 < U64 ∧ 12 + pr.2.length < 2 ^ 63
        ∧ (∀ b ∈ pr.2, b < 256)
        ∧ ∃ pid off kk vv, pr.2 = setPayload pid off kk vv
          ∧ ∃ es r, bs pid = some es ∧ r ∈ es ∧ r.off = off ∧ r.key = kk
            ∧ r.val = vv

/-- Engine states reachable through the engine interface from a fresh
directory: any interleaving of successful byte-string `set` calls (with the
u64 page counter not wrapped) and reopenings via `Engine::open` on the files
left behind. -/
inductive ReachF : Engine → Prop
  | init : ReachF Engine.init
  | set {st st2 : Engine} {k v : List Nat} : ReachF st
      → (∀ b ∈ k, b < 256) → (∀ b ∈ v, b < 256)
      → st.nextPage + 1 < 2 ^ 64
      → Engine.setWith false false st k v = .ok st2 → ReachF st2
  | reopen {st st2 : Engine} : ReachF st
      → Engine.open st.dataFile st.walFile = .ok st2 → ReachF st2

theorem leBytes_mod (w n : Nat) : leBytes w (n % 256 ^ w) = leBytes w n := by
  induction w generalizing n with
  | zero => rfl
  | succ w ih =>
    rw [leBytes, leBytes,
      Nat.mod_mod_of_dvd n (by rw [pow_succ, mul_comm]; exact Dvd.intro _ rfl),
      show n % 256 ^ (w + 1) / 256 = n / 256 % 256 ^ w by
        rw [Nat.div_mod_eq_mod_mul_div, mul_comm, ← pow_succ],
      ih]

theorem walRecord_mod (lsn : Nat) (p : List Nat) :
    walRecord (lsn % U64) p = walRecord lsn p := by
  rw [walRecord, walRecord,
    show U64 = 256 ^ 8 by rw [U64]; norm_num, leBytes_mod]

theorem writeAt_length (file b : List Nat) (off : Nat) :
    (writeAt file off b).length = max file.length (off + b.length) := by
  rw [writeAt]
  simp only [List.length_append, List.length_take, List.length_replicate,
    List.length_drop]
  omega

theorem writeAt_prefix_length (file b : List Nat) (off : Nat) :
    (file.take off ++ List.replicate (off - file.length) 0).length = off
      ∨ off ≤ file.length
        ∧ (file.take off ++ List.replicate (off - file.length) 0).length
            = off := by
  left
  simp only [List.length_append, List.length_take, List.length_replicate]
  omega

theorem extract_writeAt_self (file b : List Nat) (off : Nat) :
    extract (writeAt file off b) off b.length = b := by
  have hpre : (file.take off ++ List.replicate (off - file.length) 0).length
      = off := by
    simp only [List.length_append, List.length_take, List.length_replicate]
    omega
  rw [writeAt, List.append_assoc,
    extract_skip' _ hpre (Nat.add_zero off), extract_zero,
    List.take_left' rfl]

theorem extract_writeAt_before {file : List Nat} (b : List Nat) {off o k : Nat}
    (h1 : o + k ≤ off) (h2 : o + k ≤ file.length) :
    extract (writeAt file off b) o k = extract file o k := by
  rw [writeAt,
    extract_append_first (by
      simp only [List.length_append, List.length_take, List.length_replicate]
      omega),
    extract_append_first (by
      simp only [List.length_append, List.length_take, List.length_replicate]
      omega),
    extract_append_first (by
      simp only [List.length_take]
      omega),
    extract_take h1]

theorem extract_writeAt_after {file b : List Nat} {off o k : Nat}
    (h : off + b.length ≤ o) :
    extract (writeAt file off b) o k = extract file o k := by
  have hpre : ((file.take off ++ List.replicate (off - file.length) 0)
      ++ b).length = off + b.length := by
    simp only [List.length_append, List.length_take, List.length_replicate]
    omega
  rw [writeAt,
    extract_skip' _ hpre (show (off + b.length) + (o - (off + b.length)) = o
      by omega),
    extract, extract, List.drop_drop,
    show off + b.length + (o - (off + b.length)) = o by omega]

theorem extract_writeAt_pad {file b : List Nat} {off o k : Nat}
    (hfl : file.length ≤ o) (hok : o + k ≤ off) :
    extract (writeAt file off b) o k = List.replicate k 0 := by
  rw [writeAt, List.take_of_length_le (by omega),
    List.drop_eq_nil_of_le (by omega), List.append_nil,
    extract_append_first (by
      simp only [List.length_append, List.length_replicate]
      omega),
    extract_skip' _ rfl (show file.length + (o - file.length) = o by omega),
    extract, List.drop_replicate, List.take_replicate,
    show min k (off - file.length - (o - file.length)) = k by omega]

theorem extract_replicate {n o k : Nat} (h : o + k ≤ n) :
    extract (List.replicate n (0 : Nat)) o k = List.replicate k 0 := by
  rw [extract, List.drop_replicate, List.take_replicate,
    show min k (n - o) = k by omega]

theorem readPage_eof {file : List Nat} {q : Nat}
    (h : file.length ≤ q * PAGE_SIZE) :
    readPage file q = .ok (Page.new q) := by
  rw [readPage]
  have h0 : extract file (q * PAGE_SIZE) PAGE_SIZE = [] := extract_eq_nil h _
  simp only [h0]
  rfl

theorem readPage_zero {file : List Nat} {q : Nat}
    (h : extract file (q * PAGE_SIZE) PAGE_SIZE
      = List.replicate PAGE_SIZE 0) :
    readPage file q = .error (.badMagic 0) := by
  rw [readPage]
  simp only [h]
  have hm : fromLe ((List.replicate PAGE_SIZE 0).take 4) = 0 := by
    rw [List.take_replicate, show min 4 PAGE_SIZE = 4 by norm_num [PAGE_SIZE]]
    decide
  rw [if_neg (by rw [List.length_replicate]; norm_num [PAGE_SIZE]),
    if_neg (by rw [List.length_replicate]; exact fun hcon => hcon rfl),
    Page.from_bytes,
    if_neg (by rw [List.length_replicate]; exact fun hcon => hcon rfl),
    if_pos (by rw [hm]; norm_num), hm]

theorem readPage_congr {f1 f2 : List Nat} {q : Nat}
    (h : extract f1 (q * PAGE_SIZE) PAGE_SIZE
      = extract f2 (q * PAGE_SIZE) PAGE_SIZE) :
    readPage f1 q = readPage f2 q := by
  rw [readPage, readPage, h]

/-- A serialized page decodes with its id and lsn reduced to u64 width. -/
theorem from_bytes_pageBytes_mod {p : Page} (hdata : p.data.length = DATA_CAP)
    (hbytes : ∀ b ∈ p.data, b < 256) (hused : p.used < 2 ^ 32) :
    Page.from_bytes (pageBytes p)
      = .ok ⟨p.id % 2 ^ 64, p.lsn % 2 ^ 64, p.used, p.data⟩ := by
  have hcrcb : ∀ b ∈ pageHdr p ++ p.data, b < 256 := by
    intro b hb
    rcases List.mem_append.mp hb with h | h
    · exact pageHdr_bytes_lt p b h
    · exact hbytes b h
  have hcrclt : crc32 (pageHdr p ++ p.data) < 2 ^ 32 := crc32_lt hcrcb
  have hmagic : fromLe ((pageBytes p).take 4) = 0xDEADBEEF := by
    rw [pageBytes_take4, fromLe_leBytes_small (by norm_num)]
  have hsrc : (pageBytes p).take CRC_OFF ++ (pageBytes p).drop HDR_SZ
      = pageHdr p ++ p.data := by
    rw [show CRC_OFF = 24 from rfl, show HDR_SZ = 28 from rfl,
      pageBytes_take24, pageBytes_drop28]
  unfold Page.from_bytes
  rw [if_neg (by rw [pageBytes_length hdata]; exact fun h => h rfl)]
  rw [if_neg (by rw [hmagic]; exact fun h => h rfl)]
  rw [if_neg ?hcrc]
  case hcrc =>
    intro hne
    rw [hsrc, show CRC_OFF = 24 from rfl, pageBytes_extract_crc,
      fromLe_leBytes_small (by exact lt_of_lt_of_le hcrclt (by norm_num))] at hne
    exact hne rfl
  rw [show HDR_SZ = 28 from rfl, pageBytes_extract_id, pageBytes_extract_lsn,
    pageBytes_extract_used, pageBytes_drop28,
    fromLe_leBytes 8 p.id, fromLe_leBytes 8 p.lsn,
    fromLe_leBytes_small (by exact lt_of_lt_of_le hused (by norm_num)),
    show (256 : Nat) ^ 8 = 2 ^ 64 by norm_num]

theorem pageEntries_self {es : List Pl} {q : Nat} (h : ∀ r ∈ es, r.pid = q) :
    pageEntries es q = es := by
  rw [pageEntries]
  refine List.filter_eq_self.mpr ?_
  intro r hr
  simp [h r hr]

theorem spliceFold_extract_zero {es : List Pl} {o k : Nat}
    (hends : ∀ r ∈ es, r.off + eLen r ≤ o) :
    ∀ d0 : List Nat, o ≤ d0.length → extract d0 o k = List.replicate k 0 →
      extract (es.foldl (fun d r => splice d r.off (entry r)) d0) o k
        = List.replicate k 0 := by
  induction es with
  | nil => exact fun d0 _ h => h
  | cons a es ih =>
    intro d0 hd h
    rw [List.foldl_cons]
    have hlen : a.off + (entry a).length ≤ d0.length := by
      rw [entry_length]
      have := hends a (List.mem_cons_self a es)
      omega
    refine ih (fun r hr => hends r (List.mem_cons_of_mem a hr)) _ ?_ ?_
    · rw [splice_length hlen]
      exact hd
    · rw [extract_splice_after hlen (by
        rw [entry_length]
        exact hends a (List.mem_cons_self a es))]
      exact h

/-- The page data region beyond `used` is all zeroes. -/
theorem pageData_zero_after {es : List Pl} {q : Nat}
    (hpid : ∀ r ∈ es, r.pid = q) (hch : chainFrom 0 es)
    {o k : Nat} (ho : pageUsed es q ≤ o) (hk : o + k ≤ DATA_CAP) :
    extract (pageData es q) o k = List.replicate k 0 := by
  have hch2 : chainFrom 0 (pageEntries es q) := by
    rw [pageEntries_self hpid]
    exact hch
  have hends : ∀ r ∈ es, r.off + eLen r ≤ o := by
    intro r hr
    have h1 := entry_end_le_used hch2
      (show r ∈ pageEntries es q by rw [pageEntries_self hpid]; exact hr)
    omega
  rw [pageData, pageEntries_self hpid]
  exact spliceFold_extract_zero hends _
    (by rw [List.length_replicate]; omega) (extract_replicate hk)

/-- The record-extraction facts for one chained entry of a page (the shape
`get`, the page scan and replay all rely on). -/
theorem entry_extract_wf {es : List Pl} {q : Nat}
    (hpid : ∀ x ∈ es, x.pid = q) (hch : chainFrom 0 es)
    (hfits : ∀ x ∈ es, x.off + eLen x ≤ DATA_CAP)
    {r : Pl} (hr : r ∈ es) :
    fromLe (extract (pageData es q) r.off 4) = r.key.length
    ∧ fromLe (extract (pageData es q) (r.off + 4) 4) = r.val.length
    ∧ extract (pageData es q) (r.off + 8) r.key.length = r.key
    ∧ extract (pageData es q) (r.off + 8 + r.key.length) r.val.length = r.val
    ∧ r.off + 8 + r.key.length + r.val.length ≤ pageUsed es q := by
  have hch2 : chainFrom 0 (pageEntries es q) := by
    rw [pageEntries_self hpid]
    exact hch
  have hpe : r ∈ pageEntries es q := by
    rw [pageEntries_self hpid]
    exact hr
  have hx : extract (pageData es q) r.off (eLen r) = entry r :=
    pageData_extract hch2 hfits hpe
  have hfr := hfits r hr
  have hel : eLen r = 8 + r.key.length + r.val.length := by rw [eLen]
  have h44 : (256 : Nat) ^ 4 = 4294967296 := by norm_num
  have hdc : DATA_CAP = 8164 := by norm_num [DATA_CAP, PAGE_SIZE, HDR_SZ]
  have hkl : r.key.length < 256 ^ 4 := by omega
  have hvl : r.val.length < 256 ^ 4 := by omega
  refine ⟨?_, ?_, ?_, ?_, ?_⟩
  · have h1 := extract_extract (l := pageData es q)
      (o := r.off) (n := eLen r) (a := 0) (m := 4) (by omega)
    rw [hx] at h1
    rw [show r.off = r.off + 0 from by omega, ← h1, entry,
      entryOf_extract_klen, fromLe_leBytes_small hkl]
  · have h1 := extract_extract (l := pageData es q)
      (o := r.off) (n := eLen r) (a := 4) (m := 4) (by omega)
    rw [hx] at h1
    rw [← h1, entry, entryOf_extract_vlen, fromLe_leBytes_small hvl]
  · have h1 := extract_extract (l := pageData es q)
      (o := r.off) (n := eLen r) (a := 8) (m := r.key.length) (by omega)
    rw [hx] at h1
    rw [← h1, entry, entryOf_extract_key]
  · have h1 := extract_extract (l := pageData es q)
      (o := r.off) (n := eLen r) (a := 8 + r.key.length) (m := r.val.length)
      (by omega)
    rw [hx] at h1
    rw [show r.off + 8 + r.key.length = r.off + (8 + r.key.length) from by omega,
      ← h1, entry, entryOf_extract_val]
  · have h2 := entry_end_le_used hch2 hpe
    omega

theorem pageData_length_of {es : List Pl} {q : Nat}
    (hpid : ∀ x ∈ es, x.pid = q) (hch : chainFrom 0 es)
    (hfits : ∀ x ∈ es, x.off + eLen x ≤ DATA_CAP) :
    (pageData es q).length = DATA_CAP :=
  pageData_length (by rw [pageEntries_self hpid]; exact hch) hfits

theorem pageUsed_le_of {es : List Pl} {q : Nat}
    (hpid : ∀ x ∈ es, x.pid = q) (hch : chainFrom 0 es)
    (hfits : ∀ x ∈ es, x.off + eLen x ≤ DATA_CAP) :
    pageUsed es q ≤ DATA_CAP :=
  pageUsed_le (by rw [pageEntries_self hpid]; exact hch) hfits

theorem pageUsed_pos_of {es : List Pl} {q : Nat}
    (hpid : ∀ x ∈ es, x.pid = q) (hch : chainFrom 0 es) (hne : es ≠ []) :
    0 < pageUsed es q :=
  pageUsed_pos (by rw [pageEntries_self hpid]; exact hch)
    (by rw [pageEntries_self hpid]; exact hne)

/-- The index rebuild walk of `Engine::open` on a page of chained records:
every binding it inserts is a record of the chain (it stops at the zero
bytes past `used`, or early on an empty-key record). -/
theorem parseKvs_sub {es : List Pl} {q : Nat}
    (hpid : ∀ x ∈ es, x.pid = q) (hch : chainFrom 0 es)
    (hfits : ∀ x ∈ es, x.off + eLen x ≤ DATA_CAP) :
    ∀ es2 o idx,
      chainFrom o es2 → (∀ r ∈ es2, r ∈ es) →
      pageUsed es q = endOf o es2 →
      ∀ b ∈ parseKvs (pageData es q) q o idx,
        b ∈ idx ∨ ∃ r, r ∈ es ∧ b = (r.key, (q, r.off, r.val.length)) := by
  have hdl : (pageData es q).length = DATA_CAP :=
    pageData_length_of hpid hch hfits
  intro es2
  induction es2 with
  | nil =>
    intro o idx hch2 hsub hlast b hb
    rw [endOf, List.foldl_nil] at hlast
    rw [parseKvs] at hb
    by_cases h12 : o + 12 ≤ (pageData es q).length
    · rw [dif_pos h12] at hb
      have hz : fromLe (extract (pageData es q) o 4) = 0 := by
        rw [pageData_zero_after hpid hch (by omega) (by omega)]
        decide
      rw [hz, if_pos (Or.inl rfl)] at hb
      exact Or.inl hb
    · rw [dif_neg h12] at hb
      exact Or.inl hb
  | cons r es2 ih =>
    intro o idx hch2 hsub hlast b hb
    obtain ⟨hro, hch3⟩ := hch2
    subst hro
    rw [endOf_cons] at hlast
    have hrmem : r ∈ es := hsub r (List.mem_cons_self r es2)
    have hwf := entry_extract_wf hpid hch hfits hrmem
    have hfr := hfits r hrmem
    have hel : eLen r = 8 + r.key.length + r.val.length := by rw [eLen]
    rw [parseKvs] at hb
    by_cases h12 : r.off + 12 ≤ (pageData es q).length
    · rw [dif_pos h12, hwf.1, hwf.2.1] at hb
      by_cases hk0 : r.key.length = 0
      · rw [if_pos (Or.inl hk0)] at hb
        exact Or.inl hb
      · rw [if_neg (by
          push_neg
          refine ⟨hk0, ?_⟩
          rw [hdl]
          omega), hwf.2.2.1] at hb
        have hb2 := ih (r.off + (8 + r.key.length + r.val.length))
          ((r.key, (q, r.off, r.val.length)) :: idx)
          (by rw [show r.off + (8 + r.key.length + r.val.length)
              = r.off + eLen r by omega]
              exact hch3)
          (fun x hx => hsub x (List.mem_cons_of_mem r hx))
          (by rw [hlast]
              rw [show r.off + (8 + r.key.length + r.val.length)
                = r.off + eLen r by omega])
          b hb
        rcases hb2 with hb3 | hb3
        · rcases List.mem_cons.mp hb3 with hb4 | hb4
          · exact Or.inr ⟨r, hrmem, hb4⟩
          · exact Or.inl hb4
        · exact Or.inr hb3
    · rw [dif_neg h12] at hb
      exact Or.inl hb

/-- The page scan of `Engine::open` on a represented file: when it returns
successfully it has walked every block (they all decode, since a zero block
would fail it) and stopped at end of file, and every binding it inserted
points at a record of a written page. -/
theorem scanPages_rep {file : List Nat} {bs : Nat → Option (List Pl)}
    {mp : Nat} (hrep : FileRep file bs mp) :
    ∀ m q idx idx2 np, mp - q ≤ m → q ≤ mp →
      scanPages file q idx = .ok (idx2, np) →
      np = mp ∧ ∀ b ∈ idx2, b ∈ idx ∨ GoodBind bs b := by
  obtain ⟨hlen, hnone, hblocks⟩ := hrep
  have hps : PAGE_SIZE = 8192 := by norm_num [PAGE_SIZE]
  have hstop : ∀ idx idx2 np, scanPages file mp idx = .ok (idx2, np) →
      np = mp ∧ ∀ b ∈ idx2, b ∈ idx ∨ GoodBind bs b := by
    intro idx idx2 np hscan
    rw [scanPages, if_pos (by rw [hlen])] at hscan
    simp only [Except.ok.injEq, Prod.mk.injEq] at hscan
    obtain ⟨h3, h4⟩ := hscan
    subst h3
    subst h4
    exact ⟨rfl, fun b hb => Or.inl hb⟩
  intro m
  induction m with
  | zero =>
    intro q idx idx2 np hm hq hscan
    have hq2 : q = mp := by omega
    subst hq2
    exact hstop idx idx2 np hscan
  | succ m ih =>
    intro q idx idx2 np hm hq hscan
    by_cases hqmp : q = mp
    · subst hqmp
      exact hstop idx idx2 np hscan
    · have hqlt : q < mp := by omega
      rw [scanPages, if_neg (by rw [hlen, hps]; omega)] at hscan
      have hbl := hblocks q hqlt
      cases hbsq : bs q with
      | none =>
        rw [hbsq] at hbl
        rw [readPage_zero hbl] at hscan
        simp at hscan
      | some es =>
        rw [hbsq] at hbl
        obtain ⟨hne, hq64, hpid, hch, hfits, hpb, l, hl64, hread⟩ := hbl
        rw [hread] at hscan
        dsimp only at hscan
        have hpos := pageUsed_pos_of hpid hch hne
        rw [if_neg (by intro hcon; omega)] at hscan
        have hnext := ih (q + 1) (parseKvs (pageData es q) q 0 idx) idx2 np
          (by omega) (by omega) hscan
        refine ⟨hnext.1, ?_⟩
        intro b hb
        rcases hnext.2 b hb with hb2 | hb2
        · rcases parseKvs_sub hpid hch hfits es 0 idx hch (fun r hr => hr)
            (by rw [pageUsed_eq_endOf, pageEntries_self hpid]) b hb2
            with h3 | ⟨r, hr, hbeq⟩
          · exact Or.inl h3
          · subst hbeq
            exact Or.inr ⟨es, r, (by rw [hbsq] : bs q = some es), hr,
              rfl, rfl, rfl⟩
        · exact Or.inr hb2

theorem writePage_some {file : List Nat} {p : Page}
    (h : p.data.length = DATA_CAP) :
    writePage file p
      = some (writeAt file (p.id * PAGE_SIZE) (pageBytes p)) := by
  rw [writePage, Page.to_bytes, if_pos (by rw [h]; rfl)]
  rfl

/-- Writing a serialized page into a represented file: the written block now
holds `es2`, every other block is untouched, and the file may have grown by
zero-padded blocks up to the written one. -/
theorem fileRep_writePage {file : List Nat} {bs : Nat → Option (List Pl)}
    {mp : Nat} (hrep : FileRep file bs mp) {pid : Nat} {p : Page}
    (hdata : p.data.length = DATA_CAP) (hid : p.id = pid)
    (hpid64 : pid < 2 ^ 64)
    (hbytes : ∀ b ∈ p.data, b < 256) (hused : p.used < 2 ^ 32)
    {es2 : List Pl} (hne : es2 ≠ []) (hpids : ∀ r ∈ es2, r.pid = pid)
    (hch : chainFrom 0 es2) (hfits : ∀ r ∈ es2, r.off + eLen r ≤ DATA_CAP)
    (hpb : plBytes es2) (hu : p.used = pageUsed es2 pid)
    (hd : p.data = pageData es2 pid) :
    FileRep (writeAt file (pid * PAGE_SIZE) (pageBytes p))
      (fun q => if q = pid then some es2 else bs q) (max mp (pid + 1)) := by
  obtain ⟨hlen, hnone, hblocks⟩ := hrep
  have hps : PAGE_SIZE = 8192 := by norm_num [PAGE_SIZE]
  have hbl : (pageBytes p).length = PAGE_SIZE := pageBytes_length hdata
  have hchunk : extract (writeAt file (pid * PAGE_SIZE) (pageBytes p))
      (pid * PAGE_SIZE) PAGE_SIZE = pageBytes p := by
    have h1 := extract_writeAt_self file (pageBytes p) (pid * PAGE_SIZE)
    rw [hbl] at h1
    exact h1
  have hpres : ∀ q, q ≠ pid → q < mp →
      extract (writeAt file (pid * PAGE_SIZE) (pageBytes p))
        (q * PAGE_SIZE) PAGE_SIZE = extract file (q * PAGE_SIZE) PAGE_SIZE := by
    intro q hqpid hqmp
    rcases Nat.lt_or_ge q pid with hlt | hge
    · exact extract_writeAt_before _ (by rw [hps]; omega)
        (by rw [hlen, hps]; omega)
    · have hgt : pid < q := by omega
      exact extract_writeAt_after (by rw [hbl, hps]; omega)
  refine ⟨?_, ?_, ?_⟩
  · rw [writeAt_length, hbl, hlen, hps]
    omega
  · intro q hq
    dsimp only
    rw [if_neg (by omega)]
    exact hnone q (by omega)
  · intro q hq
    dsimp only
    by_cases hqpid : q = pid
    · subst hqpid
      rw [if_pos rfl]
      refine ⟨hne, hpid64, hpids, hch, hfits, hpb, p.lsn % 2 ^ 64,
        Nat.mod_lt _ (by norm_num), ?_⟩
      rw [readPage]
      simp only [hchunk]
      rw [if_neg (by rw [hbl]; norm_num [PAGE_SIZE]),
        if_neg (by rw [hbl]; exact fun hcon => hcon rfl),
        from_bytes_pageBytes_mod hdata hbytes hused, hid, hu, hd,
        Nat.mod_eq_of_lt hpid64]
    · rw [if_neg hqpid]
      by_cases hqmp : q < mp
      · have hb := hblocks q hqmp
        cases hbsq : bs q with
        | none =>
          rw [hbsq] at hb
          show extract (writeAt file (pid * PAGE_SIZE) (pageBytes p))
            (q * PAGE_SIZE) PAGE_SIZE = List.replicate PAGE_SIZE 0
          rw [hpres q hqpid hqmp]
          exact hb
        | some es =>
          rw [hbsq] at hb
          obtain ⟨h1, h2, h3, h4, h5, h6, l, h7, h8⟩ := hb
          exact ⟨h1, h2, h3, h4, h5, h6, l, h7, by
            rw [readPage_congr (hpres q hqpid hqmp)]
            exact h8⟩
      · have hge : mp ≤ q := by omega
        have hlt : q < pid := by omega
        rw [hnone q hge]
        show extract (writeAt file (pid * PAGE_SIZE) (pageBytes p))
          (q * PAGE_SIZE) PAGE_SIZE = List.replicate PAGE_SIZE 0
        exact extract_writeAt_pad (by rw [hlen, hps]; omega)
          (by rw [hps]; omega)

/-- Replay of one logged `SET` whose record is already present on its page:
it succeeds, conses the decoded binding and only restamps the page lsn — the
file stays represented by the same block map. -/
theorem applySet_rep {file : List Nat} {bs : Nat → Option (List Pl)}
    {mp : Nat} (hrep : FileRep file bs mp)
    {pid : Nat} {es : List Pl} {r : Pl}
    (hbsq : bs pid = some es) (hr : r ∈ es) (lsn : Nat) (idx : Index) :
    applySet ⟨file, idx⟩ lsn (setPayload pid r.off r.key r.val)
        = .ok ⟨writeAt file (pid * PAGE_SIZE)
               (pageBytes ⟨pid, lsn, pageUsed es pid, pageData es pid⟩),
               (r.key, (pid, r.off, r.val.length)) :: idx⟩
      ∧ FileRep (writeAt file (pid * PAGE_SIZE)
          (pageBytes ⟨pid, lsn, pageUsed es pid, pageData es pid⟩)) bs mp := by
  have hdc : DATA_CAP = 8164 := by norm_num [DATA_CAP, PAGE_SIZE, HDR_SZ]
  have h84 : (256 : Nat) ^ 8 = 18446744073709551616 := by norm_num
  have h44 : (256 : Nat) ^ 4 = 4294967296 := by norm_num
  have hpidmp : pid < mp := by
    by_contra hcon
    rw [hrep.2.1 pid (by omega)] at hbsq
    exact Option.noConfusion hbsq
  have hb := hrep.2.2 pid hpidmp
  rw [hbsq] at hb
  obtain ⟨hnees, hpid64, hpids, hch, hfits, hpb, l, hl64, hread⟩ := hb
  have hfr := hfits r hr
  have hel : eLen r = 8 + r.key.length + r.val.length := by rw [eLen]
  have hpe : r ∈ pageEntries es pid := by
    rw [pageEntries_self hpids]
    exact hr
  have hch2 : chainFrom 0 (pageEntries es pid) := by
    rw [pageEntries_self hpids]
    exact hch
  have hdl : (pageData es pid).length = DATA_CAP :=
    pageData_length_of hpids hch hfits
  have hule : pageUsed es pid ≤ DATA_CAP := pageUsed_le_of hpids hch hfits
  have hpidv : fromLe (extract (setPayload pid r.off r.key r.val) 3 8)
      = pid := by
    rw [setPayload_extract_pid, fromLe_leBytes_small (by omega)]
  have hoffv : fromLe (extract (setPayload pid r.off r.key r.val) 11 4)
      = r.off := by
    rw [setPayload_extract_off, fromLe_leBytes_small (by omega)]
  have hklv : fromLe (extract (setPayload pid r.off r.key r.val) 15 4)
      = r.key.length := by
    rw [setPayload_extract_klen, fromLe_leBytes_small (by omega)]
  have hvlv : fromLe (extract (setPayload pid r.off r.key r.val) 19 4)
      = r.val.length := by
    rw [setPayload_extract_vlen, fromLe_leBytes_small (by omega)]
  have hsplice : splice (pageData es pid) r.off (entryOf r.key r.val)
      = pageData es pid := by
    apply splice_of_extract_eq
    rw [show (entryOf r.key r.val).length = eLen r by rw [entryOf_length, eLen],
      show entryOf r.key r.val = entry r from rfl]
    exact pageData_extract hch2 hfits hpe
  have hend := entry_end_le_used hch2 hpe
  have hmax : max (pageUsed es pid) (r.off + (entryOf r.key r.val).length)
      = pageUsed es pid := by
    rw [entryOf_length]
    omega
  have hfrep2 : FileRep (writeAt file (pid * PAGE_SIZE)
      (pageBytes ⟨pid, lsn, pageUsed es pid, pageData es pid⟩)) bs mp := by
    have h1 := fileRep_writePage hrep (p := ⟨pid, lsn, pageUsed es pid,
        pageData es pid⟩) hdl rfl hpid64 (pageData_bytes_lt hpb pid)
      (by
        show pageUsed es pid < 2 ^ 32
        omega)
      hnees hpids hch hfits hpb rfl rfl
    have hbs2 : (fun q => if q = pid then some es else bs q) = bs := by
      funext q
      by_cases hq : q = pid
      · subst hq
        rw [if_pos rfl, hbsq]
      · rw [if_neg hq]
    have hmax2 : max mp (pid + 1) = mp := by omega
    rw [hbs2, hmax2] at h1
    exact h1
  refine ⟨?_, hfrep2⟩
  rw [applySet]
  rw [setPayload_length,
    if_neg (show ¬(23 + r.key.length + r.val.length < 3) by omega),
    setPayload_take3,
    if_neg (show ¬(([0x53, 0x45, 0x54] : List Nat) ≠ [0x53, 0x45, 0x54])
      from fun hcon => hcon rfl)]
  dsimp only
  rw [hpidv, hoffv, hklv, hvlv,
    if_neg (show ¬(23 + r.key.length + r.val.length
      > 23 + r.key.length + r.val.length) by omega),
    setPayload_extract_key, setPayload_extract_val]
  cases hrp : readPage file pid with
  | error e =>
    rw [hread] at hrp
    simp at hrp
  | ok page =>
    have hp : page = ⟨pid, l, pageUsed es pid, pageData es pid⟩ := by
      rw [hread] at hrp
      exact (Except.ok.inj hrp).symm
    subst hp
    dsimp only
    rw [if_neg (by rw [entryOf_length, hdl]; omega), hsplice, hmax]
    rw [writePage_some (p := ⟨pid, lsn, pageUsed es pid, pageData es pid⟩) hdl]

/-- Replaying a log of applied records rebuilds only index bindings that
point at records of written pages, and leaves every page's contents (data
and used counter) unchanged. -/
theorem replayApply_rep {bs : Nat → Option (List Pl)} {mp : Nat} :
    ∀ (pairs : List (Nat × List Nat)) (file : List Nat) (idx : Index),
      FileRep file bs mp →
      (∀ pr ∈ pairs, pr.1 < U64 ∧ 12 + pr.2.length < 2 ^ 63
        ∧ (∀ b ∈ pr.2, b < 256)
        ∧ ∃ pid off kk vv, pr.2 = setPayload pid off kk vv
          ∧ ∃ es r, bs pid = some es ∧ r ∈ es ∧ r.off = off ∧ r.key = kk
            ∧ r.val = vv) →
      ∃ file2 idx2, replayApply (encodeLog pairs) ⟨file, idx⟩
          = .ok ⟨file2, idx2⟩
        ∧ FileRep file2 bs mp
        ∧ ∀ b ∈ idx2, b ∈ idx ∨ GoodBind bs b := by
  intro pairs
  induction pairs with
  | nil =>
    intro file idx hrep hprs
    refine ⟨file, idx, ?_, hrep, fun b hb => Or.inl hb⟩
    rw [show encodeLog [] = [] from rfl]
    exact replayApply_short (by simp) _
  | cons pr pairs ih =>
    intro file idx hrep hprs
    obtain ⟨lsn, payload⟩ := pr
    obtain ⟨hlsn, hsmall, hbyt, pid, off, kk, vv, hpay, es, r, hbsq, hr,
      hro, hrk, hrv⟩ := hprs (lsn, payload) (List.mem_cons_self _ pairs)
    have hsmall2 : 12 + payload.length < 2 ^ 63 := hsmall
    have hbyt2 : ∀ b ∈ payload, b < 256 := hbyt
    have hpay2 : payload = setPayload pid off kk vv := hpay
    rw [encodeLog, replayApply_record (by
        show 12 + payload.length < U64
        have : U64 = 18446744073709551616 := by norm_num [U64]
        have h63 : (2 : Nat) ^ 63 = 9223372036854775808 := by norm_num
        omega)
      hlsn hbyt2]
    have hpay3 : payload = setPayload pid r.off r.key r.val := by
      rw [hpay2, hro, hrk, hrv]
    rw [hpay3]
    have happ := applySet_rep hrep hbsq hr lsn idx
    rw [happ.1]
    dsimp only
    obtain ⟨file2, idx2, heq, hrep2, hsub⟩ := ih
      (writeAt file (pid * PAGE_SIZE)
        (pageBytes ⟨pid, lsn, pageUsed es pid, pageData es pid⟩))
      ((r.key, (pid, r.off, r.val.length)) :: idx)
      happ.2
      (fun x hx => hprs x (List.mem_cons_of_mem _ hx))
    refine ⟨file2, idx2, heq, hrep2, ?_⟩
    intro b hb
    rcases hsub b hb with hb2 | hb2
    · rcases List.mem_cons.mp hb2 with hb3 | hb3
      · subst hb3
        exact Or.inr ⟨es, r, hbsq, hr, rfl, rfl, rfl⟩
      · exact Or.inl hb3
    · exact Or.inr hb2

/-- The committed tail of a successful `set`: the entry is appended at the
end of the chain of page `pid` (a written page, or a fresh all-new one), the
page is serialized back in place, the WAL gains the framed `SET` record and
the index the new binding — all of which preserves the engine invariant. -/
theorem engWf_set_tail {walFile dataFile : List Nat} {nextLsn : Nat}
    {index : Index} {bs : Nat → Option (List Pl)} {mp : Nat}
    (hrep : FileRep dataFile bs mp)
    {pid : Nat} (hcur : ∀ q es, bs q = some es → q ≤ pid)
    (hidx : ∀ b ∈ index, GoodBind bs b)
    {pairs : List (Nat × List Nat)} (hwal : walFile = encodeLog pairs)
    (hprs : ∀ pr ∈ pairs, pr.1 < U64 ∧ 12 + pr.2.length < 2 ^ 63
      ∧ (∀ b ∈ pr.2, b < 256)
      ∧ ∃ pid0 off0 kk vv, pr.2 = setPayload pid0 off0 kk vv
        ∧ ∃ es r, bs pid0 = some es ∧ r ∈ es ∧ r.off = off0 ∧ r.key = kk
          ∧ r.val = vv)
    {es0 : List Pl} (hbs : bs pid = some es0 ∨ bs pid = none ∧ es0 = [])
    (hpid64 : pid < 2 ^ 64)
    {k v : List Nat} (hk : ∀ b ∈ k, b < 256) (hv : ∀ b ∈ v, b < 256)
    {u : Nat} {d : List Nat} (hu : u = pageUsed es0 pid)
    (hd : d = pageData es0 pid)
    (hfit : u + (8 + k.length + v.length) ≤ DATA_CAP) :
    EngWf ⟨walFile ++ walRecord nextLsn (setPayload pid u k v), nextLsn + 1,
           writeAt dataFile (pid * PAGE_SIZE)
             (pageBytes ⟨pid, nextLsn, u + (8 + k.length + v.length),
               splice d u (entryOf k v)⟩),
           (k, (pid, u, v.length)) :: index, pid⟩ := by
  subst hu
  subst hd
  have hc2 : DATA_CAP = 8164 := by norm_num [DATA_CAP, PAGE_SIZE, HDR_SZ]
  have hes0 : (∀ r ∈ es0, r.pid = pid) ∧ chainFrom 0 es0
      ∧ (∀ r ∈ es0, r.off + eLen r ≤ DATA_CAP) ∧ plBytes es0 := by
    rcases hbs with hbs1 | ⟨hbs1, hnil⟩
    · have hpidmp : pid < mp := by
        by_contra hcon
        rw [hrep.2.1 pid (by omega)] at hbs1
        exact Option.noConfusion hbs1
      have hb := hrep.2.2 pid hpidmp
      rw [hbs1] at hb
      obtain ⟨_, _, h3, h4, h5, h6, _⟩ := hb
      exact ⟨h3, h4, h5, h6⟩
    · subst hnil
      exact ⟨fun r hr => absurd hr (List.not_mem_nil r), trivial,
        fun r hr => absurd hr (List.not_mem_nil r),
        fun r hr => absurd hr (List.not_mem_nil r)⟩
  obtain ⟨hpids0, hch0, hfits0, hpb0⟩ := hes0
  have hdl0 : (pageData es0 pid).length = DATA_CAP :=
    pageData_length_of hpids0 hch0 hfits0
  have hpids2 : ∀ r ∈ es0 ++ [(⟨pid, pageUsed es0 pid, k, v, 0⟩ : Pl)],
      r.pid = pid := by
    intro r hr
    rcases List.mem_append.mp hr with h | h
    · exact hpids0 r h
    · rw [List.mem_singleton.mp h]
  have hch2 : chainFrom 0 (es0 ++ [(⟨pid, pageUsed es0 pid, k, v, 0⟩ : Pl)]) :=
    chainFrom_append_one hch0 (by
      show pageUsed es0 pid = endOf 0 es0
      rw [pageUsed_eq_endOf, pageEntries_self hpids0])
  have hfits2 : ∀ r ∈ es0 ++ [(⟨pid, pageUsed es0 pid, k, v, 0⟩ : Pl)],
      r.off + eLen r ≤ DATA_CAP := by
    intro r hr
    rcases List.mem_append.mp hr with h | h
    · exact hfits0 r h
    · rw [List.mem_singleton.mp h]
      dsimp only [eLen]
      omega
  have hpb2 : plBytes (es0 ++ [(⟨pid, pageUsed es0 pid, k, v, 0⟩ : Pl)]) := by
    intro r hr
    rcases List.mem_append.mp hr with h | h
    · exact hpb0 r h
    · rw [List.mem_singleton.mp h]
      exact ⟨hk, hv⟩
  have hne2 : es0 ++ [(⟨pid, pageUsed es0 pid, k, v, 0⟩ : Pl)] ≠ [] := by
    simp
  have hu2 : pageUsed (es0 ++ [(⟨pid, pageUsed es0 pid, k, v, 0⟩ : Pl)]) pid
      = pageUsed es0 pid + (8 + k.length + v.length) := by
    rw [pageUsed_eq_endOf, pageEntries_self hpids2, endOf_append_one]
    dsimp only [eLen]
  have hd2 : pageData (es0 ++ [(⟨pid, pageUsed es0 pid, k, v, 0⟩ : Pl)]) pid
      = splice (pageData es0 pid) (pageUsed es0 pid) (entryOf k v) := by
    rw [pageData, pageData, pageEntries_self hpids2, pageEntries_self hpids0,
      List.foldl_append, List.foldl_cons, List.foldl_nil]
    dsimp only [entry]
  have hdata3 : (splice (pageData es0 pid) (pageUsed es0 pid)
      (entryOf k v)).length = DATA_CAP := by
    rw [splice_length (by rw [entryOf_length, hdl0]; omega), hdl0]
  have hbytes3 : ∀ b ∈ splice (pageData es0 pid) (pageUsed es0 pid)
      (entryOf k v), b < 256 :=
    splice_bytes_lt (pageData_bytes_lt hpb0 pid)
      (entry_bytes_lt (r := ⟨pid, pageUsed es0 pid, k, v, 0⟩) hk hv)
  have hused3 : pageUsed es0 pid + (8 + k.length + v.length) < 2 ^ 32 :=
    lt_of_le_of_lt
      (show pageUsed es0 pid + (8 + k.length + v.length) ≤ 8164 by omega)
      (by norm_num)
  have hfr := fileRep_writePage (p := ⟨pid, nextLsn,
      pageUsed es0 pid + (8 + k.length + v.length),
      splice (pageData es0 pid) (pageUsed es0 pid) (entryOf k v)⟩)
    hrep hdata3 rfl hpid64 hbytes3 hused3 hne2 hpids2 hch2 hfits2 hpb2
    hu2.symm hd2.symm
  have hmono : ∀ q es, bs q = some es →
      ∃ es2, (if q = pid
          then some (es0 ++ [(⟨pid, pageUsed es0 pid, k, v, 0⟩ : Pl)])
          else bs q) = some es2
        ∧ ∀ x ∈ es, x ∈ es2 := by
    intro q es hq
    by_cases hqp : q = pid
    · subst hqp
      rcases hbs with hbs1 | ⟨hbs1, hnil⟩
      · rw [hbs1] at hq
        obtain rfl := Option.some.inj hq
        exact ⟨es0 ++ [(⟨q, pageUsed es0 q, k, v, 0⟩ : Pl)],
          by rw [if_pos rfl], fun x hx => List.mem_append_left _ hx⟩
      · rw [hbs1] at hq
        exact Option.noConfusion hq
    · exact ⟨es, by rw [if_neg hqp]; exact hq, fun x hx => hx⟩
  refine ⟨fun q => if q = pid
      then some (es0 ++ [(⟨pid, pageUsed es0 pid, k, v, 0⟩ : Pl)]) else bs q,
    max mp (pid + 1), hfr, ?_, ?_,
    pairs ++ [(nextLsn % U64, setPayload pid (pageUsed es0 pid) k v)],
    ?_, ?_⟩
  · intro q es hq
    show q ≤ pid
    dsimp only at hq
    by_cases hqp : q = pid
    · omega
    · rw [if_neg hqp] at hq
      exact hcur q es hq
  · intro b hb
    rcases List.mem_cons.mp hb with hb1 | hb1
    · subst hb1
      refine ⟨es0 ++ [(⟨pid, pageUsed es0 pid, k, v, 0⟩ : Pl)],
        (⟨pid, pageUsed es0 pid, k, v, 0⟩ : Pl), ?_,
        List.mem_append_right _ (List.mem_cons_self _ _), rfl, rfl, rfl⟩
      show (if pid = pid
          then some (es0 ++ [(⟨pid, pageUsed es0 pid, k, v, 0⟩ : Pl)])
          else bs pid)
        = some (es0 ++ [(⟨pid, pageUsed es0 pid, k, v, 0⟩ : Pl)])
      rw [if_pos rfl]
    · obtain ⟨es, r, h1, h2, h3, h4, h5⟩ := hidx b hb1
      obtain ⟨es2, h6, h7⟩ := hmono _ _ h1
      exact ⟨es2, r, h6, h7 r h2, h3, h4, h5⟩
  · rw [hwal, encodeLog_append, encodeLog_singleton, walRecord_mod]
  · intro pr hpr
    rcases List.mem_append.mp hpr with hprm | hprm
    · obtain ⟨hl, hsm, hby, pid0, off0, kk, vv, hpay, es, r, h1, h2, h3, h4,
        h5⟩ := hprs pr hprm
      obtain ⟨es2, h6, h7⟩ := hmono _ _ h1
      exact ⟨hl, hsm, hby, pid0, off0, kk, vv, hpay, es2, r, h6, h7 r h2,
        h3, h4, h5⟩
    · obtain rfl := List.mem_singleton.mp hprm
      refine ⟨Nat.mod_lt _ (by norm_num [U64]), ?_, setPayload_lt hk hv,
        pid, pageUsed es0 pid, k, v, rfl,
        es0 ++ [(⟨pid, pageUsed es0 pid, k, v, 0⟩ : Pl)],
        (⟨pid, pageUsed es0 pid, k, v, 0⟩ : Pl), ?_,
        List.mem_append_right _ (List.mem_cons_self _ _), rfl, rfl, rfl⟩
      · rw [setPayload_length]
        omega
      · show (if pid = pid
            then some (es0 ++ [(⟨pid, pageUsed es0 pid, k, v, 0⟩ : Pl)])
            else bs pid)
          = some (es0 ++ [(⟨pid, pageUsed es0 pid, k, v, 0⟩ : Pl)])
        rw [if_pos rfl]

/-- `Engine::set` under an error-free filesystem preserves the engine
invariant (for byte-string keys/values, with the u64 page counter not
wrapped). -/
theorem engWf_set {st st2 : Engine} {k v : List Nat}
    (hwf : EngWf st) (hk : ∀ b ∈ k, b < 256) (hv : ∀ b ∈ v, b < 256)
    (hnp : st.nextPage + 1 < 2 ^ 64)
    (hset : Engine.setWith false false st k v = .ok st2) :
    EngWf st2 := by
  obtain ⟨bs, mp, hrep, hcur, hidx, pairs, hwal, hprs⟩ := hwf
  have hc1 : PAGE_SIZE - pager_hdr_sz = 8160 := by
    norm_num [PAGE_SIZE, pager_hdr_sz]
  have hc2 : DATA_CAP = 8164 := by norm_num [DATA_CAP, PAGE_SIZE, HDR_SZ]
  have hbsp : bs (st.nextPage + 1) = none := by
    cases hbspc : bs (st.nextPage + 1) with
    | none => rfl
    | some es1 => exact absurd (hcur _ _ hbspc) (by omega)
  unfold Engine.setWith at hset
  by_cases hcm : st.nextPage < mp
  · cases hbs0 : bs st.nextPage with
    | none =>
      have hb := hrep.2.2 st.nextPage hcm
      rw [hbs0] at hb
      rw [readPage_zero hb] at hset
      simp at hset
    | some es0 =>
      have hb := hrep.2.2 st.nextPage hcm
      rw [hbs0] at hb
      obtain ⟨hne0, hq64, hpids0, hch0, hfits0, hpb0, l, hl64, hread0⟩ := hb
      have hdl0 : (pageData es0 st.nextPage).length = DATA_CAP :=
        pageData_length_of hpids0 hch0 hfits0
      rw [hread0] at hset
      dsimp only at hset
      by_cases hroll : PAGE_SIZE - pager_hdr_sz
          < pageUsed es0 st.nextPage + (8 + k.length + v.length)
      · simp only [if_pos hroll, Page.new, Bool.false_eq_true, if_false]
          at hset
        by_cases hpm : st.nextPage + 1 < mp
        · have hb2 := hrep.2.2 _ hpm
          rw [hbsp] at hb2
          rw [readPage_zero hb2] at hset
          simp at hset
        · have hre : readPage st.dataFile (st.nextPage + 1)
              = .ok (Page.new (st.nextPage + 1)) :=
            readPage_eof (by
              rw [hrep.1]
              exact Nat.mul_le_mul_right _ (by omega))
          rw [hre] at hset
          dsimp only [Page.new] at hset
          by_cases hgd : 0 + (entryOf k v).length
              > (List.replicate DATA_CAP (0 : Nat)).length
          · rw [if_pos hgd] at hset
            exact SetResult.noConfusion hset
          · rw [if_neg hgd] at hset
            rw [entryOf_length, List.length_replicate] at hgd
            rw [entryOf_length] at hset
            rw [writePage_some (p := ⟨st.nextPage + 1, st.nextLsn,
                0 + (8 + k.length + v.length),
                splice (List.replicate DATA_CAP 0) 0 (entryOf k v)⟩)
              (by
                show (splice (List.replicate DATA_CAP 0) 0
                  (entryOf k v)).length = DATA_CAP
                rw [splice_length (by
                    rw [entryOf_length, List.length_replicate]
                    omega),
                  List.length_replicate])] at hset
            dsimp only at hset
            injection hset with hst2
            subst hst2
            exact engWf_set_tail hrep
              (fun q es hq => by have := hcur q es hq; omega) hidx hwal hprs
              (Or.inr ⟨hbsp, rfl⟩) (by omega) hk hv rfl rfl (by omega)
      · simp only [if_neg hroll, Bool.false_eq_true, if_false] at hset
        rw [hread0] at hset
        dsimp only at hset
        rw [if_neg (by
            rw [entryOf_length, hdl0]
            omega)] at hset
        rw [entryOf_length] at hset
        rw [writePage_some (p := ⟨st.nextPage, st.nextLsn,
            pageUsed es0 st.nextPage + (8 + k.length + v.length),
            splice (pageData es0 st.nextPage) (pageUsed es0 st.nextPage)
              (entryOf k v)⟩)
          (by
            show (splice (pageData es0 st.nextPage) (pageUsed es0 st.nextPage)
              (entryOf k v)).length = DATA_CAP
            rw [splice_length (by
                rw [entryOf_length, hdl0]
                omega),
              hdl0])] at hset
        dsimp only at hset
        injection hset with hst2
        subst hst2
        exact engWf_set_tail hrep hcur hidx hwal hprs (Or.inl hbs0)
          (by omega) hk hv rfl rfl (by omega)
  · have hmle : mp ≤ st.nextPage := by omega
    have hre0 : readPage st.dataFile st.nextPage
        = .ok (Page.new st.nextPage) :=
      readPage_eof (by
        rw [hrep.1]
        exact Nat.mul_le_mul_right _ hmle)
    rw [hre0] at hset
    dsimp only [Page.new] at hset
    by_cases hroll : PAGE_SIZE - pager_hdr_sz < 0 + (8 + k.length + v.length)
    · simp only [if_pos hroll, Page.new, Bool.false_eq_true, if_false] at hset
      have hre : readPage st.dataFile (st.nextPage + 1)
          = .ok (Page.new (st.nextPage + 1)) :=
        readPage_eof (by
          rw [hrep.1]
          exact Nat.mul_le_mul_right _ (by omega))
      rw [hre] at hset
      dsimp only [Page.new] at hset
      by_cases hgd : 0 + (entryOf k v).length
          > (List.replicate DATA_CAP (0 : Nat)).length
      · rw [if_pos hgd] at hset
        exact SetResult.noConfusion hset
      · rw [if_neg hgd] at hset
        rw [entryOf_length, List.length_replicate] at hgd
        rw [entryOf_length] at hset
        rw [writePage_some (p := ⟨st.nextPage + 1, st.nextLsn,
            0 + (8 + k.length + v.length),
            splice (List.replicate DATA_CAP 0) 0 (entryOf k v)⟩)
          (by
            show (splice (List.replicate DATA_CAP 0) 0
              (entryOf k v)).length = DATA_CAP
            rw [splice_length (by
                rw [entryOf_length, List.length_replicate]
                omega),
              List.length_replicate])] at hset
        dsimp only at hset
        injection hset with hst2
        subst hst2
        exact engWf_set_tail hrep
          (fun q es hq => by have := hcur q es hq; omega) hidx hwal hprs
          (Or.inr ⟨hbsp, rfl⟩) (by omega) hk hv rfl rfl (by omega)
    · simp only [if_neg hroll, Bool.false_eq_true, if_false] at hset
      rw [hre0] at hset
      dsimp only [Page.new] at hset
      rw [if_neg (by
          rw [entryOf_length, List.length_replicate]
          omega)] at hset
      rw [entryOf_length] at hset
      rw [writePage_some (p := ⟨st.nextPage, st.nextLsn,
          0 + (8 + k.length + v.length),
          splice (List.replicate DATA_CAP 0) 0 (entryOf k v)⟩)
        (by
          show (splice (List.replicate DATA_CAP 0) 0
            (entryOf k v)).length = DATA_CAP
          rw [splice_length (by
              rw [entryOf_length, List.length_replicate]
              omega),
            List.length_replicate])] at hset
      dsimp only at hset
      injection hset with hst2
      subst hst2
      exact engWf_set_tail hrep hcur hidx hwal hprs
        (Or.inr ⟨hrep.2.1 _ hmle, rfl⟩) (by omega) hk hv rfl rfl (by omega)

/-- `Engine::open` on the files of an invariant state preserves the engine
invariant: the page scan walks every written block (rebuilding only bindings
to records of written pages) and WAL replay of the already-applied records
restamps page lsns without changing any page contents. -/
theorem engWf_open {st st2 : Engine} (hwf : EngWf st)
    (hopen : Engine.open st.dataFile st.walFile = .ok st2) : EngWf st2 := by
  obtain ⟨bs, mp, hrep, hcur, hidx, pairs, hwal, hprs⟩ := hwf
  unfold Engine.open at hopen
  cases hcn : compute_next_lsn st.walFile with
  | error e =>
    rw [hcn] at hopen
    simp at hopen
  | ok nextLsn =>
    rw [hcn] at hopen
    dsimp only at hopen
    cases hsc : scanPages st.dataFile 0 [] with
    | error e =>
      rw [hsc] at hopen
      simp at hopen
    | ok pr =>
      obtain ⟨idx2, np⟩ := pr
      rw [hsc] at hopen
      dsimp only at hopen
      cases hra : replayApply st.walFile ⟨st.dataFile, idx2⟩ with
      | error e =>
        rw [hra] at hopen
        simp at hopen
      | ok rst =>
        rw [hra] at hopen
        dsimp only at hopen
        obtain rfl := Except.ok.inj hopen
        obtain ⟨hnp, hbind⟩ := scanPages_rep hrep mp 0 [] idx2 np
          (by omega) (Nat.zero_le _) hsc
        subst hnp
        obtain ⟨file2, idx3, heq, hrep2, hsub⟩ :=
          replayApply_rep pairs st.dataFile idx2 hrep hprs
        rw [hwal, heq] at hra
        obtain rfl := Except.ok.inj hra
        refine ⟨bs, np, hrep2, ?_, ?_, pairs, hwal, hprs⟩
        · intro q es hq
          show q ≤ np
          by_contra hcon
          rw [hrep2.2.1 q (by omega)] at hq
          exact Option.noConfusion hq
        · intro b hb
          rcases hsub b hb with hb2 | hb2
          · rcases hbind b hb2 with hb3 | hb3
            · exact absurd hb3 (List.not_mem_nil b)
            · exact hb3
          · exact hb2

/-- Every state reachable through the engine interface (a fresh directory,
successful sets and reopenings, arbitrarily interleaved) satisfies the
engine invariant. -/
theorem engWf_reach {st : Engine} (h : ReachF st) : EngWf st := by
  induction h with
  | init =>
    refine ⟨fun _ => none, 0,
      ⟨rfl, fun q _ => rfl, fun q hq => absurd hq (Nat.not_lt_zero q)⟩,
      ?_, ?_, [], rfl, ?_⟩
    · intro q es hq
      exact Option.noConfusion hq
    · intro b hb
      exact absurd hb (List.not_mem_nil b)
    · intro pr hpr
      exact absurd hpr (List.not_mem_nil pr)
  | set hre hk hv hnp hst ih => exact engWf_set ih hk hv hnp hst
  | reopen hre hop ih => exact engWf_open ih hop

/-- C9: in every engine state reachable through the engine interface — a
fresh directory followed by any interleaving of successful byte-string `set`
calls and reopenings via `Engine::open` (whose page scan and WAL replay
rebuild the index) — every index binding `key ↦ (pid, off, vlen)` points at
a well-formed in-page record: reading page `pid` back, the u32 at `off` is
`len(key)`, the u32 at `off + 4` is `vlen`, the bytes at `off + 8` are the
key, and the record ends within the page's `used` region — exactly the
shape `get` relies on. -/
theorem claim_C9 {st : Engine} (h : ReachF st) {key : List Nat}
    {pid off vlen : Nat} (hmem : (key, (pid, off, vlen)) ∈ st.index) :
    ∃ page, readPage st.dataFile pid = .ok page
      ∧ fromLe (extract page.data off 4) = key.length
      ∧ fromLe (extract page.data (off + 4) 4) = vlen
      ∧ extract page.data (off + 8) key.length = key
      ∧ off + 8 + key.length + vlen ≤ page.used := by
  obtain ⟨bs, mp, hrep, hcur, hidx, pairs, hwal, hprs⟩ := engWf_reach h
  obtain ⟨es, r, hbsq, hr, hro, hrk, hrv⟩ := hidx _ hmem
  dsimp only at hbsq hro hrk hrv
  subst hro
  subst hrk
  subst hrv
  have hpidmp : pid < mp := by
    by_contra hcon
    rw [hrep.2.1 pid (by omega)] at hbsq
    exact Option.noConfusion hbsq
  have hb := hrep.2.2 pid hpidmp
  rw [hbsq] at hb
  obtain ⟨hne, hq64, hpids, hch, hfits, hpb, l, hl64, hread⟩ := hb
  have hwf := entry_extract_wf hpids hch hfits hr
  exact ⟨⟨pid, l, pageUsed es pid, pageData es pid⟩, hread, hwf.1, hwf.2.1,
    hwf.2.2.1, hwf.2.2.2.2⟩

/-- C9 witness: the state after one successful set on a fresh directory
binds its key to a record that reads back intact from page 0. -/
theorem claim_C9_witness :
    ∃ page, readPage (specEngine [([107], [118])]).dataFile 0 = .ok page
      ∧ fromLe (extract page.data 0 4) = ([107] : List Nat).length
      ∧ fromLe (extract page.data (0 + 4) 4) = 1
      ∧ extract page.data (0 + 8) ([107] : List Nat).length = [107]
      ∧ 0 + 8 + ([107] : List Nat).length + 1 ≤ page.used := by
  have h1 := setWith_spec
    (show opsFit ([] ++ [([107], [118])]) by
      intro x hx
      simp at hx
      subst hx
      decide)
    (show opsBytes ([] ++ [([107], [118])]) by
      intro x hx
      simp at hx
      subst hx
      decide)
    (by decide)
  rw [specEngine_nil] at h1
  have h2 : Engine.setWith false false Engine.init [107] [118]
      = .ok (specEngine [([107], [118])]) := h1
  exact claim_C9
    (ReachF.set ReachF.init (by decide) (by decide) (by decide) h2)
    (by decide)

end TinyDb
